import Mathlib

/-!
Verification of the solana-latency-checker repository (main.go) against its
natural-language specification.

The development is a shallow embedding of `main.go` into Lean:

* Pure data (`ClusterNode`, `ClusterLatency`) is translated directly.
* External collaborators are modelled by oracles: `http.Post` + `io.ReadAll`
  become a `fetchBody` oracle, `json.Unmarshal` an `unmarshal` oracle and the
  `go-ping` prober a `Probe` oracle (`ping.NewPinger` / `Pinger.Run` errors are
  merged into the oracle's error case; `Statistics()` yields a `PingStats`
  record whose `packetLoss` field models the float64 `PacketLoss` percentage as
  a rational — the code only ever compares it with `0`).
* `checkLatency`'s fan-out (`errgroup` + semaphore channel + progress bar) is
  sequentialised: every goroutine runs to completion (a plain `errgroup.Group`
  never cancels siblings), appends and bar increments are recorded in peer-list
  order (the real completion order is scheduling dependent; every theorem below
  only uses order-independent consequences), and `eg.Wait()` is modelled as
  returning the first recorded error (the real one returns the temporally first
  error; the theorems only use its existence or absence).
  The genuinely concurrent aspects (the semaphore bound and the unsynchronized
  slice append) are modelled separately as small transition systems.
* `sort.Slice` is embedded as Go's pre-1.19 `quickSort_func`
  (`sort/zsortfunc.go`: insertion sort for segments of at most 12 elements
  preceded by a ShellSort gap-6 pass, median-of-three quicksort with a heapsort
  depth fallback otherwise), faithful to the repository's dependency era.
  Loops are written fuel-based; the fuel is ample for every list.
* `net/url`'s `Parse`/`String` (Go 1.17) are embedded over `List Char`
  (inputs of interest are ASCII, so Go's bytes coincide with Lean's `Char`s).
-/

set_option linter.unusedVariables false

namespace SolanaLatencyChecker

/-! ## Data model (`main.go` lines 63-81) -/

/-- `ClusterNode` (main.go lines 73-81): one JSON peer record. `uint` fields are
modelled as `Nat`. -/
structure ClusterNode where
  featureSet : Nat
  gossip : String
  pubkey : String
  rpc : String
  shredVersion : Nat
  tpu : String
  version : String
deriving DecidableEq, Repr, Inhabited

/-- `ClusterLatency` (main.go lines 67-71). `Time` is a Go `time.Duration`,
an `int64` count of nanoseconds, modelled as `Int`. The Go field is a pointer
`*ClusterNode`; the embedding stores the pointed-to value. -/
structure ClusterLatency where
  time : Int
  ip : String
  clusterNode : ClusterNode
deriving DecidableEq, Repr, Inhabited

/-- Result of `pinger.Statistics()` as consumed by main.go line 146-147:
`PacketLoss` (a float64 percentage, modelled as `Rat`; the code only compares
it with `0`) and `AvgRtt` (a `time.Duration`). -/
structure PingStats where
  packetLoss : Rat
  avgRtt : Int
deriving DecidableEq, Repr, Inhabited

/-- Network oracle for one peer: the combined outcome of
`ping.NewPinger(split[0])` and `pinger.Run()` (either can return an error,
main.go lines 134-144), and on success the `Statistics()` record. -/
abbrev Probe := String → Except String PingStats

/-! ## `sort.Slice` embedding (Go pre-1.19 `sort/zsortfunc.go`)

The comparison closure from main.go line 161 is
`func(i, j int) bool { return latency[i].Time < latency[j].Time }`. -/

/-- The `less` closure of main.go line 161. -/
def ltCL (x y : ClusterLatency) : Bool := decide (x.time < y.time)

/-- `data.Swap(i, j)` on a slice: exchange positions `i` and `j`. -/
def swapL (l : List ClusterLatency) (i j : Nat) : List ClusterLatency :=
  (l.set i (l.get! j)).set j (l.get! i)

/-- Inner loop of `insertionSort_func`:
`for j := i; j > a && data.Less(j, j-1); j-- { data.Swap(j, j-1) }`,
structurally recursive in `j`. -/
def bubbleGo (a : Nat) : List ClusterLatency → Nat → List ClusterLatency
  | l, 0 => l
  | l, j+1 =>
    if j + 1 ≤ a then l
    else if ltCL (l.get! (j+1)) (l.get! j) then bubbleGo a (swapL l j (j+1)) j
    else l

/-- `insertionSort_func(data, a, b)`: outer loop `for i := a+1; i < b; i++`. -/
def insertionSortGo (l : List ClusterLatency) (a b : Nat) : List ClusterLatency :=
  (List.range' (a+1) (b - (a+1))).foldl (bubbleGo a) l

/-- The ShellSort gap-6 pass of `quickSort_func`:
`for i := a + 6; i < b; i++ { if data.Less(i, i-6) { data.Swap(i, i-6) } }`. -/
def shellGo (l : List ClusterLatency) (a b : Nat) : List ClusterLatency :=
  (List.range' (a+6) (b - (a+6))).foldl
    (fun acc i => if ltCL (acc.get! i) (acc.get! (i-6)) then swapL acc (i-6) i else acc) l

/-- Loop body of `siftDown_func(data, lo, hi, first)` (fuel-based; the child
index at least doubles every iteration, so fuel `hi+1` is ample). -/
def siftDownLoop : Nat → List ClusterLatency → Nat → Nat → Nat → List ClusterLatency
  | 0, l, _, _, _ => l
  | fuel+1, l, root, hi, first =>
    let child := 2*root + 1
    if hi ≤ child then l
    else
      let child := if child + 1 < hi ∧ ltCL (l.get! (first+child)) (l.get! (first+child+1))
        then child + 1 else child
      if ¬ ltCL (l.get! (first+root)) (l.get! (first+child)) then l
      else siftDownLoop fuel (swapL l (first+root) (first+child)) child hi first

/-- `siftDown_func(data, lo, hi, first)`. -/
def siftDownGo (l : List ClusterLatency) (lo hi first : Nat) : List ClusterLatency :=
  siftDownLoop (hi+1) l lo hi first

/-- `heapSort_func(data, a, b)`: build the heap with decreasing sift roots,
then repeatedly swap the maximum to the end and sift. -/
def heapSortGo (l : List ClusterLatency) (a b : Nat) : List ClusterLatency :=
  let first := a
  let hi := b - a
  let l1 := ((List.range ((hi - 1)/2 + 1)).reverse).foldl
    (fun acc i => siftDownGo acc i hi first) l
  ((List.range hi).reverse).foldl
    (fun acc i => siftDownGo (swapL acc first (first+i)) 0 i first) l1

/-- `medianOfThree_func(data, m1, m0, m2)`: sorts the three elements so that
`data[m0] <= data[m1] <= data[m2]`. -/
def medianOfThreeGo (l : List ClusterLatency) (m1 m0 m2 : Nat) : List ClusterLatency :=
  let l := if ltCL (l.get! m1) (l.get! m0) then swapL l m1 m0 else l
  if ltCL (l.get! m2) (l.get! m1) then
    let l := swapL l m2 m1
    if ltCL (l.get! m1) (l.get! m0) then swapL l m1 m0 else l
  else l

/-- `for ; a < c && data.Less(a, pivot); a++` of `doPivot_func`. -/
def dpScanA : Nat → List ClusterLatency → Nat → Nat → Nat → Nat
  | 0, _, a, _, _ => a
  | fuel+1, l, a, c, pivot =>
    if a < c ∧ ltCL (l.get! a) (l.get! pivot) then dpScanA fuel l (a+1) c pivot else a

/-- `for ; b < c && !data.Less(pivot, b); b++` of `doPivot_func`. -/
def dpScanB : Nat → List ClusterLatency → Nat → Nat → Nat → Nat
  | 0, _, b, _, _ => b
  | fuel+1, l, b, c, pivot =>
    if b < c ∧ ¬ ltCL (l.get! pivot) (l.get! b) then dpScanB fuel l (b+1) c pivot else b

/-- `for ; b < c && data.Less(pivot, c-1); c--` of `doPivot_func`. -/
def dpScanC : Nat → List ClusterLatency → Nat → Nat → Nat → Nat
  | 0, _, _, c, _ => c
  | fuel+1, l, b, c, pivot =>
    if b < c ∧ ltCL (l.get! pivot) (l.get! (c-1)) then dpScanC fuel l b (c-1) pivot else c

/-- The main partition loop of `doPivot_func` (swap `b`/`c-1` until the
scans cross). Returns the updated slice and the final `b`, `c`. -/
def dpMainLoop : Nat → List ClusterLatency → Nat → Nat → Nat → List ClusterLatency × Nat × Nat
  | 0, l, b, c, _ => (l, b, c)
  | fuel+1, l, b, c, pivot =>
    let b := dpScanB (fuel+1) l b c pivot
    let c := dpScanC (fuel+1) l b c pivot
    if c ≤ b then (l, b, c)
    else dpMainLoop fuel (swapL l b (c-1)) (b+1) (c-1) pivot

/-- The `protect` loop of `doPivot_func`. -/
def dpProtectLoop : Nat → List ClusterLatency → Nat → Nat → Nat → List ClusterLatency × Nat × Nat
  | 0, l, a, b, _ => (l, a, b)
  | fuel+1, l, a, b, pivot =>
    let b' := dpScanBDown (fuel+1) l a b pivot
    let a' := dpScanAUp (fuel+1) l a b' pivot
    if b' ≤ a' then (l, a', b')
    else dpProtectLoop fuel (swapL l a' (b'-1)) (a'+1) (b'-1) pivot
where
  /-- `for ; a < b && !data.Less(b-1, pivot); b--`. -/
  dpScanBDown : Nat → List ClusterLatency → Nat → Nat → Nat → Nat
    | 0, _, _, b, _ => b
    | fuel+1, l, a, b, pivot =>
      if a < b ∧ ¬ ltCL (l.get! (b-1)) (l.get! pivot) then dpScanBDown fuel l a (b-1) pivot else b
  /-- `for ; a < b && data.Less(a, pivot); a++`. -/
  dpScanAUp : Nat → List ClusterLatency → Nat → Nat → Nat → Nat
    | 0, _, a, _, _ => a
    | fuel+1, l, a, b, pivot =>
      if a < b ∧ ltCL (l.get! a) (l.get! pivot) then dpScanAUp fuel l (a+1) b pivot else a

/-- The Tukey ninther block of `doPivot_func` (`if hi-lo > 40 { ... }`):
medians of three medians of three for long segments. -/
def dpNinther (l : List ClusterLatency) (lo hi : Nat) : List ClusterLatency :=
  if 40 < hi - lo then
    let m := (lo + hi) / 2
    let s := (hi - lo) / 8
    let ln1 := medianOfThreeGo l lo (lo+s) (lo+2*s)
    let ln2 := medianOfThreeGo ln1 m (m-s) (m+s)
    medianOfThreeGo ln2 (hi-1) (hi-1-s) (hi-1-2*s)
  else l

/-- The duplicate-detection block of `doPivot_func` (`if !protect && hi-c <
(hi-lo)/4 { ... }`): probes `data[hi-1]`, `data[b-1]` and `data[m]` for
equality with the pivot, and decides whether the `protect` loop must run. -/
def dpDups (l4 : List ClusterLatency) (lo hi b0 c0 : Nat) :
    List ClusterLatency × Nat × Nat × Bool :=
  let m := (lo + hi) / 2
  let pivot := lo
  let protect0 : Bool := decide (hi - c0 < 5)
  if !protect0 && decide (hi - c0 < (hi - lo) / 4) then
    let dups0 := 0
    let u1 := if ¬ ltCL (l4.get! pivot) (l4.get! (hi-1))
      then (swapL l4 c0 (hi-1), c0+1, dups0+1) else (l4, c0, dups0)
    let l5 := u1.1
    let c1 := u1.2.1
    let dups1 := u1.2.2
    let u2 := if ¬ ltCL (l5.get! (b0-1)) (l5.get! pivot)
      then (b0-1, dups1+1) else (b0, dups1)
    let b1 := u2.1
    let dups2 := u2.2
    let u3 := if ¬ ltCL (l5.get! m) (l5.get! pivot)
      then (swapL l5 m (b1-1), b1-1, dups2+1) else (l5, b1, dups2)
    (u3.1, u3.2.1, c1, decide (1 < u3.2.2))
  else (l4, b0, c0, protect0)

/-- `doPivot_func(data, lo, hi)`: median-of-three (plus `dpNinther`'s
medians-of-medians for long segments) pivot selection, Bentley-McIlroy
partitioning (`dpMainLoop`), the `dpDups` probe and the optional `protect`
loop. Returns the slice and `(midlo, midhi)`. -/
def doPivotGo (l : List ClusterLatency) (lo hi : Nat) : List ClusterLatency × Nat × Nat :=
  let l3 := medianOfThreeGo (dpNinther l lo hi) lo ((lo + hi) / 2) (hi-1)
  let pivot := lo
  let a0 := dpScanA (hi+1) l3 (lo+1) (hi-1) pivot
  let t := dpMainLoop (hi+1) l3 a0 (hi-1) pivot
  let u := dpDups t.1 lo hi t.2.1 t.2.2
  let v := if u.2.2.2 then dpProtectLoop (hi+1) u.1 a0 u.2.1 pivot
    else (u.1, a0, u.2.1)
  (swapL v.1 pivot (v.2.2-1), v.2.2-1, u.2.2.1)

/-- `quickSort_func(data, a, b, maxDepth)` with the tail loop written as
recursion (fuel-based; every iteration strictly shrinks the segment, so fuel
`l.length + 1` is ample). Segments of at most 12 elements get the ShellSort
gap-6 pass followed by insertion sort. -/
def quickSortGo : Nat → List ClusterLatency → Nat → Nat → Nat → List ClusterLatency
  | 0, l, _, _, _ => l
  | fuel+1, l, a, b, maxDepth =>
    if 12 < b - a then
      if maxDepth = 0 then heapSortGo l a b
      else
        let p := doPivotGo l a b
        let l1 := p.1
        let mlo := p.2.1
        let mhi := p.2.2
        if mlo - a < b - mhi then
          quickSortGo fuel (quickSortGo fuel l1 a mlo (maxDepth-1)) mhi b (maxDepth-1)
        else
          quickSortGo fuel (quickSortGo fuel l1 mhi b (maxDepth-1)) a mlo (maxDepth-1)
    else
      if 1 < b - a then insertionSortGo (shellGo l a b) a b else l

/-- Bit length of `n` (`for i := n; i > 0; i >>= 1 { depth++ }`), fuel-based
(fuel `n+1` is ample since the argument at least halves). -/
def bitsLenAux : Nat → Nat → Nat
  | 0, _ => 0
  | fuel+1, n => if n = 0 then 0 else bitsLenAux fuel (n / 2) + 1

/-- `maxDepth(n)` from sort.go: the bit length of `n`, doubled. -/
def maxDepthGo (n : Nat) : Nat :=
  2 * bitsLenAux (n+1) n

/-- `sort.Slice(latency, less)` as called by `printResult` (main.go line 161). -/
def sortSlice (l : List ClusterLatency) : List ClusterLatency :=
  quickSortGo (l.length + 1) l 0 l.length (maxDepthGo l.length)

/-- Non-strict comparison by latency, the order `printResult`'s ranking is
stated in. -/
def leT (p q : ClusterLatency) : Prop := p.time ≤ q.time

/-- Insert `x` before the first strictly greater element: the net effect of
`insertionSort_func`'s inner bubble loop on a sorted prefix. -/
def ordIns (x : ClusterLatency) : List ClusterLatency → List ClusterLatency
  | [] => [x]
  | y :: ys => if ltCL x y then x :: y :: ys else y :: ordIns x ys

/-- Functional form of `insertionSort_func(data, 0, len)`: fold the bubble
insertions over the list (proved equal to `insertionSortGo` below). -/
def insSortL (l : List ClusterLatency) : List ClusterLatency :=
  l.foldl (fun acc x => ordIns x acc) []

/-- The entries with latency exactly `t`, in order. Preservation of
`keyFilter t` for every `t` is exactly sort stability. -/
def keyFilter (t : Int) (l : List ClusterLatency) : List ClusterLatency :=
  l.filter (fun e => decide (e.time = t))

/-! ## Index-based vocabulary for the `sort.Slice` embedding

`valT l i` is the latency at position `i`; `SortedSeg l a b` says the segment
`[a, b)` is ascending; `SwapsIn S l l'` says `l'` arises from `l` by in-bounds
`Swap`s at positions satisfying `S` — the footprint discipline of
`zsortfunc.go`, which only ever calls `data.Swap` inside the segment it was
given. -/

/-- The latency at position `i` (out-of-range reads give the default entry,
matching `get!`). -/
def valT (l : List ClusterLatency) (i : Nat) : Int := (l.get! i).time

/-- The segment `[a, b)` of `l` is ascending by latency. -/
def SortedSeg (l : List ClusterLatency) (a b : Nat) : Prop :=
  ∀ i j, a ≤ i → i < j → j < b → valT l i ≤ valT l j

/-- `l'` is obtained from `l` by a sequence of in-bounds swaps at positions
satisfying `S`. -/
inductive SwapsIn (S : Nat → Prop) : List ClusterLatency → List ClusterLatency → Prop
  | refl (l : List ClusterLatency) : SwapsIn S l l
  | swap (l : List ClusterLatency) (i j : Nat) (hi : S i) (hj : S j)
      (hil : i < l.length) (hjl : j < l.length) : SwapsIn S l (swapL l i j)
  | trans {l1 l2 l3 : List ClusterLatency} :
      SwapsIn S l1 l2 → SwapsIn S l2 l3 → SwapsIn S l1 l3

/-- Heap parent index (`siftDown_func` works with children `2*root+1`,
`2*root+2`; the parent of `j > 0` is `(j-1)/2`). -/
def par (j : Nat) : Nat := (j - 1) / 2

/-- `Desc r j`: `j` lies in the heap subtree rooted at `r`. -/
inductive Desc (r : Nat) : Nat → Prop
  | base : Desc r r
  | step {j : Nat} (hj : 0 < j) (hd : Desc r (par j)) : Desc r j

/-- The max-child selection inside `siftDown_func`
(`if child+1 < hi && data.Less(first+child, first+child+1) { child++ }`). -/
def sdChild (l : List ClusterLatency) (root hi first : Nat) : Nat :=
  if 2*root+1 + 1 < hi ∧ ltCL (l.get! (first+(2*root+1))) (l.get! (first+(2*root+1)+1))
  then 2*root+1 + 1 else 2*root+1

/-! ## `checkLatency` (main.go lines 119-158)

One goroutine body (lines 129-150) per peer: split the gossip address, probe,
and on a zero-loss result append to the shared slice; `bar.Increment()` runs
exactly on the non-error exits of the body. -/

/-- `strings.Split(s, ":")` over the character list: split at every colon
(`strings.Split("", ":")` is `[""]`). -/
def goSplitColonL : List Char → List (List Char)
  | [] => [[]]
  | c :: rest =>
    match goSplitColonL rest with
    | [] => [[]]
    | p :: ps => if c = ':' then [] :: p :: ps else (c :: p) :: ps

/-- `strings.Split(s, ":")` (main.go line 130). -/
def goSplitColon (s : String) : List String := (goSplitColonL s.data).map String.mk

/-- The per-peer goroutine body (main.go lines 129-150): `.error e` models the
body returning a non-nil error to the `errgroup`; `.ok (some cl)` a zero-loss
measurement that is appended; `.ok none` a lossy probe (not appended, but the
body still returns nil). -/
def taskOutcome (probe : Probe) (node : ClusterNode) : Except String (Option ClusterLatency) :=
  match goSplitColon node.gossip with
  | [host, _] =>
    match probe host with
    | .error e => .error e
    | .ok st =>
      if st.packetLoss = 0 then .ok (some ⟨st.avgRtt, host, node⟩)
      else .ok none
  | _ => .error "invalid gossip ip"

/-- Observable state of one `checkLatency` run: the shared `result` slice, the
number of `bar.Increment()` calls, and the errors returned to the errgroup. -/
structure CheckRun where
  result : List ClusterLatency
  barIncrements : Nat
  errs : List String
deriving DecidableEq, Repr

/-- Effect of one completed goroutine on the run state. -/
def taskFold (probe : Probe) (r : CheckRun) (node : ClusterNode) : CheckRun :=
  match taskOutcome probe node with
  | .error e => { r with errs := r.errs ++ [e] }
  | .ok none => { r with barIncrements := r.barIncrements + 1 }
  | .ok (some cl) => { r with result := r.result ++ [cl], barIncrements := r.barIncrements + 1 }

/-- All goroutines of one `checkLatency` call, sequentialised in peer-list
order (a plain `errgroup.Group` cancels nothing, so every task runs; the real
interleaving only permutes `result` and `errs`). -/
def runTasks (probe : Probe) (nodes : List ClusterNode) : CheckRun :=
  nodes.foldl (taskFold probe) ⟨[], 0, []⟩

/-- `checkLatency` (main.go lines 119-158): `eg.Wait()` returns the first
error any goroutine returned, in which case the collected results are
discarded (line 155 returns `nil, err`); otherwise the result slice. -/
def checkLatency (probe : Probe) (nodes : List ClusterNode) : Except String (List ClusterLatency) :=
  match (runTasks probe nodes).errs with
  | [] => .ok (runTasks probe nodes).result
  | e :: _ => .error e

/-! ## `printResult` (main.go lines 160-169) -/

/-- One output line (main.go line 167):
`fmt.Printf("[%d] time:%dms, ip:%s, pubkey:%s\n", ...)`.
`Duration.Milliseconds()` is `int64` division by 1e6, truncating toward zero,
i.e. `Int.tdiv`. -/
def formatLine (i : Nat) (c : ClusterLatency) : String :=
  "[" ++ toString i ++ "] time:" ++ toString (Int.tdiv c.time 1000000) ++
    "ms, ip:" ++ c.ip ++ ", pubkey:" ++ c.clusterNode.pubkey

/-- `printResult(latency, top)` (main.go lines 160-169). Note the comparison
`len(latency) < 10` on line 163 hard-codes `10` rather than using `top`.
Returns the printed lines and, when the loop would index out of range
(`count > len(latency)`, possible when `top > len >= 10`), the lines printed
before the panic together with the runtime panic message (`some _` models the
Go panic, which aborts the process with a non-zero exit). `top` is modelled as
`Nat` (the CLI `uint` value; the `int(top)` conversion is faithful below
`2^63`). -/
def printResult (latency : List ClusterLatency) (top : Nat) : List String × Option String :=
  let sorted := sortSlice latency
  let count := if sorted.length < 10 then sorted.length else top
  if count ≤ sorted.length then
    ((List.range count).map (fun i => formatLine i (sorted.get! i)), none)
  else
    ((List.range sorted.length).map (fun i => formatLine i (sorted.get! i)),
      some "index out of range")

/-! ## `getClusterNodes` (main.go lines 98-115) and the app action
(main.go lines 23-61) -/

/-- Environment of one run: the CLI flag values and the oracles for the
external collaborators. `fetchBody url` is the combined outcome of
`http.Post(url, ...)` and `io.ReadAll(resp.Body)` (either error aborts
`getClusterNodes`); `unmarshal body` is `json.Unmarshal(body, &data)`
producing the `result` array, or the unmarshalling error on invalid JSON. -/
structure AppEnv where
  urlArg : String
  top : Nat
  fetchBody : String → Except String String
  unmarshal : String → Except String (List ClusterNode)
  probe : Probe

/-- `getClusterNodes(url)` (main.go lines 98-115). -/
def getClusterNodes (env : AppEnv) (url : String) : Except String (List ClusterNode) := do
  let body ← env.fetchBody url
  let nodes ← env.unmarshal body
  pure nodes

/-- Observable outcome of one whole run. `errMsg = some e` models
`log.Fatal(err)` in `main` (a single error message and a non-zero exit) or the
runtime panic of `printResult`; `errMsg = none` models exit code 0. `printed`
is the sequence of stdout lines. `probed` counts the peer probe tasks that
were started. -/
structure RunOutcome where
  errMsg : Option String
  printed : List String
  probed : Nat
deriving DecidableEq, Repr

/-- The whole CLI action (main.go lines 44-59 wired through `main`,
lines 23-27): build the URL, fetch the peer list, measure, print. Each failing
step short-circuits into `log.Fatal`. `buildURL` is defined below with the
`net/url` model. -/
def appRunWith (buildURLFn : String → Except String String) (env : AppEnv) : RunOutcome :=
  match buildURLFn env.urlArg with
  | .error e => ⟨some e, [], 0⟩
  | .ok url =>
    match getClusterNodes env url with
    | .error e => ⟨some e, [], 0⟩
    | .ok nodes =>
      match checkLatency env.probe nodes with
      | .error e => ⟨some e, [], nodes.length⟩
      | .ok latency =>
        let pr := printResult latency env.top
        ⟨pr.2, pr.1, nodes.length⟩

/-! ## The concurrency limiter (main.go lines 117-129) as a transition system

`sem` is a buffered channel of capacity `concurrency = 20`. The spawning loop
performs `sem <- struct{}{}` (which blocks while 20 slots are taken) right
before `eg.Go`; every goroutine's first statement is `defer func() { <-sem }()`,
so its slot is released exactly when the task finishes, on every exit path
(early error returns included). Consequently the tasks holding a slot at any
moment are exactly the spawned-but-unfinished ones, and every in-flight probe
belongs to such a task. -/

/-- `concurrency` (main.go line 117). -/
def concurrency : Nat := 20

/-- State of one fan-out run over `M` peers: how many tasks the loop has
spawned so far, and which of them have finished (and hence released their
semaphore slot). -/
structure SemState where
  spawned : Nat
  finished : Finset Nat
deriving DecidableEq

/-- Tasks currently in flight: spawned and not yet finished. Each of them
holds exactly one semaphore slot. -/
def SemState.inFlight (s : SemState) : Nat := s.spawned - s.finished.card

/-- Interleaved steps of the fan-out loop and the worker tasks.
`spawn` is the loop body `sem <- struct{}{}; eg.Go(...)`: it is enabled only
while fewer than `concurrency` slots are taken (the channel send blocks
otherwise) and while peers remain. `finish i` is task `i` running to
completion (any outcome) and executing its deferred `<-sem`. -/
inductive SemStep (M : Nat) : SemState → SemState → Prop
  | spawn {s : SemState} (hM : s.spawned < M) (hsem : s.inFlight < concurrency) :
      SemStep M s ⟨s.spawned + 1, s.finished⟩
  | finish {s : SemState} (i : Nat) (hi : i < s.spawned) (hdone : i ∉ s.finished) :
      SemStep M s ⟨s.spawned, insert i s.finished⟩

/-- States reachable during a `checkLatency` fan-out over `M` peers. -/
inductive SemReachable (M : Nat) : SemState → Prop
  | init : SemReachable M ⟨0, ∅⟩
  | step {s t : SemState} : SemReachable M s → SemStep M s t → SemReachable M t

/-! ## The unsynchronized result append (main.go line 147) as a two-task race

`result = append(result, ...)` inside the goroutines is not protected by any
mutex. The append is a non-atomic read-modify-write of the shared slice
variable: the goroutine first reads the current slice header, then stores the
extended slice back. The machine below runs two such appends under an
arbitrary interleaving of their read and write halves. -/

/-- Program counter of one appending task: not yet read the shared slice,
read it (holding the snapshot it saw), or done. -/
inductive RacePc
  | start
  | readDone (snapshot : List ClusterLatency)
  | finished
deriving DecidableEq, Repr

/-- One step of a task appending `x`: first the racy read of `result`, then
the racy write of `append(snapshot, x)`. -/
def raceTaskStep (x : ClusterLatency) (shared : List ClusterLatency) :
    RacePc → List ClusterLatency × RacePc
  | .start => (shared, .readDone shared)
  | .readDone snap => (snap ++ [x], .finished)
  | .finished => (shared, .finished)

/-- Global state: the shared `result` slice and both tasks' counters. -/
structure RaceState where
  shared : List ClusterLatency
  pc1 : RacePc
  pc2 : RacePc
deriving DecidableEq, Repr

/-- Scheduler step: `false` lets task 1 move, `true` lets task 2 move. -/
def raceStep (x1 x2 : ClusterLatency) (s : RaceState) (who : Bool) : RaceState :=
  if who then
    let p := raceTaskStep x2 s.shared s.pc2
    ⟨p.1, s.pc1, p.2⟩
  else
    let p := raceTaskStep x1 s.shared s.pc1
    ⟨p.1, p.2, s.pc2⟩

/-- Run two concurrent appends of `x1` and `x2` to an initially empty shared
slice under the given schedule. -/
def raceRun (x1 x2 : ClusterLatency) (sched : List Bool) : RaceState :=
  sched.foldl (raceStep x1 x2) ⟨[], .start, .start⟩

/-! ## `net/url` model (Go 1.17 `net/url/url.go`), for `buildURL`
(main.go lines 83-96)

The model works over `List Char`; the inputs of interest are ASCII, where
Go's byte-wise processing and Lean's `Char`-wise processing coincide. Error
values are descriptive strings (Go wraps them in `*url.Error`; only their
presence matters to `buildURL` and `_main`). -/

/-- `stringContainsCTLByte`: a byte below 0x20 (space) or equal to 0x7f. -/
def isCtlChar (c : Char) : Bool := c.toNat < 0x20 || c.toNat == 0x7f

/-- The `encoding` enumeration of url.go. -/
inductive Encoding
  | path
  | pathSegment
  | host
  | zone
  | userPassword
  | queryComponent
  | fragment
deriving DecidableEq, Repr

/-- `ishex(c)`. -/
def ishexGo (c : Char) : Bool :=
  ('0' ≤ c && c ≤ '9') || ('a' ≤ c && c ≤ 'f') || ('A' ≤ c && c ≤ 'F')

/-- `unhex(c)`. -/
def unhexGo (c : Char) : Nat :=
  if '0' ≤ c && c ≤ '9' then c.toNat - '0'.toNat
  else if 'a' ≤ c && c ≤ 'f' then c.toNat - 'a'.toNat + 10
  else if 'A' ≤ c && c ≤ 'F' then c.toNat - 'A'.toNat + 10
  else 0

/-- `shouldEscape(c, mode)` (url.go, Go 1.17). -/
def shouldEscapeGo (c : Char) (mode : Encoding) : Bool :=
  if ('a' ≤ c && c ≤ 'z') || ('A' ≤ c && c ≤ 'Z') || ('0' ≤ c && c ≤ '9') then false
  else if (mode = Encoding.host || mode = Encoding.zone) &&
      (c = '!' || c = '$' || c = '&' || c = '\'' || c = '(' || c = ')' || c = '*' ||
       c = '+' || c = ',' || c = ';' || c = '=' || c = ':' || c = '[' || c = ']' ||
       c = '<' || c = '>' || c = '"') then false
  else if c = '-' || c = '_' || c = '.' || c = '~' then false
  else if c = '$' || c = '&' || c = '+' || c = ',' || c = '/' || c = ':' || c = ';' ||
      c = '=' || c = '?' || c = '@' then
    match mode with
    | .path => c = '?'
    | .pathSegment => c = '/' || c = ';' || c = ',' || c = '?'
    | .userPassword => c = '@' || c = '/' || c = '?' || c = ':'
    | .queryComponent => true
    | .fragment => false
    | _ => true
  else if mode = Encoding.fragment && (c = '!' || c = '(' || c = ')' || c = '*') then false
  else true

/-- `unescape(s, mode)` (url.go, Go 1.17), fused into one pass: validates the
percent escapes (with the host/zone special rules) and decodes. -/
def unescapeGo : List Char → Encoding → Except String (List Char)
  | [], _ => .ok []
  | '%' :: h1 :: h2 :: rest, mode =>
    if ¬ (ishexGo h1 && ishexGo h2) then .error "invalid URL escape"
    else if mode = Encoding.host && unhexGo h1 < 8 && ¬ (h1 = '2' && h2 = '5') then
      .error "invalid URL escape"
    else
      let v := unhexGo h1 * 16 + unhexGo h2
      if mode = Encoding.zone && ¬ (h1 = '2' && h2 = '5') && ¬ (v = ' '.toNat) &&
          shouldEscapeGo (Char.ofNat v) Encoding.host then
        .error "invalid URL escape"
      else do
        let t ← unescapeGo rest mode
        pure (Char.ofNat v :: t)
  | '%' :: rest, _ =>
    let _ := rest
    .error "invalid URL escape"
  | '+' :: rest, mode => do
    let t ← unescapeGo rest mode
    pure ((if mode = Encoding.queryComponent then ' ' else '+') :: t)
  | c :: rest, mode =>
    if (mode = Encoding.host || mode = Encoding.zone) && c.toNat < 0x80 &&
        shouldEscapeGo c mode then
      .error "invalid character in host name"
    else do
      let t ← unescapeGo rest mode
      pure (c :: t)

/-- The upper-case hex digits used by `escape`. -/
def upperHexDigit (n : Nat) : Char :=
  if n < 10 then Char.ofNat ('0'.toNat + n) else Char.ofNat ('A'.toNat + (n - 10))

/-- `escape(s, mode)` (url.go, Go 1.17). -/
def escapeGo (s : List Char) (mode : Encoding) : List Char :=
  s.foldr (fun c acc =>
    if shouldEscapeGo c mode then
      if c = ' ' && mode = Encoding.queryComponent then '+' :: acc
      else '%' :: upperHexDigit (c.toNat / 16) :: upperHexDigit (c.toNat % 16) :: acc
    else c :: acc) []

/-- `validEncoded(s, mode)` (url.go, Go 1.17). -/
def validEncodedGo (s : List Char) (mode : Encoding) : Bool :=
  s.all fun c =>
    if c = '!' || c = '$' || c = '&' || c = '\'' || c = '(' || c = ')' || c = '*' ||
        c = '+' || c = ',' || c = ';' || c = '=' || c = ':' || c = '@' then true
    else if c = '[' || c = ']' then true
    else if c = '%' then true
    else ¬ shouldEscapeGo c mode

/-- `validOptionalPort(port)`. -/
def validOptionalPortGo : List Char → Bool
  | [] => true
  | ':' :: digits => digits.all fun c => '0' ≤ c && c ≤ '9'
  | _ => false

/-- `validUserinfo(s)`. -/
def validUserinfoGo (s : List Char) : Bool :=
  s.all fun r =>
    ('A' ≤ r && r ≤ 'Z') || ('a' ≤ r && r ≤ 'z') || ('0' ≤ r && r ≤ '9') ||
    r = '-' || r = '.' || r = '_' || r = ':' || r = '~' || r = '!' || r = '$' ||
    r = '&' || r = '\'' || r = '(' || r = ')' || r = '*' || r = '+' || r = ',' ||
    r = ';' || r = '=' || r = '%' || r = '@'

/-- `split(s, sep, cutc)` (url.go): split around the first occurrence of
`sep`. -/
def splitGo (s : List Char) (sep : Char) (cutc : Bool) : List Char × List Char :=
  let pre := s.takeWhile (fun c => c ≠ sep)
  let rest := s.dropWhile (fun c => c ≠ sep)
  match rest with
  | [] => (s, [])
  | _ :: t => if cutc then (pre, t) else (pre, rest)

/-- Helper loop of `getScheme`: `acc` is the scheme candidate read so far. -/
def getSchemeAux (orig : List Char) : List Char → List Char → Except String (List Char × List Char)
  | [], _ => .ok ([], orig)
  | c :: rest, acc =>
    if ('a' ≤ c && c ≤ 'z') || ('A' ≤ c && c ≤ 'Z') then getSchemeAux orig rest (acc ++ [c])
    else if ('0' ≤ c && c ≤ '9') || c = '+' || c = '-' || c = '.' then
      if acc = [] then .ok ([], orig) else getSchemeAux orig rest (acc ++ [c])
    else if c = ':' then
      if acc = [] then .error "missing protocol scheme" else .ok (acc, rest)
    else .ok ([], orig)

/-- `getScheme(rawURL)` (url.go, Go 1.17). -/
def getSchemeGo (s : List Char) : Except String (List Char × List Char) :=
  getSchemeAux s s []

/-- Last index of `c` in `s`, or `none` (`strings.LastIndex` for one byte). -/
def lastIdxOf (s : List Char) (c : Char) : Option Nat :=
  match (s.reverse).indexOf? c with
  | none => none
  | some k => some (s.length - 1 - k)

/-- First index at which the pattern occurs in `s` (`strings.Index`). -/
def idxOfSub (s pat : List Char) : Option Nat :=
  (List.range (s.length + 1)).find? (fun i => pat.isPrefixOf (s.drop i))

/-- `parseHost(host)` (url.go, Go 1.17). -/
def parseHostGo (host : List Char) : Except String (List Char) :=
  if h9 : host.head? = some '[' then
    match lastIdxOf host ']' with
    | none => .error "missing ']' in host"
    | some i =>
      let colonPort := host.drop (i+1)
      if ¬ validOptionalPortGo colonPort then .error "invalid port after host"
      else
        match idxOfSub (host.take i) ['%', '2', '5'] with
        | some zone => do
          let host1 ← unescapeGo (host.take zone) Encoding.host
          let host2 ← unescapeGo ((host.take i).drop zone) Encoding.zone
          let host3 ← unescapeGo (host.drop i) Encoding.host
          pure (host1 ++ host2 ++ host3)
        | none => unescapeGo host Encoding.host
  else
    match lastIdxOf host ':' with
    | some i =>
      let colonPort := host.drop i
      if ¬ validOptionalPortGo colonPort then .error "invalid port after host"
      else unescapeGo host Encoding.host
    | none => unescapeGo host Encoding.host

/-- `*Userinfo`: username and, when `passwordSet`, the password. -/
abbrev GoUserinfo := Option (List Char × Option (List Char))

/-- `parseAuthority(authority)` (url.go, Go 1.17). -/
def parseAuthorityGo (authority : List Char) : Except String (GoUserinfo × List Char) :=
  match lastIdxOf authority '@' with
  | none => do
    let host ← parseHostGo authority
    pure (none, host)
  | some i => do
    let host ← parseHostGo (authority.drop (i+1))
    let userinfo := authority.take i
    if ¬ validUserinfoGo userinfo then .error "net/url: invalid userinfo"
    else if userinfo.contains ':' then do
      let p := splitGo userinfo ':' true
      let username ← unescapeGo p.1 Encoding.userPassword
      let password ← unescapeGo p.2 Encoding.userPassword
      pure (some (username, some password), host)
    else do
      let username ← unescapeGo userinfo Encoding.userPassword
      pure (some (username, none), host)

/-- The `url.URL` struct fields used by `Parse` and `String`. -/
structure GoURL where
  scheme : List Char := []
  opaquePart : List Char := []
  user : GoUserinfo := none
  host : List Char := []
  path : List Char := []
  rawPath : List Char := []
  forceQuery : Bool := false
  rawQuery : List Char := []
  fragment : List Char := []
  rawFragment : List Char := []
deriving DecidableEq, Repr, Inhabited

/-- `(*URL).setPath(p)`. -/
def setPathGo (u : GoURL) (p : List Char) : Except String GoURL := do
  let path ← unescapeGo p Encoding.path
  let escp := escapeGo path Encoding.path
  pure { u with path := path, rawPath := if p = escp then [] else p }

/-- `(*URL).setFragment(f)`. -/
def setFragmentGo (u : GoURL) (f : List Char) : Except String GoURL := do
  let frag ← unescapeGo f Encoding.fragment
  let escf := escapeGo frag Encoding.fragment
  pure { u with fragment := frag, rawFragment := if f = escf then [] else f }

/-- ASCII `strings.ToLower` (scheme characters are ASCII by construction). -/
def toLowerGo (s : List Char) : List Char := s.map Char.toLower

/-- `parse(rawURL, viaRequest)` (url.go, Go 1.17). -/
def parseGo (rawURL : List Char) (viaRequest : Bool) : Except String GoURL := do
  if rawURL.any isCtlChar then
    throw "net/url: invalid control character in URL"
  if rawURL = [] && viaRequest then
    throw "empty url"
  if rawURL = ['*'] then
    return { path := ['*'] }
  let sp ← getSchemeGo rawURL
  let scheme := toLowerGo sp.1
  let mut rest := sp.2
  let mut forceQuery := false
  let mut rawQuery : List Char := []
  if rest.getLast? = some '?' && ¬ (rest.dropLast.contains '?') then
    forceQuery := true
    rest := rest.dropLast
  else
    let q := splitGo rest '?' true
    rest := q.1
    rawQuery := q.2
  if rest.head? ≠ some '/' then
    if scheme ≠ [] then
      return { scheme := scheme, opaquePart := rest, forceQuery := forceQuery,
               rawQuery := rawQuery }
    if viaRequest then
      throw "invalid URI for request"
    let segment := rest.takeWhile (fun c => c ≠ '/')
    if segment.contains ':' then
      throw "first path segment in URL cannot contain colon"
  let mut user : GoUserinfo := none
  let mut host : List Char := []
  if (scheme ≠ [] || (¬ viaRequest && ¬ (['/', '/', '/'].isPrefixOf rest))) &&
      ['/', '/'].isPrefixOf rest then
    let p := splitGo (rest.drop 2) '/' false
    let authority := p.1
    rest := p.2
    let a ← parseAuthorityGo authority
    user := a.1
    host := a.2
  let u0 : GoURL := { scheme := scheme, user := user, host := host,
                      forceQuery := forceQuery, rawQuery := rawQuery }
  setPathGo u0 rest

/-- `url.Parse(rawURL)` (url.go, Go 1.17): cut the fragment, parse, set the
fragment. -/
def urlParse (s : String) : Except String GoURL := do
  let p := splitGo s.data '#' true
  let u ← parseGo p.1 false
  if p.2 = [] then
    return u
  setFragmentGo u p.2

/-- `(*URL).EscapedPath()`. -/
def escapedPathGo (u : GoURL) : List Char :=
  let keepRaw := u.rawPath ≠ [] && validEncodedGo u.rawPath Encoding.path &&
    (match unescapeGo u.rawPath Encoding.path with
     | .ok p => decide (p = u.path)
     | .error _ => false)
  if keepRaw then u.rawPath
  else if u.path = ['*'] then ['*']
  else escapeGo u.path Encoding.path

/-- `(*URL).EscapedFragment()`. -/
def escapedFragmentGo (u : GoURL) : List Char :=
  let keepRaw := u.rawFragment ≠ [] && validEncodedGo u.rawFragment Encoding.fragment &&
    (match unescapeGo u.rawFragment Encoding.fragment with
     | .ok f => decide (f = u.fragment)
     | .error _ => false)
  if keepRaw then u.rawFragment
  else escapeGo u.fragment Encoding.fragment

/-- `(*Userinfo).String()`. -/
def userinfoStringGo : GoUserinfo → List Char
  | none => []
  | some (username, none) => escapeGo username Encoding.userPassword
  | some (username, some password) =>
      escapeGo username Encoding.userPassword ++ ':' :: escapeGo password Encoding.userPassword

/-- `(*URL).String()` (url.go, Go 1.17). -/
def urlStringGo (u : GoURL) : List Char :=
  let buf0 := if u.scheme ≠ [] then u.scheme ++ [':'] else []
  let buf :=
    if u.opaquePart ≠ [] then buf0 ++ u.opaquePart
    else
      let buf1 :=
        if u.scheme ≠ [] || u.host ≠ [] || u.user ≠ none then
          let b := if u.host ≠ [] || u.path ≠ [] || u.user ≠ none then buf0 ++ ['/', '/'] else buf0
          let b := match u.user with
            | none => b
            | ui => b ++ userinfoStringGo ui ++ ['@']
          if u.host ≠ [] then b ++ escapeGo u.host Encoding.host else b
        else buf0
      let path := escapedPathGo u
      let buf2 := if path ≠ [] && path.head? ≠ some '/' && u.host ≠ [] then buf1 ++ ['/'] else buf1
      let buf3 :=
        if buf2 = [] then
          match path.indexOf? ':' with
          | some i => if (path.take i).contains '/' then buf2 else buf2 ++ ['.', '/']
          | none => buf2
        else buf2
      buf3 ++ path
  let buf := if u.forceQuery || u.rawQuery ≠ [] then buf ++ '?' :: u.rawQuery else buf
  if u.fragment ≠ [] then buf ++ '#' :: escapedFragmentGo u else buf

/-- `u.String()` as a Lean `String`. -/
def urlString (u : GoURL) : String := String.mk (urlStringGo u)

/-- `buildURL(urlKey)` (main.go lines 83-96): parse; if the parse has no
scheme or no host, expand to `http://api.<urlKey>.solana.com` and return that
parse's serialization; otherwise return the original parse's serialization. -/
def buildURL (urlKey : String) : Except String String :=
  match urlParse urlKey with
  | .error e => .error e
  | .ok u1 =>
    if u1.scheme = [] || u1.host = [] then
      match urlParse ("http://api." ++ urlKey ++ ".solana.com") with
      | .error e => .error e
      | .ok u2 => .ok (urlString u2)
    else .ok (urlString u1)

/-- The app action with the real `buildURL`. -/
def appRun (env : AppEnv) : RunOutcome := appRunWith buildURL env

/-! ## Derived views of one task's outcome -/

/-- The measurement task `n` appends, if any. -/
def measuredOf (probe : Probe) (n : ClusterNode) : Option ClusterLatency :=
  match taskOutcome probe n with
  | .ok (some cl) => some cl
  | _ => none

/-- The error task `n` returns to the errgroup, if any. -/
def errOf (probe : Probe) (n : ClusterNode) : Option String :=
  match taskOutcome probe n with
  | .error e => some e
  | _ => none

/-- Whether task `n` reaches `bar.Increment()` (i.e. returns nil). -/
def isOkTask (probe : Probe) (n : ClusterNode) : Bool :=
  match taskOutcome probe n with
  | .ok _ => true
  | .error _ => false

/-! ## Concrete fixtures used by the claim theorems -/

/-- A peer record carrying only the fields the core consumes. -/
def mkNode (gossip pubkey : String) : ClusterNode :=
  ⟨0, gossip, pubkey, "", 0, "", ""⟩

/-- A measured entry with latency in milliseconds. -/
def mkLat (ms : Int) (ip pubkey : String) : ClusterLatency :=
  ⟨ms * 1000000, ip, mkNode (ip ++ ":8001") pubkey⟩

/-- Peer with a well-formed gossip address, pubkey `A`. -/
def goodNode : ClusterNode := mkNode "10.0.0.1:8001" "A"

/-- Second well-formed peer, pubkey `C`. -/
def goodNode2 : ClusterNode := mkNode "10.0.0.2:8001" "C"

/-- Peer whose gossip address has no `host:port` shape. -/
def badNode : ClusterNode := mkNode "bad-address" "B"

/-- Probe oracle that fails every host. -/
def probeNone : Probe := fun _ => .error "no network"

/-- Probe oracle: `10.0.0.1` answers with 50 ms average and zero loss,
`10.0.0.2` with 20 ms and zero loss, everything else is unreachable. -/
def probeC1 : Probe := fun h =>
  if h = "10.0.0.1" then .ok ⟨0, 50000000⟩
  else if h = "10.0.0.2" then .ok ⟨0, 20000000⟩
  else .error "unreachable"

/-- Environment for the mixed good/malformed peer-list run. -/
def envC1 : AppEnv :=
  ⟨"mainnet-beta", 10, fun _ => .ok "body", fun _ => .ok [goodNode, badNode], probeC1⟩

/-- Environment whose peer-list fetch returns a body that is not JSON. -/
def env8 : AppEnv :=
  ⟨"mainnet-beta", 10, fun _ => .ok "not json",
   fun _ => .error "invalid character in JSON", probeNone⟩

/-- Environment whose peer-list fetch yields an empty peer array. -/
def env10 : AppEnv :=
  ⟨"mainnet-beta", 10, fun _ => .ok "[]", fun _ => .ok [], probeNone⟩

/-- Three measured entries (input order 50 ms, 20 ms, 10 ms). -/
def ex3 : List ClusterLatency :=
  [mkLat 50 "10.0.0.1" "A", mkLat 20 "10.0.0.2" "C", mkLat 10 "10.0.0.3" "X"]

/-- Seven measured entries, two of them tied at 30 ms (pubkeys `p3` before
`p6` in append order). -/
def ex7 : List ClusterLatency :=
  [mkLat 50 "h0" "p0", mkLat 10 "h1" "p1", mkLat 20 "h2" "p2", mkLat 30 "h3" "p3",
   mkLat 40 "h4" "p4", mkLat 45 "h5" "p5", mkLat 30 "h6" "p6"]

/-! # Theorems

First the helper lemmas about the fan-out semantics, then one theorem per
claim (with its witness or counterexample where required). -/

/-- Unfolding `runTasks`' fold: results, bar increments and errors of a batch
of tasks, relative to an arbitrary starting accumulator. -/
theorem foldl_taskFold (probe : Probe) (nodes : List ClusterNode) :
    ∀ acc : CheckRun,
      nodes.foldl (taskFold probe) acc =
        ⟨acc.result ++ nodes.filterMap (measuredOf probe),
         acc.barIncrements + nodes.countP (isOkTask probe),
         acc.errs ++ nodes.filterMap (errOf probe)⟩ := by
  induction nodes with
  | nil => intro acc; simp
  | cons n ns ih =>
    intro acc
    rw [List.foldl_cons, ih]
    rcases h : taskOutcome probe n with e | cl
    · simp [taskFold, h, measuredOf, errOf, isOkTask, List.countP_cons, List.filterMap_cons]
    · rcases cl with _ | cl <;>
        simp [taskFold, h, measuredOf, errOf, isOkTask, List.countP_cons, List.filterMap_cons,
          Nat.add_assoc, Nat.add_comm 1]

/-- `runTasks` in closed form. -/
theorem runTasks_eq (probe : Probe) (nodes : List ClusterNode) :
    runTasks probe nodes =
      ⟨nodes.filterMap (measuredOf probe), nodes.countP (isOkTask probe),
       nodes.filterMap (errOf probe)⟩ := by
  have h := foldl_taskFold probe nodes ⟨[], 0, []⟩
  simpa [runTasks] using h

/-- `checkLatency` in closed form: the first task error if any, otherwise the
collected measurements. -/
theorem checkLatency_eq (probe : Probe) (nodes : List ClusterNode) :
    checkLatency probe nodes =
      (match nodes.filterMap (errOf probe) with
       | [] => .ok (nodes.filterMap (measuredOf probe))
       | e :: _ => .error e) := by
  unfold checkLatency
  rw [runTasks_eq]

/-- A gossip address that does not split into exactly two parts makes the
task return the `invalid gossip ip` error before probing. -/
theorem taskOutcome_invalid (probe : Probe) (node : ClusterNode)
    (h : (goSplitColon node.gossip).length ≠ 2) :
    taskOutcome probe node = .error "invalid gossip ip" := by
  unfold taskOutcome
  cases hh : goSplitColon node.gossip with
  | nil => rfl
  | cons a t =>
    cases t with
    | nil => rfl
    | cons b t2 =>
      cases t2 with
      | nil => exact absurd (by rw [hh]; rfl) h
      | cons c t3 => rfl

/-- A successful `measuredOf` entry comes from a zero-loss probe of its own
`ip`, records the probe's average round-trip time, and embeds the node it was
probed for. -/
theorem measuredOf_spec' (probe : Probe) (n : ClusterNode) (cl : ClusterLatency)
    (h : measuredOf probe n = some cl) :
    (∃ st, probe cl.ip = .ok st ∧ st.packetLoss = 0 ∧ cl.time = st.avgRtt) ∧
      cl.clusterNode = n := by
  unfold measuredOf taskOutcome at h
  split at h
  next cl2 heq =>
    split at heq
    next host hd =>
      split at heq
      next e hp => exact absurd heq (by simp)
      next st hp =>
        split at heq
        next hl =>
          simp only [Except.ok.injEq, Option.some.injEq] at heq
          rw [← heq] at h
          simp only [Option.some.injEq] at h
          subst h
          exact ⟨⟨st, hp, hl, rfl⟩, rfl⟩
        next hl => exact absurd heq (by simp)
    next hother => exact absurd heq (by simp)
  next hne => exact absurd h (by simp)

/-- The zero-loss part of `measuredOf_spec'`. -/
theorem measuredOf_spec (probe : Probe) (n : ClusterNode) (cl : ClusterLatency)
    (h : measuredOf probe n = some cl) :
    ∃ st, probe cl.ip = .ok st ∧ st.packetLoss = 0 ∧ cl.time = st.avgRtt :=
  (measuredOf_spec' probe n cl h).1

/-- A successful `measuredOf` entry embeds the very node it was probed for. -/
theorem measuredOf_node (probe : Probe) (n : ClusterNode) (cl : ClusterLatency)
    (h : measuredOf probe n = some cl) : cl.clusterNode = n :=
  (measuredOf_spec' probe n cl h).2

/-- Claim C1 (counterexample): with one malformed gossip address among
otherwise valid peers whose probes succeed, `checkLatency` does **not**
complete without error — it returns the goroutine's `invalid gossip ip` error
to `eg.Wait()`, the other peer's measurement is discarded, nothing is printed
and the run exits non-zero (`errMsg` is set), contradicting the claim. -/
theorem c1_counterexample :
    checkLatency probeC1 [goodNode, badNode] = .error "invalid gossip ip" ∧
      appRun envC1 = ⟨some "invalid gossip ip", [], 2⟩ := by
  constructor <;> rfl

/-- Claim C1 (amended): a peer list containing any node whose gossip address
does not split on `:` into exactly two parts makes `checkLatency` return an
error (so `_main` exits non-zero and no ranking is printed), regardless of how
the other peers' probes fare. -/
theorem c1_amended (probe : Probe) (nodes : List ClusterNode)
    (h : ∃ n ∈ nodes, (goSplitColon n.gossip).length ≠ 2) :
    ∃ e, checkLatency probe nodes = .error e := by
  obtain ⟨n, hn, hlen⟩ := h
  have herr : errOf probe n = some "invalid gossip ip" := by
    unfold errOf
    rw [taskOutcome_invalid probe n hlen]
  rw [checkLatency_eq]
  cases hE : nodes.filterMap (errOf probe) with
  | cons e t => exact ⟨e, rfl⟩
  | nil =>
    exfalso
    have := List.filterMap_eq_nil_iff.mp hE n hn
    rw [herr] at this
    exact Option.noConfusion this

/-- Claim C1 (witness for the amended theorem): the two-peer scenario. -/
theorem c1_amended_witness :
    ∃ e, checkLatency probeC1 [goodNode, badNode] = .error e :=
  c1_amended probeC1 [goodNode, badNode]
    ⟨badNode, by simp, by decide⟩

/-- Claim C2 (code bug): with `top = 1` and 3 successful measurements,
`printResult` prints 3 lines, not `min(top, 3) = 1` — line 163 compares
`len(latency) < 10` against the constant 10 instead of `top`. The printed
lines are the fully sorted list. -/
theorem c2_top_ignored :
    printResult ex3 1 =
      (["[0] time:10ms, ip:10.0.0.3, pubkey:X",
        "[1] time:20ms, ip:10.0.0.2, pubkey:C",
        "[2] time:50ms, ip:10.0.0.1, pubkey:A"], none) ∧
      (printResult ex3 1).1.length = 3 := by
  constructor <;> rfl

/-- Claim C6 (counterexample): a peer list that repeats the same node yields a
result set with that peer twice — `checkLatency` never deduplicates, so "no
duplicate peers" fails for such completed runs. -/
theorem c6_counterexample :
    checkLatency probeC1 [goodNode, goodNode] =
      .ok [⟨50000000, "10.0.0.1", goodNode⟩, ⟨50000000, "10.0.0.1", goodNode⟩] ∧
      ¬ ([⟨50000000, "10.0.0.1", goodNode⟩,
          ⟨50000000, "10.0.0.1", goodNode⟩] : List ClusterLatency).Nodup := by
  constructor
  · rfl
  · decide

/-- Claim C6 (amended): every entry of a successfully returned result set
comes from a zero-loss probe of its address and records that probe's average
round-trip time; and when the fetched peer list itself has no duplicates, the
result set has none either. -/
theorem c6_amended (probe : Probe) (nodes : List ClusterNode)
    (res : List ClusterLatency) (h : checkLatency probe nodes = .ok res) :
    (∀ cl ∈ res, ∃ st, probe cl.ip = .ok st ∧ st.packetLoss = 0 ∧ cl.time = st.avgRtt) ∧
      (nodes.Nodup → res.Nodup) := by
  rw [checkLatency_eq] at h
  cases hE : nodes.filterMap (errOf probe) with
  | cons e t => rw [hE] at h; exact absurd h (by simp)
  | nil =>
    rw [hE] at h
    simp only [Except.ok.injEq] at h
    subst h
    constructor
    · intro cl hcl
      obtain ⟨n, _, hmem⟩ := List.mem_filterMap.mp hcl
      exact measuredOf_spec probe n cl hmem
    · intro hnd
      refine List.Nodup.filterMap ?_ hnd
      intro a a' cl hc hc'
      have h1 := measuredOf_node probe a cl hc
      have h2 := measuredOf_node probe a' cl hc'
      rw [← h1, h2]

/-- Claim C6 (witness for the amended theorem): a two-peer run. -/
theorem c6_amended_witness :
    (∀ cl ∈ ([⟨50000000, "10.0.0.1", goodNode⟩,
              ⟨20000000, "10.0.0.2", goodNode2⟩] : List ClusterLatency),
        ∃ st, probeC1 cl.ip = .ok st ∧ st.packetLoss = 0 ∧ cl.time = st.avgRtt) ∧
      ([⟨50000000, "10.0.0.1", goodNode⟩,
        ⟨20000000, "10.0.0.2", goodNode2⟩] : List ClusterLatency).Nodup := by
  have h := c6_amended probeC1 [goodNode, goodNode2]
    [⟨50000000, "10.0.0.1", goodNode⟩, ⟨20000000, "10.0.0.2", goodNode2⟩] (by rfl)
  exact ⟨h.1, h.2 (by decide)⟩

/-- Claim C7 (code bug): the progress reporter does **not** receive one
completion signal per peer regardless of outcome — a task that fails (here:
malformed gossip address) returns before `bar.Increment()` (main.go line 149),
so a one-peer list yields zero increments. (Moreover `bar.Finish()` on line
153 runs before `eg.Wait()` on line 154, i.e. before the last tasks have
completed.) -/
theorem c7_missing_increment :
    (runTasks probeC1 [badNode]).barIncrements = 0 ∧
      ([badNode] : List ClusterNode).length = 1 := by
  constructor <;> rfl

/-- Claim C8: if `buildURL` fails, or the peer-list fetch/decode
(`getClusterNodes`) fails, the run stops with that single error before any
probe task is started and prints nothing; `main` then calls `log.Fatal`
(non-zero exit). -/
theorem c8_fetch_error_aborts (env : AppEnv) :
    (∀ e, buildURL env.urlArg = .error e → appRun env = ⟨some e, [], 0⟩) ∧
      (∀ u e, buildURL env.urlArg = .ok u → getClusterNodes env u = .error e →
        appRun env = ⟨some e, [], 0⟩) := by
  constructor
  · intro e h
    simp [appRun, appRunWith, h]
  · intro u e h1 h2
    simp [appRun, appRunWith, h1, h2]

/-- Claim C8 (witness): a fetch that returns invalid JSON aborts the whole
run with the unmarshalling error, zero probes and no output. -/
theorem c8_fetch_error_aborts_witness :
    appRun env8 = ⟨some "invalid character in JSON", [], 0⟩ :=
  (c8_fetch_error_aborts env8).2 "http://api.mainnet-beta.solana.com"
    "invalid character in JSON" (by rfl) (by rfl)

/-- Claim C10: an empty peer list gives `checkLatency` an empty result slice
(initialised non-nil on line 120) and no error; `printResult` then prints no
lines for any `top`; a whole run over an empty peer array exits 0 with no
output. -/
theorem c10_empty_ok (probe : Probe) (top : Nat) :
    checkLatency probe [] = .ok [] ∧ printResult [] top = ([], none) ∧
      ∀ (env : AppEnv) (u body : String), buildURL env.urlArg = .ok u →
        env.fetchBody u = .ok body → env.unmarshal body = .ok [] →
        appRun env = ⟨none, [], 0⟩ := by
  refine ⟨rfl, rfl, ?_⟩
  intro env u body h1 h2 h3
  have hg : getClusterNodes env u = .ok ([] : List ClusterNode) := by
    unfold getClusterNodes
    rw [h2]
    show env.unmarshal body >>= pure = Except.ok []
    rw [h3]
    rfl
  simp only [appRun, appRunWith, h1, hg]
  rfl

/-- Claim C10 (witness): a concrete empty-peer-list run. -/
theorem c10_empty_ok_witness :
    checkLatency probeNone [] = .ok [] ∧ printResult [] 10 = ([], none) ∧
      appRun env10 = ⟨none, [], 0⟩ := by
  have h := c10_empty_ok probeNone 10
  exact ⟨h.1, h.2.1, h.2.2 env10 "http://api.mainnet-beta.solana.com" "[]" (by rfl) (by rfl) (by rfl)⟩

/-- Every reachable fan-out state keeps its finished set inside the spawned
range and its in-flight count within the semaphore capacity. -/
theorem semReachable_invariant (M : Nat) (s : SemState) (h : SemReachable M s) :
    s.finished ⊆ Finset.range s.spawned ∧ s.spawned - s.finished.card ≤ concurrency := by
  induction h with
  | init =>
    constructor
    · intro x hx
      exact absurd hx (Finset.not_mem_empty x)
    · simp [concurrency]
  | step hr hstep ih =>
    cases hstep with
    | spawn hM hsem =>
      rename_i s'
      have hsub : s'.finished ⊆ Finset.range (s'.spawned + 1) := by
        intro x hx
        have := ih.1 hx
        rw [Finset.mem_range] at this ⊢
        omega
      refine ⟨hsub, ?_⟩
      have hcard : s'.finished.card ≤ s'.spawned := by
        have := Finset.card_le_card ih.1
        simpa using this
      have hf : s'.spawned - s'.finished.card < concurrency := hsem
      show s'.spawned + 1 - s'.finished.card ≤ concurrency
      omega
    | finish i hi hdone =>
      rename_i s'
      have hsub : insert i s'.finished ⊆ Finset.range s'.spawned := by
        intro x hx
        rcases Finset.mem_insert.mp hx with hx | hx
        · subst hx
          exact Finset.mem_range.mpr hi
        · exact ih.1 hx
      refine ⟨hsub, ?_⟩
      show s'.spawned - (insert i s'.finished).card ≤ concurrency
      rw [Finset.card_insert_of_not_mem hdone]
      omega

/-- Claim C3: during any `checkLatency` fan-out over a peer list of any size
`M`, at most `concurrency = 20` probe tasks are in flight in every reachable
state of the limiter transition system: the spawning loop acquires a semaphore
slot (`sem <- struct...`, blocking at capacity) before launching each task, and
each task's deferred receive releases the slot exactly when the task finishes,
on every exit path including the failure returns. -/
theorem c3_concurrency_bound (M : Nat) (s : SemState) (h : SemReachable M s) :
    s.inFlight ≤ concurrency :=
  (semReachable_invariant M s h).2

/-- Claim C3 (witness): a concrete reachable state with one spawned task. -/
theorem c3_concurrency_bound_witness :
    SemReachable 3 ⟨1, ∅⟩ ∧ SemState.inFlight ⟨1, ∅⟩ ≤ concurrency := by
  have hr : SemReachable 3 ⟨1, ∅⟩ :=
    SemReachable.step SemReachable.init
      (SemStep.spawn (by decide) (by simp [SemState.inFlight, concurrency]))
  exact ⟨hr, c3_concurrency_bound 3 ⟨1, ∅⟩ hr⟩

/-- Claim C4 (code bug): `result = append(result, ...)` on line 147 runs in
up to 20 goroutines with no mutex. Modelling the append as the non-atomic
read-modify-write it is, the interleaving read1-read2-write1-write2 of two
zero-loss tasks loses the first task's measurement even though both tasks
complete: the shared slice ends as one element and the 50 ms entry is gone.
A serialised schedule keeps both, confirming the loss is due to the
interleaving, not the data. -/
theorem c4_lost_append :
    (raceRun (mkLat 50 "10.0.0.1" "A") (mkLat 20 "10.0.0.2" "C")
        [false, true, false, true]).shared = [mkLat 20 "10.0.0.2" "C"] ∧
      (raceRun (mkLat 50 "10.0.0.1" "A") (mkLat 20 "10.0.0.2" "C")
        [false, true, false, true]).pc1 = RacePc.finished ∧
      (raceRun (mkLat 50 "10.0.0.1" "A") (mkLat 20 "10.0.0.2" "C")
        [false, true, false, true]).pc2 = RacePc.finished ∧
      mkLat 50 "10.0.0.1" "A" ∉
        (raceRun (mkLat 50 "10.0.0.1" "A") (mkLat 20 "10.0.0.2" "C")
          [false, true, false, true]).shared ∧
      (raceRun (mkLat 50 "10.0.0.1" "A") (mkLat 20 "10.0.0.2" "C")
        [false, false, true, true]).shared =
        [mkLat 50 "10.0.0.1" "A", mkLat 20 "10.0.0.2" "C"] := by
  refine ⟨rfl, rfl, rfl, ?_, rfl⟩
  decide

/-! ## Insertion sort correctness (for claim C5)

`quickSort_func` handles segments of at most 12 elements with the ShellSort
gap-6 pass followed by `insertionSort_func`. The lemmas below identify the
full-segment `insertionSortGo` with the functional `insSortL` and prove it
sorted, a permutation, and stable; the gap-6 pass is the identity below 7
elements and a permutation always. -/

/-- Indexing an append past the left part. -/
theorem getBang_append (s t : List ClusterLatency) (k : Nat) :
    (s ++ t).get! (s.length + k) = t.get! k := by
  induction s with
  | nil =>
    show t.get! (0 + k) = t.get! k
    rw [Nat.zero_add]
  | cons a s ih =>
    show (a :: (s ++ t)).get! (s.length + 1 + k) = t.get! k
    rw [Nat.add_right_comm]
    show (s ++ t).get! (s.length + k) = t.get! k
    exact ih

/-- Setting an append past the left part. -/
theorem set_append_right (s t : List ClusterLatency) (k : Nat) (v : ClusterLatency) :
    (s ++ t).set (s.length + k) v = s ++ t.set k v := by
  induction s with
  | nil =>
    show t.set (0 + k) v = t.set k v
    rw [Nat.zero_add]
  | cons a s ih =>
    show (a :: (s ++ t)).set (s.length + 1 + k) v = a :: (s ++ t.set k v)
    rw [Nat.add_right_comm]
    show a :: (s ++ t).set (s.length + k) v = a :: (s ++ t.set k v)
    rw [ih]

/-- Swapping preserves the length. -/
theorem length_swapL (l : List ClusterLatency) (i j : Nat) :
    (swapL l i j).length = l.length := by
  simp [swapL]

/-- Swapping two adjacent positions at the end of a prefix. -/
theorem swapL_adjacent (s : List ClusterLatency) (y x : ClusterLatency)
    (r : List ClusterLatency) :
    swapL (s ++ y :: x :: r) s.length (s.length + 1) = s ++ x :: y :: r := by
  unfold swapL
  have h1 : (s ++ y :: x :: r).get! (s.length + 1) = x := getBang_append s (y :: x :: r) 1
  have h0 : (s ++ y :: x :: r).get! s.length = y := getBang_append s (y :: x :: r) 0
  rw [h1, h0]
  have e1 : (s ++ y :: x :: r).set s.length x = s ++ x :: x :: r :=
    set_append_right s (y :: x :: r) 0 x
  rw [e1]
  have e2 : (s ++ x :: x :: r).set (s.length + 1) y = s ++ x :: y :: r :=
    set_append_right s (x :: x :: r) 1 y
  rw [e2]

/-- Replacing position `k` by `x` while keeping the old entry in front is a
permutation of consing `x`. -/
theorem getset_cons_perm : ∀ (l : List ClusterLatency) (k : Nat) (x : ClusterLatency),
    k < l.length → (l.get! k :: l.set k x).Perm (x :: l)
  | [], k, x, h => by simp at h
  | y :: t, 0, x, _ => by
    show (y :: x :: t).Perm (x :: y :: t)
    exact List.Perm.swap x y t
  | y :: t, k+1, x, h => by
    show (t.get! k :: y :: t.set k x).Perm (x :: y :: t)
    have ih := getset_cons_perm t k x (by simpa using h)
    exact (List.Perm.swap y (t.get! k) (t.set k x)).trans
      ((ih.cons y).trans (List.Perm.swap x y t))

/-- An in-bounds `Swap` is a permutation. -/
theorem perm_swapL : ∀ (l : List ClusterLatency) (i j : Nat), i < j → j < l.length →
    (swapL l i j).Perm l
  | [], _, _, _, hj => by simp at hj
  | y :: t, 0, 0, hij, _ => by omega
  | y :: t, i+1, 0, hij, _ => by omega
  | y :: t, 0, j+1, _, hj => by
    have hdef : swapL (y :: t) 0 (j+1) = t.get! j :: t.set j y := rfl
    rw [hdef]
    exact getset_cons_perm t j y (by simpa using hj)
  | y :: t, i+1, j+1, hij, hj => by
    have hdef : swapL (y :: t) (i+1) (j+1) = y :: swapL t i j := rfl
    rw [hdef]
    exact (perm_swapL t i j (by omega) (by simpa using hj)).cons y

/-- Length of an insertion. -/
theorem length_ordIns (x : ClusterLatency) : ∀ s, (ordIns x s).length = s.length + 1
  | [] => rfl
  | y :: s => by
    rw [ordIns]
    by_cases h : ltCL x y = true
    · rw [if_pos h]
      rfl
    · rw [if_neg h]
      simp [length_ordIns x s]

/-- Membership in an insertion. -/
theorem mem_ordIns (x b : ClusterLatency) : ∀ s, (b ∈ ordIns x s ↔ b = x ∨ b ∈ s)
  | [] => by simp [ordIns]
  | y :: ys => by
    rw [ordIns]
    by_cases h : ltCL x y = true
    · rw [if_pos h]
      simp [List.mem_cons]
    · rw [if_neg h]
      simp only [List.mem_cons, mem_ordIns x b ys]
      tauto

/-- An insertion is a permutation of consing. -/
theorem perm_ordIns (x : ClusterLatency) : ∀ s, (ordIns x s).Perm (x :: s)
  | [] => by simp [ordIns]
  | y :: ys => by
    rw [ordIns]
    by_cases h : ltCL x y = true
    · rw [if_pos h]
    · rw [if_neg h]
      exact ((perm_ordIns x ys).cons y).trans (List.Perm.swap x y ys)

/-- An insertion into a sorted list is sorted. -/
theorem sorted_ordIns (x : ClusterLatency) : ∀ s, List.Sorted leT s →
    List.Sorted leT (ordIns x s)
  | [], _ => List.sorted_singleton x
  | y :: ys, hs => by
    rw [ordIns]
    by_cases h : ltCL x y = true
    · rw [if_pos h]
      have hxy : x.time < y.time := by simpa [ltCL] using h
      rw [List.sorted_cons]
      refine ⟨?_, hs⟩
      intro b hb
      rcases List.mem_cons.mp hb with rfl | hb
      · show x.time ≤ b.time
        omega
      · have h2 : y.time ≤ b.time := List.rel_of_sorted_cons hs b hb
        show x.time ≤ b.time
        omega
    · rw [if_neg h]
      have hyx : y.time ≤ x.time := by
        have : ¬ (x.time < y.time) := by simpa [ltCL] using h
        omega
      rw [List.sorted_cons]
      constructor
      · intro b hb
        rcases (mem_ordIns x b ys).mp hb with rfl | hb
        · exact hyx
        · exact List.rel_of_sorted_cons hs b hb
      · exact sorted_ordIns x ys (List.Sorted.of_cons hs)

/-- Inserting an element that is smaller than the appended last one. -/
theorem ordIns_append_lt (x y : ClusterLatency) (h : ltCL x y = true) :
    ∀ s, ordIns x (s ++ [y]) = ordIns x s ++ [y]
  | [] => by simp [ordIns, h]
  | z :: s => by
    rw [List.cons_append, ordIns, ordIns]
    by_cases hz : ltCL x z = true
    · rw [if_pos hz, if_pos hz]
      simp
    · rw [if_neg hz, if_neg hz]
      rw [ordIns_append_lt x y h s]
      simp

/-- Inserting an element no smaller than anything in the list appends it. -/
theorem ordIns_eq_append (x : ClusterLatency) : ∀ s, (∀ z ∈ s, ltCL x z = false) →
    ordIns x s = s ++ [x]
  | [], _ => rfl
  | y :: s, h => by
    rw [ordIns]
    have hy := h y (by simp)
    rw [if_neg (by simp [hy])]
    rw [ordIns_eq_append x s (fun z hz => h z (by simp [hz]))]
    simp

/-- The inner bubble loop started at the end of a sorted prefix inserts the
element: `bubbleGo` on `s ++ x :: r` at position `|s|` yields
`ordIns x s ++ r`. -/
theorem bubbleGo_insert (x : ClusterLatency) (s : List ClusterLatency) :
    ∀ r : List ClusterLatency, List.Sorted leT s →
      bubbleGo 0 (s ++ x :: r) s.length = ordIns x s ++ r := by
  induction s using List.reverseRecOn with
  | nil =>
    intro r _
    simp [bubbleGo, ordIns]
  | append_singleton s y ih =>
    intro r hs
    have hs' : List.Sorted leT s := (List.pairwise_append.mp hs).1
    have hsy : ∀ z ∈ s, leT z y := by
      intro z hz
      exact (List.pairwise_append.mp hs).2.2 z hz y (by simp)
    have hassoc : (s ++ [y]) ++ x :: r = s ++ y :: x :: r := by simp
    have hlen : (s ++ [y]).length = s.length + 1 := by simp
    rw [hassoc, hlen]
    have hx : (s ++ y :: x :: r).get! (s.length + 1) = x := getBang_append s (y :: x :: r) 1
    have hy : (s ++ y :: x :: r).get! s.length = y := getBang_append s (y :: x :: r) 0
    rw [bubbleGo]
    rw [if_neg (by omega : ¬ (s.length + 1 ≤ 0))]
    rw [hx, hy]
    by_cases hxy : ltCL x y = true
    · rw [if_pos hxy]
      rw [swapL_adjacent s y x r]
      rw [ih (y :: r) hs']
      rw [ordIns_append_lt x y hxy s]
      simp
    · rw [if_neg hxy]
      have hall : ∀ z ∈ s ++ [y], ltCL x z = false := by
        intro z hz
        have hyx : y.time ≤ x.time := by
          have : ¬ (x.time < y.time) := by simpa [ltCL] using hxy
          omega
        rcases List.mem_append.mp hz with hz | hz
        · have h2 : z.time ≤ y.time := hsy z hz
          simp only [ltCL, decide_eq_false_iff_not]
          omega
        · simp only [List.mem_singleton] at hz
          subst hz
          simp only [ltCL, decide_eq_false_iff_not]
          omega
      rw [ordIns_eq_append x (s ++ [y]) hall]
      simp

/-- Folding the bubble insertions over the tail, starting from a sorted
prefix, is the `ordIns` fold. -/
theorem foldl_bubble : ∀ (rest p : List ClusterLatency), List.Sorted leT p →
    (List.range' p.length rest.length).foldl (bubbleGo 0) (p ++ rest) =
      rest.foldl (fun acc x => ordIns x acc) p := by
  intro rest
  induction rest with
  | nil =>
    intro p hp
    simp
  | cons x rest ih =>
    intro p hp
    show (List.range' p.length (rest.length + 1)).foldl (bubbleGo 0) (p ++ x :: rest) = _
    rw [List.range'_succ]
    rw [List.foldl_cons]
    rw [bubbleGo_insert x p rest hp]
    have h2 : List.range' (p.length + 1) rest.length =
        List.range' (ordIns x p).length rest.length := by
      rw [length_ordIns]
    rw [h2]
    rw [ih (ordIns x p) (sorted_ordIns x p hp)]
    rfl

/-- `insertionSort_func(data, 0, len(data))` is the `ordIns` fold. -/
theorem insertionSortGo_eq (l : List ClusterLatency) :
    insertionSortGo l 0 l.length = insSortL l := by
  cases l with
  | nil => rfl
  | cons x l' => exact foldl_bubble l' [x] (List.sorted_singleton x)

/-- `insSortL` sorts. -/
theorem sorted_insSortL (l : List ClusterLatency) : List.Sorted leT (insSortL l) := by
  suffices h : ∀ (rest acc : List ClusterLatency), List.Sorted leT acc →
      List.Sorted leT (rest.foldl (fun acc x => ordIns x acc) acc) from
    h l [] List.sorted_nil
  intro rest
  induction rest with
  | nil => exact fun acc h => h
  | cons x rest ih => exact fun acc h => ih (ordIns x acc) (sorted_ordIns x acc h)

/-- The `ordIns` fold permutes its input onto the accumulator. -/
theorem foldl_ordIns_perm : ∀ (rest acc : List ClusterLatency),
    (rest.foldl (fun acc x => ordIns x acc) acc).Perm (acc ++ rest) := by
  intro rest
  induction rest with
  | nil => intro acc; simp
  | cons x rest ih =>
    intro acc
    have h1 := ih (ordIns x acc)
    have h2 : (ordIns x acc ++ rest).Perm ((x :: acc) ++ rest) :=
      (perm_ordIns x acc).append_right rest
    have h4 : (x :: (acc ++ rest)).Perm (acc ++ x :: rest) := List.perm_middle.symm
    exact h1.trans (h2.trans h4)

/-- `insSortL` is a permutation. -/
theorem perm_insSortL (l : List ClusterLatency) : (insSortL l).Perm l := by
  simpa using foldl_ordIns_perm l []

/-- `keyFilter` over a cons. -/
theorem keyFilter_cons (t : Int) (x : ClusterLatency) (l : List ClusterLatency) :
    keyFilter t (x :: l) = if x.time = t then x :: keyFilter t l else keyFilter t l := by
  by_cases h : x.time = t <;> simp [keyFilter, h]

/-- `keyFilter` is empty when no entry has latency `t`. -/
theorem keyFilter_nil_of (t : Int) (s : List ClusterLatency)
    (h : ∀ z ∈ s, z.time ≠ t) : keyFilter t s = [] := by
  unfold keyFilter
  rw [List.filter_eq_nil_iff]
  intro a ha
  simpa using h a ha

/-- Inserting into a sorted list puts the new element after its equals:
the latency-`t` entries of `ordIns x s` are those of `s` with `x` appended
when `x` has latency `t`. -/
theorem filter_ordIns (t : Int) (x : ClusterLatency) :
    ∀ s : List ClusterLatency, List.Sorted leT s →
      keyFilter t (ordIns x s) = keyFilter t s ++ (if x.time = t then [x] else []) := by
  intro s
  induction s with
  | nil =>
    intro _
    by_cases h : x.time = t <;> simp [ordIns, keyFilter, h]
  | cons y ys ih =>
    intro hs
    rw [ordIns]
    by_cases hxy : ltCL x y = true
    · rw [if_pos hxy]
      have hlt : x.time < y.time := by simpa [ltCL] using hxy
      by_cases hxt : x.time = t
      · have hnil : keyFilter t (y :: ys) = [] := by
          apply keyFilter_nil_of
          intro z hz
          rcases List.mem_cons.mp hz with rfl | hz
          · omega
          · have := List.rel_of_sorted_cons hs z hz
            have hzy : y.time ≤ z.time := this
            omega
        rw [keyFilter_cons, if_pos hxt, hnil]
        simp [hxt]
      · rw [keyFilter_cons, if_neg hxt]
        simp [hxt]
    · rw [if_neg hxy]
      rw [keyFilter_cons, keyFilter_cons]
      have ihh := ih (List.Sorted.of_cons hs)
      by_cases hyt : y.time = t <;> simp [hyt, ihh]

/-- The `ordIns` fold preserves every latency class (stability). -/
theorem filter_foldl_ordIns (t : Int) : ∀ (rest acc : List ClusterLatency),
    List.Sorted leT acc →
      keyFilter t (rest.foldl (fun acc x => ordIns x acc) acc) =
        keyFilter t acc ++ keyFilter t rest := by
  intro rest
  induction rest with
  | nil =>
    intro acc _
    simp [keyFilter]
  | cons x rest ih =>
    intro acc hacc
    show keyFilter t (rest.foldl _ (ordIns x acc)) = _
    rw [ih (ordIns x acc) (sorted_ordIns x acc hacc)]
    rw [filter_ordIns t x acc hacc]
    rw [keyFilter_cons]
    by_cases hxt : x.time = t <;> simp [hxt]

/-- `insSortL` is stable: it preserves every latency class. -/
theorem filter_insSortL (t : Int) (l : List ClusterLatency) :
    keyFilter t (insSortL l) = keyFilter t l := by
  have h := filter_foldl_ordIns t l [] List.sorted_nil
  simpa [keyFilter] using h

/-- The gap-6 conditional-swap fold is a length-preserving permutation, for
any in-bounds index list. -/
theorem shellFold_perm : ∀ (is : List Nat) (acc : List ClusterLatency),
    (∀ i ∈ is, 6 ≤ i ∧ i < acc.length) →
      ((is.foldl
          (fun acc i => if ltCL (acc.get! i) (acc.get! (i-6)) then swapL acc (i-6) i else acc)
          acc).Perm acc ∧
        (is.foldl
          (fun acc i => if ltCL (acc.get! i) (acc.get! (i-6)) then swapL acc (i-6) i else acc)
          acc).length = acc.length) := by
  intro is
  induction is with
  | nil =>
    intro acc _
    exact ⟨List.Perm.refl acc, rfl⟩
  | cons i is ih =>
    intro acc hb
    obtain ⟨h6, hlt⟩ := hb i (by simp)
    rw [List.foldl_cons]
    have hstep : ((if ltCL (acc.get! i) (acc.get! (i-6)) then swapL acc (i-6) i else acc).Perm acc) ∧
        (if ltCL (acc.get! i) (acc.get! (i-6)) then swapL acc (i-6) i else acc).length =
          acc.length := by
      by_cases hc : ltCL (acc.get! i) (acc.get! (i-6)) = true
      · rw [if_pos hc]
        exact ⟨perm_swapL acc (i-6) i (by omega) hlt, length_swapL acc (i-6) i⟩
      · rw [if_neg hc]
        exact ⟨List.Perm.refl acc, rfl⟩
    have hb' : ∀ j ∈ is, 6 ≤ j ∧ j <
        (if ltCL (acc.get! i) (acc.get! (i-6)) then swapL acc (i-6) i else acc).length := by
      intro j hj
      rw [hstep.2]
      exact hb j (by simp [hj])
    obtain ⟨p1, l1⟩ := ih _ hb'
    exact ⟨p1.trans hstep.1, l1.trans hstep.2⟩

/-- The ShellSort gap-6 pass over the whole slice is a length-preserving
permutation. -/
theorem perm_shellGo (l : List ClusterLatency) (b : Nat) (hb : b ≤ l.length) :
    (shellGo l 0 b).Perm l ∧ (shellGo l 0 b).length = l.length := by
  unfold shellGo
  apply shellFold_perm
  intro i hi
  have h := List.mem_range'_1.mp hi
  constructor <;> omega

/-- Below 7 elements the gap-6 pass does nothing. -/
theorem shellGo_le6 (l : List ClusterLatency) (h : l.length ≤ 6) :
    shellGo l 0 l.length = l := by
  unfold shellGo
  rw [show l.length - (0+6) = 0 from by omega]
  rfl

/-- For at most 12 elements `sort.Slice` is the gap-6 pass followed by
insertion sort (and the identity on at most one element). -/
theorem sortSlice_le12 (l : List ClusterLatency) (h : l.length ≤ 12) :
    sortSlice l =
      if 1 < l.length then insertionSortGo (shellGo l 0 l.length) 0 l.length else l := by
  unfold sortSlice
  rw [quickSortGo]
  rw [if_neg (by omega : ¬ (12 < l.length - 0))]
  rw [show l.length - 0 = l.length from rfl]

/-! ## `get!`/`set`/`swapL` pointwise lemmas -/

/-- Reading back a just-set position. -/
theorem getBang_set_self : ∀ (l : List ClusterLatency) (i : Nat) (x : ClusterLatency),
    i < l.length → (l.set i x).get! i = x
  | [], i, x, h => by simp at h
  | _ :: _, 0, _, _ => rfl
  | y :: t, i+1, x, h => getBang_set_self t i x (by simpa using h)

/-- Reading an untouched position after a set. -/
theorem getBang_set_ne : ∀ (l : List ClusterLatency) (i j : Nat) (x : ClusterLatency),
    i ≠ j → (l.set i x).get! j = l.get! j
  | [], _, _, _, _ => rfl
  | _ :: _, 0, 0, _, h => absurd rfl h
  | _ :: _, 0, _+1, _, _ => rfl
  | _ :: _, _+1, 0, _, _ => rfl
  | _ :: t, i+1, j+1, x, h => getBang_set_ne t i j x (by omega)

/-- Writing back the value that is already there. -/
theorem set_getBang_self : ∀ (l : List ClusterLatency) (i : Nat),
    i < l.length → l.set i (l.get! i) = l
  | [], i, h => by simp at h
  | _ :: _, 0, _ => rfl
  | y :: t, i+1, h => by
    show y :: t.set i (t.get! i) = y :: t
    rw [set_getBang_self t i (by simpa using h)]

/-- After `Swap(i, j)`, position `i` holds the old entry of `j`. -/
theorem getBang_swapL_fst (l : List ClusterLatency) (i j : Nat)
    (hil : i < l.length) : (swapL l i j).get! i = l.get! j := by
  unfold swapL
  by_cases h : i = j
  · subst h
    exact getBang_set_self _ i _ (by simpa using hil)
  · rw [getBang_set_ne _ _ _ _ (fun hh => h hh.symm), getBang_set_self l i _ hil]

/-- After `Swap(i, j)`, position `j` holds the old entry of `i`. -/
theorem getBang_swapL_snd (l : List ClusterLatency) (i j : Nat)
    (hjl : j < l.length) : (swapL l i j).get! j = l.get! i := by
  unfold swapL
  exact getBang_set_self _ j _ (by simpa using hjl)

/-- `Swap(i, j)` leaves every other position unchanged. -/
theorem getBang_swapL_other (l : List ClusterLatency) (i j p : Nat)
    (hpi : p ≠ i) (hpj : p ≠ j) : (swapL l i j).get! p = l.get! p := by
  unfold swapL
  rw [getBang_set_ne _ _ _ _ (fun hh => hpj hh.symm),
    getBang_set_ne _ _ _ _ (fun hh => hpi hh.symm)]

/-- A degenerate swap is a single redundant set. -/
theorem swapL_self (l : List ClusterLatency) (i : Nat) :
    swapL l i i = l.set i (l.get! i) := by
  unfold swapL
  rw [List.set_set]

/-- Any in-bounds swap (equal indices allowed) is a permutation. -/
theorem perm_swapL_all (l : List ClusterLatency) (i j : Nat)
    (hil : i < l.length) (hjl : j < l.length) : (swapL l i j).Perm l := by
  rcases Nat.lt_trichotomy i j with h | h | h
  · exact perm_swapL l i j h hjl
  · subst h
    rw [swapL_self, set_getBang_self l i hil]
  · have hcomm : swapL l i j = swapL l j i := by
      unfold swapL
      rw [List.set_comm _ _ _ (by omega)]
    rw [hcomm]
    exact perm_swapL l j i h hil

/-! ## Structural lemmas about `SwapsIn` -/

/-- A swap sequence preserves the length. -/
theorem SwapsIn.length_eq {S : Nat → Prop} {l l' : List ClusterLatency}
    (h : SwapsIn S l l') : l'.length = l.length := by
  induction h with
  | refl _ => rfl
  | swap m i j _ _ _ _ => exact length_swapL m i j
  | trans _ _ ih1 ih2 => exact ih2.trans ih1

/-- A swap sequence is a permutation. -/
theorem SwapsIn.perm {S : Nat → Prop} {l l' : List ClusterLatency}
    (h : SwapsIn S l l') : l'.Perm l := by
  induction h with
  | refl _ => exact List.Perm.refl _
  | swap m i j _ _ hil hjl => exact perm_swapL_all m i j hil hjl
  | trans _ _ ih1 ih2 => exact ih2.trans ih1

/-- Enlarging the allowed footprint. -/
theorem SwapsIn.mono {S T : Nat → Prop} {l l' : List ClusterLatency}
    (hST : ∀ k, S k → T k) (h : SwapsIn S l l') : SwapsIn T l l' := by
  induction h with
  | refl m => exact SwapsIn.refl m
  | swap m i j hi hj hil hjl => exact SwapsIn.swap m i j (hST i hi) (hST j hj) hil hjl
  | trans _ _ ih1 ih2 => exact SwapsIn.trans ih1 ih2

/-- Positions outside the footprint are untouched. -/
theorem SwapsIn.frame {S : Nat → Prop} {l l' : List ClusterLatency}
    (h : SwapsIn S l l') (p : Nat) (hp : ¬ S p) : l'.get! p = l.get! p := by
  induction h with
  | refl _ => rfl
  | swap m i j hi hj _ _ =>
    exact getBang_swapL_other m i j p (fun hh => hp (hh.symm ▸ hi))
      (fun hh => hp (hh.symm ▸ hj))
  | trans _ _ ih1 ih2 => exact ih2.trans ih1

/-- A pointwise value predicate holding on the whole footprint is preserved:
swaps only move values around inside it. -/
theorem SwapsIn.val_pred {S : Nat → Prop} (Q : Int → Prop) {l l' : List ClusterLatency}
    (h : SwapsIn S l l') :
    (∀ p, S p → Q (valT l p)) → ∀ p, S p → Q (valT l' p) := by
  induction h with
  | refl _ => exact fun hQ => hQ
  | swap m i j hi hj hil hjl =>
    intro hQ p hp
    by_cases hpi : p = i
    · subst hpi
      unfold valT
      rw [getBang_swapL_fst m p j hil]
      exact hQ j hj
    · by_cases hpj : p = j
      · subst hpj
        unfold valT
        rw [getBang_swapL_snd m i p hjl]
        exact hQ i hi
      · unfold valT
        rw [getBang_swapL_other m i j p hpi hpj]
        exact hQ p hp
  | trans _ _ ih1 ih2 => exact fun hQ => ih2 (ih1 hQ)

/-! ## Structural lemmas about `SortedSeg` -/

/-- Segments of at most one element are sorted. -/
theorem sortedSeg_vacuous (l : List ClusterLatency) (a b : Nat) (h : b ≤ a + 1) :
    SortedSeg l a b := by
  intro i j hai hij hjb
  exfalso
  omega

/-- Sortedness only depends on the values in the segment. -/
theorem sortedSeg_of_frame {l l' : List ClusterLatency} {a b : Nat}
    (hval : ∀ k, a ≤ k → k < b → valT l' k = valT l k)
    (h : SortedSeg l a b) : SortedSeg l' a b := by
  intro i j hai hij hjb
  rw [hval i hai (by omega), hval j (by omega) hjb]
  exact h i j hai hij hjb

/-- A subsegment of a sorted segment is sorted. -/
theorem sortedSeg_restrict {l : List ClusterLatency} {a b a' b' : Nat}
    (h : SortedSeg l a b) (ha : a ≤ a') (hb : b' ≤ b) : SortedSeg l a' b' := by
  intro i j hai hij hjb
  exact h i j (by omega) hij (by omega)

/-- Two sorted side segments around a constant middle, with the side values
bounded by the middle value, glue to one sorted segment. -/
theorem sortedSeg_glue {l : List ClusterLatency} {a m1 m2 b : Nat} {P : Int}
    (h1 : SortedSeg l a m1) (h2 : SortedSeg l m2 b)
    (hL : ∀ k, a ≤ k → k < m1 → valT l k ≤ P)
    (hM : ∀ k, m1 ≤ k → k < m2 → valT l k = P)
    (hR : ∀ k, m2 ≤ k → k < b → P ≤ valT l k) :
    SortedSeg l a b := by
  intro i j hai hij hjb
  by_cases hi1 : i < m1
  · by_cases hj1 : j < m1
    · exact h1 i j hai hij hj1
    · by_cases hj2 : j < m2
      · rw [hM j (by omega) hj2]
        exact hL i hai hi1
      · exact le_trans (hL i hai hi1) (hR j (by omega) hjb)
  · by_cases hi2 : i < m2
    · by_cases hj2 : j < m2
      · rw [hM i (by omega) hi2, hM j (by omega) hj2]
      · rw [hM i (by omega) hi2]
        exact hR j (by omega) hjb
    · exact h2 i j (by omega) hij hjb

/-- `get!` agrees with `get` in bounds. -/
theorem getBang_eq_get : ∀ (l : List ClusterLatency) (i : Nat) (h : i < l.length),
    l.get! i = l.get ⟨i, h⟩
  | [], i, h => by simp at h
  | _ :: _, 0, _ => rfl
  | _ :: t, i+1, h => getBang_eq_get t i (by simpa using h)

/-- A fully sorted segment is `List.Sorted`. -/
theorem sorted_of_sortedSeg {l : List ClusterLatency}
    (h : SortedSeg l 0 l.length) : List.Sorted leT l := by
  rw [List.Sorted, List.pairwise_iff_get]
  intro i j hij
  have hh := h i.1 j.1 (Nat.zero_le _) hij j.2
  unfold valT at hh
  rw [getBang_eq_get l i.1 i.2, getBang_eq_get l j.1 j.2] at hh
  exact hh

/-! ## Heap index arithmetic -/

/-- The parent index is strictly smaller. -/
theorem par_lt (j : Nat) (h : 0 < j) : par j < j := by
  unfold par
  omega

/-- A subtree member is at least the root. -/
theorem desc_le {r j : Nat} (h : Desc r j) : r ≤ j := by
  induction h with
  | base => exact Nat.le_refl _
  | step hj hd ih =>
    have := par_lt _ hj
    omega

/-- Subtree membership is transitive. -/
theorem desc_trans {r m j : Nat} (h1 : Desc r m) (h2 : Desc m j) : Desc r j := by
  induction h2 with
  | base => exact h1
  | step hj _ ih => exact Desc.step hj ih

/-- Everything is in the subtree of the heap root `0`. -/
theorem desc_zero : ∀ j, Desc 0 j := by
  intro j
  induction j using Nat.strong_induction_on with
  | _ j ih =>
    cases j with
    | zero => exact Desc.base
    | succ m => exact Desc.step (Nat.succ_pos m) (ih _ (par_lt _ (Nat.succ_pos m)))

/-- A strict subtree member's parent is still in the subtree. -/
theorem desc_par_of_ne {c j : Nat} (h : Desc c j) (hne : j ≠ c) :
    0 < j ∧ Desc c (par j) := by
  cases h with
  | base => exact absurd rfl hne
  | step hj hd => exact ⟨hj, hd⟩

/-- Positions below the root are outside its subtree. -/
theorem not_desc_of_lt {c j : Nat} (h : j < c) : ¬ Desc c j :=
  fun hd => absurd (desc_le hd) (by omega)

/-! ## Phase 2: the small-segment path (gap-6 ShellSort pass + insertion sort)

`quickSort_func` finishes segments of at most 12 elements with the gap-6
conditional-swap pass followed by `insertionSort_func`. The bubble loop is
analysed through the classic invariant: with the moving element at position
`m`, both flanks are sorted and every element left of `m` is below every
element strictly right of `m`. -/

/-- Invariant-based specification of the inner bubble loop
(`for j := i; j > a && data.Less(j, j-1); j--`). -/
theorem bubbleGo_inv : ∀ (m : Nat) (l : List ClusterLatency) (a i : Nat),
    a ≤ m → m ≤ i → i + 1 ≤ l.length →
    SortedSeg l a m → SortedSeg l m (i+1) →
    (∀ p q, a ≤ p → p < m → m < q → q < i+1 → valT l p ≤ valT l q) →
    SwapsIn (fun k => a ≤ k ∧ k < i+1) l (bubbleGo a l m) ∧
      SortedSeg (bubbleGo a l m) a (i+1) ∧ (bubbleGo a l m).length = l.length := by
  intro m
  induction m with
  | zero =>
    intro l a i ha hm hlen hs1 hs2 hcross
    refine ⟨SwapsIn.refl l, ?_, rfl⟩
    have ha0 : a = 0 := by omega
    subst ha0
    exact hs2
  | succ m ih =>
    intro l a i ha hm hlen hs1 hs2 hcross
    rw [bubbleGo]
    by_cases hma : m + 1 ≤ a
    · rw [if_pos hma]
      have haeq : a = m+1 := by omega
      subst haeq
      exact ⟨SwapsIn.refl l, hs2, rfl⟩
    · rw [if_neg hma]
      by_cases hlt : ltCL (l.get! (m+1)) (l.get! m) = true
      · rw [if_pos hlt]
        have hvm1 : valT l (m+1) < valT l m := by
          have hh := hlt
          simp only [ltCL, decide_eq_true_eq] at hh
          exact hh
        have hmlen : m < l.length := by omega
        have hm1len : m + 1 < l.length := by omega
        have e2m : valT (swapL l m (m+1)) m = valT l (m+1) := by
          unfold valT
          rw [getBang_swapL_fst l m (m+1) hmlen]
        have e2m1 : valT (swapL l m (m+1)) (m+1) = valT l m := by
          unfold valT
          rw [getBang_swapL_snd l m (m+1) hm1len]
        have eo : ∀ p, p ≠ m → p ≠ m+1 → valT (swapL l m (m+1)) p = valT l p := by
          intro p h1 h2
          unfold valT
          rw [getBang_swapL_other l m (m+1) p h1 h2]
        obtain ⟨hw, hsr, hlr⟩ := ih (swapL l m (m+1)) a i (by omega) (by omega)
          (by rw [length_swapL]; exact hlen)
          (by
            apply sortedSeg_of_frame (fun k hk1 hk2 => eo k (by omega) (by omega))
            exact sortedSeg_restrict hs1 (le_refl a) (by omega))
          (by
            intro p q hmp hpq hq
            by_cases hpm : p = m
            · subst hpm
              rw [e2m]
              by_cases hqm : q = p+1
              · subst hqm
                rw [e2m1]
                exact le_of_lt hvm1
              · rw [eo q (by omega) (by omega)]
                exact hs2 (p+1) q (by omega) (by omega) hq
            · have hpm1 : p = m+1 ∨ m+2 ≤ p := by omega
              rcases hpm1 with hpm1 | hpm1
              · subst hpm1
                rw [e2m1, eo q (by omega) (by omega)]
                exact hcross m q (by omega) (by omega) (by omega) hq
              · rw [eo p (by omega) (by omega), eo q (by omega) (by omega)]
                exact hs2 p q (by omega) hpq hq)
          (by
            intro p q hap hpm hmq hq
            rw [eo p (by omega) (by omega)]
            by_cases hqm : q = m+1
            · subst hqm
              rw [e2m1]
              exact hs1 p m hap hpm (by omega)
            · rw [eo q (by omega) (by omega)]
              exact hcross p q hap (by omega) (by omega) hq)
        refine ⟨?_, hsr, hlr.trans (length_swapL l m (m+1))⟩
        exact SwapsIn.trans
          (SwapsIn.swap l m (m+1) ⟨by omega, by omega⟩ ⟨by omega, by omega⟩ hmlen hm1len) hw
      · rw [if_neg hlt]
        refine ⟨SwapsIn.refl l, ?_, rfl⟩
        have hge : valT l m ≤ valT l (m+1) := by
          have hh := hlt
          simp only [ltCL, decide_eq_true_eq] at hh
          unfold valT
          omega
        intro p q hap hpq hq
        by_cases hqm : q ≤ m
        · exact hs1 p q hap hpq (by omega)
        · by_cases hpm : m + 1 ≤ p
          · exact hs2 p q (by omega) hpq hq
          · by_cases hpm' : p = m
            · subst hpm'
              by_cases hqm' : q = p+1
              · subst hqm'
                exact hge
              · exact le_trans hge (hs2 (p+1) q (by omega) (by omega) hq)
            · by_cases hqm' : q = m+1
              · subst hqm'
                exact le_trans (hs1 p m hap (by omega) (by omega)) hge
              · exact hcross p q hap (by omega) (by omega) hq

/-- The outer insertion-sort loop (`for i := a+1; i < b; i++`), peeled over
`List.range'`. -/
theorem insertionFold_inv : ∀ (n : Nat) (l : List ClusterLatency) (a s : Nat),
    a < s → s + n ≤ l.length → SortedSeg l a s →
    SwapsIn (fun k => a ≤ k ∧ k < s + n) l ((List.range' s n).foldl (bubbleGo a) l) ∧
      SortedSeg ((List.range' s n).foldl (bubbleGo a) l) a (s + n) ∧
      ((List.range' s n).foldl (bubbleGo a) l).length = l.length := by
  intro n
  induction n with
  | zero =>
    intro l a s has hlen hs
    exact ⟨SwapsIn.refl l, hs, rfl⟩
  | succ n ih =>
    intro l a s has hlen hs
    rw [List.range'_succ, List.foldl_cons]
    obtain ⟨hw1, hs1, hl1⟩ := bubbleGo_inv s l a s (le_of_lt has) (le_refl s)
      (by omega) hs (sortedSeg_vacuous l s (s+1) (le_refl _))
      (by intro p q _ _ h1 h2; exfalso; omega)
    obtain ⟨hw2, hs2, hl2⟩ := ih (bubbleGo a l s) a (s+1) (by omega)
      (by rw [hl1]; omega) hs1
    refine ⟨?_, ?_, hl2.trans hl1⟩
    · exact SwapsIn.trans (hw1.mono (fun k hk => ⟨hk.1, by omega⟩))
        (hw2.mono (fun k hk => ⟨hk.1, by omega⟩))
    · have he : s + 1 + n = s + (n+1) := by omega
      rw [he] at hs2
      exact hs2

/-- `insertionSort_func(data, a, b)` sorts the segment `[a, b)` by swaps
inside it. -/
theorem insertionSortGo_correct (l : List ClusterLatency) (a b : Nat)
    (hb : b ≤ l.length) (hab : a < b) :
    SwapsIn (fun k => a ≤ k ∧ k < b) l (insertionSortGo l a b) ∧
      SortedSeg (insertionSortGo l a b) a b ∧
      (insertionSortGo l a b).length = l.length := by
  have h := insertionFold_inv (b - (a+1)) l a (a+1) (by omega) (by omega)
    (sortedSeg_vacuous l a (a+1) (le_refl _))
  have he : a + 1 + (b - (a+1)) = b := by omega
  rw [he] at h
  exact h

/-- The gap-6 conditional-swap fold stays inside `[a, b)`. -/
theorem shellFold_swaps : ∀ (is : List Nat) (acc : List ClusterLatency) (a b : Nat),
    (∀ i ∈ is, a + 6 ≤ i ∧ i < b) → b ≤ acc.length →
    SwapsIn (fun k => a ≤ k ∧ k < b) acc
      (is.foldl
        (fun acc i => if ltCL (acc.get! i) (acc.get! (i-6)) then swapL acc (i-6) i else acc)
        acc) ∧
      (is.foldl
        (fun acc i => if ltCL (acc.get! i) (acc.get! (i-6)) then swapL acc (i-6) i else acc)
        acc).length = acc.length := by
  intro is
  induction is with
  | nil =>
    intro acc a b _ _
    exact ⟨SwapsIn.refl acc, rfl⟩
  | cons i is ih =>
    intro acc a b hmem hlen
    obtain ⟨h6, hib⟩ := hmem i (by simp)
    rw [List.foldl_cons]
    have hstep : SwapsIn (fun k => a ≤ k ∧ k < b) acc
        (if ltCL (acc.get! i) (acc.get! (i-6)) then swapL acc (i-6) i else acc) ∧
        (if ltCL (acc.get! i) (acc.get! (i-6)) then swapL acc (i-6) i
          else acc).length = acc.length := by
      by_cases hc : ltCL (acc.get! i) (acc.get! (i-6)) = true
      · rw [if_pos hc]
        exact ⟨SwapsIn.swap acc (i-6) i ⟨by omega, by omega⟩ ⟨by omega, hib⟩
          (by omega) (by omega), length_swapL acc (i-6) i⟩
      · rw [if_neg hc]
        exact ⟨SwapsIn.refl acc, rfl⟩
    obtain ⟨hw2, hl2⟩ := ih _ a b (fun j hj => hmem j (by simp [hj]))
      (by rw [hstep.2]; exact hlen)
    exact ⟨SwapsIn.trans hstep.1 hw2, hl2.trans hstep.2⟩

/-- The ShellSort gap-6 pass stays inside `[a, b)`. -/
theorem shellGo_correct (l : List ClusterLatency) (a b : Nat) (hb : b ≤ l.length) :
    SwapsIn (fun k => a ≤ k ∧ k < b) l (shellGo l a b) ∧
      (shellGo l a b).length = l.length := by
  unfold shellGo
  apply shellFold_swaps
  · intro i hi
    have h := List.mem_range'_1.mp hi
    constructor <;> omega
  · exact hb

/-- The complete small-segment path of `quickSort_func`. -/
theorem smallSortGo_correct (l : List ClusterLatency) (a b : Nat)
    (hb : b ≤ l.length) (hab : 1 < b - a) :
    SwapsIn (fun k => a ≤ k ∧ k < b) l (insertionSortGo (shellGo l a b) a b) ∧
      SortedSeg (insertionSortGo (shellGo l a b) a b) a b ∧
      (insertionSortGo (shellGo l a b) a b).length = l.length := by
  obtain ⟨hw1, hl1⟩ := shellGo_correct l a b hb
  obtain ⟨hw2, hs2, hl2⟩ := insertionSortGo_correct (shellGo l a b) a b
    (by rw [hl1]; exact hb) (by omega)
  exact ⟨SwapsIn.trans hw1 hw2, hs2, hl2.trans hl1⟩

/-! ## Phase 3: `heapSort_func`

Heap indices are relative to `first`; `par` is the parent index. `siftDown`
is specified by: pairs whose parent is at least `root+1` valid before imply
pairs whose parent is at least `root` valid after, with all swaps inside the
subtree of `root`. -/

/-- One unfolding of the `siftDown_func` loop. -/
theorem siftDownLoop_succ (fuel : Nat) (l : List ClusterLatency) (root hi first : Nat) :
    siftDownLoop (fuel+1) l root hi first =
      if hi ≤ 2*root+1 then l
      else
        if ¬ ltCL (l.get! (first+root)) (l.get! (first + sdChild l root hi first)) then l
        else siftDownLoop fuel (swapL l (first+root) (first + sdChild l root hi first))
          (sdChild l root hi first) hi first := rfl

/-- The selected child is a child of `root`, in range, and carries the larger
of the one or two child values. -/
theorem sdChild_spec (l : List ClusterLatency) (root hi first : Nat) (h : 2*root+1 < hi) :
    (sdChild l root hi first = 2*root+1 ∨ sdChild l root hi first = 2*root+2) ∧
      sdChild l root hi first < hi ∧
      valT l (first+(2*root+1)) ≤ valT l (first + sdChild l root hi first) ∧
      (2*root+2 < hi → valT l (first+(2*root+2)) ≤ valT l (first + sdChild l root hi first)) := by
  unfold sdChild
  by_cases hsel : 2*root+1 + 1 < hi ∧
      ltCL (l.get! (first+(2*root+1))) (l.get! (first+(2*root+1)+1)) = true
  · rw [if_pos hsel]
    obtain ⟨h1, h2⟩ := hsel
    have hv : valT l (first+(2*root+1)) < valT l (first+(2*root+1)+1) := by
      simp only [ltCL, decide_eq_true_eq] at h2
      exact h2
    have he : first + (2*root+1) + 1 = first + (2*root+1+1) := by omega
    rw [he] at hv
    refine ⟨Or.inr (by omega), by omega, le_of_lt hv, ?_⟩
    intro _
    have he2 : (2*root+2 : Nat) = 2*root+1+1 := by omega
    rw [he2]
  · rw [if_neg hsel]
    refine ⟨Or.inl rfl, h, le_refl _, ?_⟩
    intro h22
    have hnot : ¬ ltCL (l.get! (first+(2*root+1))) (l.get! (first+(2*root+1)+1)) = true := by
      intro hc
      exact hsel ⟨by omega, hc⟩
    have hge : valT l (first+(2*root+1)+1) ≤ valT l (first+(2*root+1)) := by
      simp only [ltCL, decide_eq_true_eq] at hnot
      unfold valT
      omega
    have he : first + (2*root+1) + 1 = first + (2*root+2) := by omega
    rw [he] at hge
    exact hge

/-- Going up a heap chain bounds a subtree value by the subtree root's. -/
theorem heap_chain_le (l : List ClusterLatency) (first hi c : Nat)
    (hp : ∀ j, 0 < j → j < hi → c ≤ par j → valT l (first+j) ≤ valT l (first + par j)) :
    ∀ j, Desc c j → j < hi → valT l (first+j) ≤ valT l (first+c) := by
  intro j hd
  induction hd with
  | base => intro _; exact le_refl _
  | step hj hdp ih =>
    intro hjhi
    have hpl := par_lt _ hj
    exact le_trans (hp _ hj hjhi (desc_le hdp)) (ih (by omega))

/-- `siftDown_func`: starting from a heap valid at every pair whose parent
exceeds `root`, it restores validity at every pair whose parent is at least
`root`, touching only the subtree of `root` below `hi`. -/
theorem siftDownLoop_post : ∀ (fuel : Nat) (l : List ClusterLatency) (root hi first : Nat),
    first + hi ≤ l.length → hi ≤ fuel + root →
    (∀ j, 0 < j → j < hi → root + 1 ≤ par j → valT l (first+j) ≤ valT l (first + par j)) →
    SwapsIn (fun p => ∃ j, Desc root j ∧ j < hi ∧ p = first + j) l
        (siftDownLoop fuel l root hi first) ∧
      (siftDownLoop fuel l root hi first).length = l.length ∧
      (∀ j, 0 < j → j < hi → root ≤ par j →
        valT (siftDownLoop fuel l root hi first) (first+j) ≤
          valT (siftDownLoop fuel l root hi first) (first + par j)) := by
  intro fuel
  induction fuel with
  | zero =>
    intro l root hi first hlen hfuel hpre
    refine ⟨SwapsIn.refl l, rfl, ?_⟩
    intro j hj hjhi hr
    exfalso
    have hpl := par_lt j hj
    omega
  | succ fuel ih =>
    intro l root hi first hlen hfuel hpre
    rw [siftDownLoop_succ]
    by_cases hchild : hi ≤ 2*root+1
    · rw [if_pos hchild]
      refine ⟨SwapsIn.refl l, rfl, ?_⟩
      intro j hj hjhi hr
      by_cases hreq : par j = root
      · exfalso
        unfold par at hreq
        omega
      · exact hpre j hj hjhi (by omega)
    · rw [if_neg hchild]
      have hch : 2*root+1 < hi := by omega
      obtain ⟨hcor, hclt, hmax1, hmax2⟩ := sdChild_spec l root hi first hch
      have hrc : root < sdChild l root hi first := by omega
      have hparc : par (sdChild l root hi first) = root := by
        unfold par
        omega
      have hdescc : Desc root (sdChild l root hi first) := by
        refine Desc.step (by omega) ?_
        rw [hparc]
        exact Desc.base
      by_cases hswap : ltCL (l.get! (first+root))
          (l.get! (first + sdChild l root hi first)) = true
      · rw [if_neg (fun hh => hh hswap)]
        have hvswap : valT l (first+root) < valT l (first + sdChild l root hi first) := by
          simp only [ltCL, decide_eq_true_eq] at hswap
          exact hswap
        obtain ⟨hw3, hl3, hp3⟩ := ih (swapL l (first+root) (first + sdChild l root hi first))
          (sdChild l root hi first) hi first
          (by rw [length_swapL]; exact hlen)
          (by omega)
          (by
            intro j hj hjhi hcp
            have hpj := par_lt j hj
            have e1 : valT (swapL l (first+root) (first + sdChild l root hi first)) (first+j) =
                valT l (first+j) := by
              unfold valT
              rw [getBang_swapL_other _ _ _ _ (by omega) (by omega)]
            have e2 : valT (swapL l (first+root) (first + sdChild l root hi first))
                (first + par j) = valT l (first + par j) := by
              unfold valT
              rw [getBang_swapL_other _ _ _ _ (by omega) (by omega)]
            rw [e1, e2]
            exact hpre j hj hjhi (by omega))
        refine ⟨?_, ?_, ?_⟩
        · refine SwapsIn.trans
            (SwapsIn.swap l (first+root) (first + sdChild l root hi first)
              ⟨root, Desc.base, by omega, rfl⟩
              ⟨sdChild l root hi first, hdescc, hclt, rfl⟩
              (by omega) (by omega)) ?_
          exact hw3.mono (by
            rintro p ⟨j, hdj, hjhi, rfl⟩
            exact ⟨j, desc_trans hdescc hdj, hjhi, rfl⟩)
        · exact hl3.trans (length_swapL _ _ _)
        · intro j hj hjhi hr
          by_cases hcase : sdChild l root hi first ≤ par j
          · exact hp3 j hj hjhi hcase
          · -- root ≤ par j < sdChild
            have hBr : valT (siftDownLoop fuel
                  (swapL l (first+root) (first + sdChild l root hi first))
                  (sdChild l root hi first) hi first) (first+root) =
                valT l (first + sdChild l root hi first) := by
              unfold valT
              rw [hw3.frame (first+root) (by
                rintro ⟨jj, hdjj, hjjhi, heq⟩
                have : jj = root := by omega
                subst this
                exact absurd (desc_le hdjj) (by omega))]
              rw [getBang_swapL_fst _ _ _ (by omega)]
            by_cases hpeq : par j = root
            · -- j is a child of root
              have hj12 : j = 2*root+1 ∨ j = 2*root+2 := by
                unfold par at hpeq
                omega
              rw [hpeq, hBr]
              by_cases hjc : j = sdChild l root hi first
              · -- bound the whole subtree of the chosen child
                have hboundpre : ∀ p, (∃ jj, Desc (sdChild l root hi first) jj ∧ jj < hi ∧
                    p = first + jj) →
                    valT (swapL l (first+root) (first + sdChild l root hi first)) p ≤
                      valT l (first + sdChild l root hi first) := by
                  rintro p ⟨jj, hdjj, hjjhi, rfl⟩
                  by_cases hjjc : jj = sdChild l root hi first
                  · have e1 : valT (swapL l (first+root) (first + sdChild l root hi first))
                        (first+jj) = valT l (first+root) := by
                      rw [hjjc]
                      unfold valT
                      rw [getBang_swapL_snd _ _ _ (by omega)]
                    rw [e1]
                    exact le_of_lt hvswap
                  · obtain ⟨hjj0, hdp⟩ := desc_par_of_ne hdjj hjjc
                    have hjjgt : sdChild l root hi first < jj :=
                      lt_of_le_of_ne (desc_le hdjj) (fun hh => hjjc hh.symm)
                    have e1 : valT (swapL l (first+root) (first + sdChild l root hi first))
                        (first+jj) = valT l (first+jj) := by
                      unfold valT
                      rw [getBang_swapL_other _ _ _ _ (by omega) (by omega)]
                    rw [e1]
                    exact heap_chain_le l first hi (sdChild l root hi first)
                      (fun j' h1 h2 h3 => hpre j' h1 h2 (by omega)) jj hdjj hjjhi
                have hbound := hw3.val_pred (fun z => z ≤ valT l (first + sdChild l root hi first))
                  hboundpre
                rw [hjc]
                exact hbound (first + sdChild l root hi first)
                  ⟨sdChild l root hi first, Desc.base, hclt, rfl⟩
              · -- j is the unchosen sibling: untouched, bounded by the max-child value
                have hnd : ¬ Desc (sdChild l root hi first) j := by
                  intro hd
                  obtain ⟨_, hdp⟩ := desc_par_of_ne hd hjc
                  rw [hpeq] at hdp
                  exact absurd (desc_le hdp) (by omega)
                have e1 : valT (siftDownLoop fuel
                      (swapL l (first+root) (first + sdChild l root hi first))
                      (sdChild l root hi first) hi first) (first+j) =
                    valT l (first+j) := by
                  unfold valT
                  rw [hw3.frame (first+j) (by
                    rintro ⟨jj, hdjj, hjjhi, heq⟩
                    have : jj = j := by omega
                    subst this
                    exact hnd hdjj)]
                  rw [getBang_swapL_other _ _ _ _ (by omega) (by omega)]
                rw [e1]
                rcases hj12 with hj1 | hj2
                · subst hj1
                  rcases hcor with hc1 | hc2
                  · exact absurd (hc1.symm) hjc
                  · exact hmax1
                · subst hj2
                  rcases hcor with hc1 | hc2
                  · exact hmax2 hjhi
                  · exact absurd (hc2.symm) hjc
            · -- root < par j < sdChild: pair untouched
              have hppj : root < par j := by omega
              have hpj := par_lt j hj
              have hndp : ¬ Desc (sdChild l root hi first) (par j) :=
                not_desc_of_lt (by omega)
              have hndj : ¬ Desc (sdChild l root hi first) j := by
                intro hd
                by_cases hjc : j = sdChild l root hi first
                · subst hjc
                  rw [hparc] at hppj
                  exact absurd hppj (by omega)
                · obtain ⟨_, hdp⟩ := desc_par_of_ne hd hjc
                  exact hndp hdp
              have e1 : valT (siftDownLoop fuel
                    (swapL l (first+root) (first + sdChild l root hi first))
                    (sdChild l root hi first) hi first) (first+j) =
                  valT l (first+j) := by
                unfold valT
                rw [hw3.frame (first+j) (by
                  rintro ⟨jj, hdjj, hjjhi, heq⟩
                  have : jj = j := by omega
                  subst this
                  exact hndj hdjj)]
                rw [getBang_swapL_other _ _ _ _ (by omega) (by
                  intro hh
                  have : j = sdChild l root hi first := by omega
                  subst this
                  rw [hparc] at hppj
                  exact absurd hppj (by omega))]
              have e2 : valT (siftDownLoop fuel
                    (swapL l (first+root) (first + sdChild l root hi first))
                    (sdChild l root hi first) hi first) (first + par j) =
                  valT l (first + par j) := by
                unfold valT
                rw [hw3.frame (first + par j) (by
                  rintro ⟨jj, hdjj, hjjhi, heq⟩
                  have : jj = par j := by omega
                  subst this
                  exact hndp hdjj)]
                rw [getBang_swapL_other _ _ _ _ (by omega) (by omega)]
              rw [e1, e2]
              exact hpre j hj hjhi (by omega)
      · rw [if_pos (by simpa using hswap)]
        have hvnoswap : valT l (first + sdChild l root hi first) ≤ valT l (first+root) := by
          simp only [ltCL, decide_eq_true_eq] at hswap
          unfold valT
          omega
        refine ⟨SwapsIn.refl l, rfl, ?_⟩
        intro j hj hjhi hr
        by_cases hpeq : par j = root
        · have hj12 : j = 2*root+1 ∨ j = 2*root+2 := by
            unfold par at hpeq
            omega
          rw [hpeq]
          rcases hj12 with hj1 | hj2
          · subst hj1
            exact le_trans hmax1 hvnoswap
          · subst hj2
            exact le_trans (hmax2 hjhi) hvnoswap
        · exact hpre j hj hjhi (by omega)

/-- The heap-building loop (`for i := (hi-1)/2; i >= 0; i--`): after sifting
roots `k-1, ..., 0`, every parent-child pair with parent below `k` — hence,
at `k = (hi-1)/2 + 1`, every pair at all — satisfies the heap property. -/
theorem heapBuild_inv : ∀ (k : Nat) (l : List ClusterLatency) (hi first : Nat),
    first + hi ≤ l.length →
    (∀ j, 0 < j → j < hi → k ≤ par j → valT l (first+j) ≤ valT l (first+par j)) →
    SwapsIn (fun p => first ≤ p ∧ p < first + hi) l
        (((List.range k).reverse).foldl (fun acc i => siftDownGo acc i hi first) l) ∧
      (((List.range k).reverse).foldl (fun acc i => siftDownGo acc i hi first) l).length =
        l.length ∧
      (∀ j, 0 < j → j < hi →
        valT (((List.range k).reverse).foldl (fun acc i => siftDownGo acc i hi first) l)
            (first+j) ≤
          valT (((List.range k).reverse).foldl (fun acc i => siftDownGo acc i hi first) l)
            (first + par j)) := by
  intro k
  induction k with
  | zero =>
    intro l hi first hlen hp
    exact ⟨SwapsIn.refl l, rfl, fun j h1 h2 => hp j h1 h2 (Nat.zero_le _)⟩
  | succ k ih =>
    intro l hi first hlen hp
    rw [List.range_succ, List.reverse_append, List.reverse_singleton, List.singleton_append,
      List.foldl_cons]
    obtain ⟨hw1, hl1, hp1⟩ := siftDownLoop_post (hi+1) l k hi first hlen (by omega)
      (fun j h1 h2 h3 => hp j h1 h2 (by omega))
    obtain ⟨hw2, hl2, hp2⟩ := ih (siftDownGo l k hi first) hi first
      (by rw [show (siftDownGo l k hi first).length = l.length from hl1]; exact hlen)
      hp1
    refine ⟨SwapsIn.trans (hw1.mono ?_) hw2, hl2.trans hl1, hp2⟩
    rintro p ⟨j, _, hjhi, rfl⟩
    exact ⟨by omega, by omega⟩

/-- The pop loop (`for i := hi-1; i >= 0; i--`): swap the heap maximum to the
end of the unsorted region and restore the smaller heap; the suffix is sorted
and dominates the prefix throughout. -/
theorem heapPop_inv : ∀ (i : Nat) (l : List ClusterLatency) (hi first : Nat),
    i ≤ hi → first + hi ≤ l.length →
    (∀ j, 0 < j → j < i → valT l (first+j) ≤ valT l (first+par j)) →
    SortedSeg l (first+i) (first+hi) →
    (∀ p q, p < i → i ≤ q → q < hi → valT l (first+p) ≤ valT l (first+q)) →
    SwapsIn (fun p => first ≤ p ∧ p < first + hi) l
        (((List.range i).reverse).foldl
          (fun acc t => siftDownGo (swapL acc first (first+t)) 0 t first) l) ∧
      (((List.range i).reverse).foldl
          (fun acc t => siftDownGo (swapL acc first (first+t)) 0 t first) l).length =
        l.length ∧
      SortedSeg (((List.range i).reverse).foldl
          (fun acc t => siftDownGo (swapL acc first (first+t)) 0 t first) l)
        first (first+hi) := by
  intro i
  induction i with
  | zero =>
    intro l hi first hih hlen hheap hsuf hcross
    exact ⟨SwapsIn.refl l, rfl, hsuf⟩
  | succ i ih =>
    intro l hi first hih hlen hheap hsuf hcross
    rw [List.range_succ, List.reverse_append, List.reverse_singleton, List.singleton_append,
      List.foldl_cons]
    have hi1 : i < hi := by omega
    have hfl : first < l.length := by omega
    have hfil : first + i < l.length := by omega
    have hB : ∀ j, j < i+1 → valT l (first+j) ≤ valT l first := by
      intro j hj
      rcases Nat.eq_zero_or_pos j with h0 | hpos
      · subst h0
        exact le_refl _
      · exact heap_chain_le l first (i+1) 0 (fun j' h1 h2 _ => hheap j' h1 h2)
          j (desc_zero j) hj
    have eA1 : valT (swapL l first (first+i)) first = valT l (first+i) := by
      unfold valT
      rw [getBang_swapL_fst _ _ _ hfl]
    have eA2 : valT (swapL l first (first+i)) (first+i) = valT l first := by
      unfold valT
      rw [getBang_swapL_snd _ _ _ hfil]
    have eA3 : ∀ p, p ≠ first → p ≠ first+i →
        (swapL l first (first+i)).get! p = l.get! p :=
      fun p h1 h2 => getBang_swapL_other l first (first+i) p h1 h2
    obtain ⟨hw2, hl2, hp2⟩ := siftDownLoop_post (i+1) (swapL l first (first+i)) 0 i first
      (by rw [length_swapL]; omega) (by omega)
      (by
        intro j hj hji hpj1
        have hpjlt := par_lt j hj
        have e1 : valT (swapL l first (first+i)) (first+j) = valT l (first+j) := by
          unfold valT
          rw [eA3 _ (by unfold par at hpj1; omega) (by omega)]
        have e2 : valT (swapL l first (first+i)) (first+par j) = valT l (first+par j) := by
          unfold valT
          rw [eA3 _ (by omega) (by omega)]
        rw [e1, e2]
        exact hheap j hj (by omega))
    have hsufNew : SortedSeg (siftDownLoop (i+1) (swapL l first (first+i)) 0 i first)
        (first+i) (first+hi) := by
      intro p q hp hpq hq
      have ep : valT (siftDownLoop (i+1) (swapL l first (first+i)) 0 i first) p =
          valT (swapL l first (first+i)) p := by
        unfold valT
        rw [hw2.frame p (by rintro ⟨jj, _, hjjlt, rfl⟩; omega)]
      have eq' : valT (siftDownLoop (i+1) (swapL l first (first+i)) 0 i first) q =
          valT (swapL l first (first+i)) q := by
        unfold valT
        rw [hw2.frame q (by rintro ⟨jj, _, hjjlt, rfl⟩; omega)]
      rw [ep, eq']
      by_cases hpfi : p = first + i
      · rw [hpfi, eA2]
        have eq2 : valT (swapL l first (first+i)) q = valT l q := by
          unfold valT
          rw [eA3 q (by omega) (by omega)]
        rw [eq2]
        have hqe : q = first + (q - first) := by omega
        rw [hqe]
        exact hcross 0 (q - first) (by omega) (by omega) (by omega)
      · have ep2 : valT (swapL l first (first+i)) p = valT l p := by
          unfold valT
          rw [eA3 p (by omega) (by omega)]
        have eq2 : valT (swapL l first (first+i)) q = valT l q := by
          unfold valT
          rw [eA3 q (by omega) (by omega)]
        rw [ep2, eq2]
        exact hsuf p q (by omega) hpq hq
    have hcrossNew : ∀ p q, p < i → i ≤ q → q < hi →
        valT (siftDownLoop (i+1) (swapL l first (first+i)) 0 i first) (first+p) ≤
          valT (siftDownLoop (i+1) (swapL l first (first+i)) 0 i first) (first+q) := by
      intro p q hp hq1 hq2
      have hboundA : ∀ pos, (∃ jj, Desc 0 jj ∧ jj < i ∧ pos = first + jj) →
          valT (swapL l first (first+i)) pos ≤ valT l first := by
        rintro pos ⟨jj, _, hjjlt, rfl⟩
        by_cases hjj0 : jj = 0
        · subst hjj0
          have e0 : valT (swapL l first (first+i)) (first+0) = valT l (first+i) := eA1
          rw [e0]
          exact hB i (by omega)
        · have e1 : valT (swapL l first (first+i)) (first+jj) = valT l (first+jj) := by
            unfold valT
            rw [eA3 _ (by omega) (by omega)]
          rw [e1]
          exact hB jj (by omega)
      have hLp := hw2.val_pred (fun z => z ≤ valT l first) hboundA (first+p)
        ⟨p, desc_zero p, hp, rfl⟩
      have hRq : valT l first ≤
          valT (siftDownLoop (i+1) (swapL l first (first+i)) 0 i first) (first+q) := by
        have eframe : valT (siftDownLoop (i+1) (swapL l first (first+i)) 0 i first)
            (first+q) = valT (swapL l first (first+i)) (first+q) := by
          unfold valT
          rw [hw2.frame (first+q) (by rintro ⟨jj, _, hjjlt, hqq⟩; omega)]
        rw [eframe]
        by_cases hqi : q = i
        · rw [hqi, eA2]
        · have e2 : valT (swapL l first (first+i)) (first+q) = valT l (first+q) := by
            unfold valT
            rw [eA3 _ (by omega) (by omega)]
          rw [e2]
          exact hcross 0 q (by omega) (by omega) hq2
      exact le_trans hLp hRq
    obtain ⟨hw3, hl3, hs3⟩ := ih (siftDownGo (swapL l first (first+i)) 0 i first) hi first
      (by omega)
      (by rw [show (siftDownGo (swapL l first (first+i)) 0 i first).length = l.length from
        hl2.trans (length_swapL _ _ _)]; exact hlen)
      (fun j h1 h2 => hp2 j h1 h2 (Nat.zero_le _))
      hsufNew hcrossNew
    refine ⟨?_, hl3.trans (hl2.trans (length_swapL _ _ _)), hs3⟩
    refine SwapsIn.trans (SwapsIn.swap l first (first+i) ⟨le_refl _, by omega⟩
      ⟨by omega, by omega⟩ hfl hfil) ?_
    refine SwapsIn.trans (hw2.mono ?_) hw3
    rintro pos ⟨jj, _, hjjlt, rfl⟩
    exact ⟨by omega, by omega⟩

/-- `heapSort_func(data, a, b)` sorts the segment `[a, b)` by swaps inside
it. -/
theorem heapSortGo_correct (l : List ClusterLatency) (a b : Nat)
    (hb : b ≤ l.length) (hab : a ≤ b) :
    SwapsIn (fun k => a ≤ k ∧ k < b) l (heapSortGo l a b) ∧
      SortedSeg (heapSortGo l a b) a b ∧ (heapSortGo l a b).length = l.length := by
  obtain ⟨hw1, hl1, hp1⟩ := heapBuild_inv ((b - a - 1)/2 + 1) l (b - a) a (by omega)
    (by
      intro j hj hjhi hpar
      exfalso
      unfold par at hpar
      omega)
  obtain ⟨hw2, hl2, hs2⟩ := heapPop_inv (b - a)
    (((List.range ((b - a - 1)/2 + 1)).reverse).foldl
      (fun acc i => siftDownGo acc i (b - a) a) l) (b - a) a
    (le_refl _)
    (by rw [hl1]; omega)
    (fun j h1 h2 => hp1 j h1 h2)
    (sortedSeg_vacuous _ _ _ (by omega))
    (by intro p q _ h1 h2; exfalso; omega)
  have he : a + (b - a) = b := by omega
  rw [he] at hs2
  exact ⟨SwapsIn.trans (hw1.mono fun k hk => ⟨hk.1, by omega⟩)
      (hw2.mono fun k hk => ⟨hk.1, by omega⟩),
    hs2, hl2.trans hl1⟩

/-! ## Phase 4: `doPivot_func`

Scan lemmas: each `for` scan of the Bentley-McIlroy partition advances its
index, certifies the comparison on the region it passed, and stops either at
its bound or at an element failing the comparison. -/

/-- `for ; a < c && data.Less(a, pivot); a++`. -/
theorem dpScanA_spec : ∀ (fuel : Nat) (l : List ClusterLatency) (a c pivot : Nat),
    a ≤ c → c ≤ fuel + a →
    a ≤ dpScanA fuel l a c pivot ∧ dpScanA fuel l a c pivot ≤ c ∧
      (∀ k, a ≤ k → k < dpScanA fuel l a c pivot → valT l k < valT l pivot) ∧
      (dpScanA fuel l a c pivot = c ∨ valT l pivot ≤ valT l (dpScanA fuel l a c pivot)) := by
  intro fuel
  induction fuel with
  | zero =>
    intro l a c pivot hac hfuel
    simp only [dpScanA]
    have hceq : a = c := by omega
    exact ⟨le_refl _, hac, fun k h1 h2 => absurd h2 (by omega), Or.inl hceq⟩
  | succ fuel ih =>
    intro l a c pivot hac hfuel
    rw [dpScanA]
    by_cases hcond : a < c ∧ ltCL (l.get! a) (l.get! pivot) = true
    · rw [if_pos hcond]
      obtain ⟨h1, h2⟩ := hcond
      have hv : valT l a < valT l pivot := by
        simp only [ltCL, decide_eq_true_eq] at h2
        exact h2
      obtain ⟨g1, g2, g3, g4⟩ := ih l (a+1) c pivot (by omega) (by omega)
      refine ⟨by omega, g2, ?_, g4⟩
      intro k hk1 hk2
      by_cases hka : k = a
      · subst hka
        exact hv
      · exact g3 k (by omega) hk2
    · rw [if_neg hcond]
      refine ⟨le_refl _, hac, fun k h1 h2 => absurd h2 (by omega), ?_⟩
      by_cases hlt : a < c
      · right
        have hn : ¬ ltCL (l.get! a) (l.get! pivot) = true := fun hh => hcond ⟨hlt, hh⟩
        simp only [ltCL, decide_eq_true_eq] at hn
        unfold valT
        omega
      · left
        omega

/-- `for ; b < c && !data.Less(pivot, b); b++`. -/
theorem dpScanB_spec : ∀ (fuel : Nat) (l : List ClusterLatency) (b c pivot : Nat),
    b ≤ c → c ≤ fuel + b →
    b ≤ dpScanB fuel l b c pivot ∧ dpScanB fuel l b c pivot ≤ c ∧
      (∀ k, b ≤ k → k < dpScanB fuel l b c pivot → valT l k ≤ valT l pivot) ∧
      (dpScanB fuel l b c pivot = c ∨ valT l pivot < valT l (dpScanB fuel l b c pivot)) := by
  intro fuel
  induction fuel with
  | zero =>
    intro l b c pivot hbc hfuel
    simp only [dpScanB]
    have hceq : b = c := by omega
    exact ⟨le_refl _, hbc, fun k h1 h2 => absurd h2 (by omega), Or.inl hceq⟩
  | succ fuel ih =>
    intro l b c pivot hbc hfuel
    rw [dpScanB]
    by_cases hcond : b < c ∧ ¬ ltCL (l.get! pivot) (l.get! b) = true
    · rw [if_pos hcond]
      obtain ⟨h1, h2⟩ := hcond
      have hv : valT l b ≤ valT l pivot := by
        simp only [ltCL, decide_eq_true_eq] at h2
        unfold valT
        omega
      obtain ⟨g1, g2, g3, g4⟩ := ih l (b+1) c pivot (by omega) (by omega)
      refine ⟨by omega, g2, ?_, g4⟩
      intro k hk1 hk2
      by_cases hkb : k = b
      · subst hkb
        exact hv
      · exact g3 k (by omega) hk2
    · rw [if_neg hcond]
      refine ⟨le_refl _, hbc, fun k h1 h2 => absurd h2 (by omega), ?_⟩
      by_cases hlt : b < c
      · right
        have hn : ltCL (l.get! pivot) (l.get! b) = true := by
          by_contra hh
          exact hcond ⟨hlt, hh⟩
        simp only [ltCL, decide_eq_true_eq] at hn
        exact hn
      · left
        omega

/-- `for ; b < c && data.Less(pivot, c-1); c--`. -/
theorem dpScanC_spec : ∀ (fuel : Nat) (l : List ClusterLatency) (b c pivot : Nat),
    b ≤ c → c ≤ fuel + b →
    b ≤ dpScanC fuel l b c pivot ∧ dpScanC fuel l b c pivot ≤ c ∧
      (∀ k, dpScanC fuel l b c pivot ≤ k → k < c → valT l pivot < valT l k) ∧
      (dpScanC fuel l b c pivot = b ∨
        valT l (dpScanC fuel l b c pivot - 1) ≤ valT l pivot) := by
  intro fuel
  induction fuel with
  | zero =>
    intro l b c pivot hbc hfuel
    simp only [dpScanC]
    have hceq : c = b := by omega
    exact ⟨by omega, le_refl _, fun k h1 h2 => absurd h2 (by omega), Or.inl hceq⟩
  | succ fuel ih =>
    intro l b c pivot hbc hfuel
    rw [dpScanC]
    by_cases hcond : b < c ∧ ltCL (l.get! pivot) (l.get! (c-1)) = true
    · rw [if_pos hcond]
      obtain ⟨h1, h2⟩ := hcond
      have hv : valT l pivot < valT l (c-1) := by
        simp only [ltCL, decide_eq_true_eq] at h2
        exact h2
      obtain ⟨g1, g2, g3, g4⟩ := ih l b (c-1) pivot (by omega) (by omega)
      refine ⟨g1, by omega, ?_, g4⟩
      intro k hk1 hk2
      by_cases hkc : k = c-1
      · subst hkc
        exact hv
      · exact g3 k hk1 (by omega)
    · rw [if_neg hcond]
      refine ⟨hbc, le_refl _, fun k h1 h2 => absurd h2 (by omega), ?_⟩
      by_cases hlt : b < c
      · right
        have hn : ¬ ltCL (l.get! pivot) (l.get! (c-1)) = true := fun hh => hcond ⟨hlt, hh⟩
        simp only [ltCL, decide_eq_true_eq] at hn
        unfold valT
        omega
      · left
        omega

/-- `for ; a < b && !data.Less(b-1, pivot); b--` (the `protect` scan). -/
theorem dpScanBDown_spec : ∀ (fuel : Nat) (l : List ClusterLatency) (a b pivot : Nat),
    a ≤ b → b ≤ fuel + a →
    a ≤ dpProtectLoop.dpScanBDown fuel l a b pivot ∧
      dpProtectLoop.dpScanBDown fuel l a b pivot ≤ b ∧
      (∀ k, dpProtectLoop.dpScanBDown fuel l a b pivot ≤ k → k < b →
        valT l pivot ≤ valT l k) ∧
      (dpProtectLoop.dpScanBDown fuel l a b pivot = a ∨
        valT l (dpProtectLoop.dpScanBDown fuel l a b pivot - 1) < valT l pivot) := by
  intro fuel
  induction fuel with
  | zero =>
    intro l a b pivot hab hfuel
    simp only [dpProtectLoop.dpScanBDown]
    have hceq : b = a := by omega
    exact ⟨by omega, le_refl _, fun k h1 h2 => absurd h2 (by omega), Or.inl hceq⟩
  | succ fuel ih =>
    intro l a b pivot hab hfuel
    rw [dpProtectLoop.dpScanBDown]
    by_cases hcond : a < b ∧ ¬ ltCL (l.get! (b-1)) (l.get! pivot) = true
    · rw [if_pos hcond]
      obtain ⟨h1, h2⟩ := hcond
      have hv : valT l pivot ≤ valT l (b-1) := by
        simp only [ltCL, decide_eq_true_eq] at h2
        unfold valT
        omega
      obtain ⟨g1, g2, g3, g4⟩ := ih l a (b-1) pivot (by omega) (by omega)
      refine ⟨g1, by omega, ?_, g4⟩
      intro k hk1 hk2
      by_cases hkb : k = b-1
      · subst hkb
        exact hv
      · exact g3 k hk1 (by omega)
    · rw [if_neg hcond]
      refine ⟨hab, le_refl _, fun k h1 h2 => absurd h2 (by omega), ?_⟩
      by_cases hlt : a < b
      · right
        have hn : ltCL (l.get! (b-1)) (l.get! pivot) = true := by
          by_contra hh
          exact hcond ⟨hlt, hh⟩
        simp only [ltCL, decide_eq_true_eq] at hn
        exact hn
      · left
        omega

/-- `for ; a < b && data.Less(a, pivot); a++` (the `protect` scan). -/
theorem dpScanAUp_spec : ∀ (fuel : Nat) (l : List ClusterLatency) (a b pivot : Nat),
    a ≤ b → b ≤ fuel + a →
    a ≤ dpProtectLoop.dpScanAUp fuel l a b pivot ∧
      dpProtectLoop.dpScanAUp fuel l a b pivot ≤ b ∧
      (∀ k, a ≤ k → k < dpProtectLoop.dpScanAUp fuel l a b pivot →
        valT l k < valT l pivot) ∧
      (dpProtectLoop.dpScanAUp fuel l a b pivot = b ∨
        valT l pivot ≤ valT l (dpProtectLoop.dpScanAUp fuel l a b pivot)) := by
  intro fuel
  induction fuel with
  | zero =>
    intro l a b pivot hab hfuel
    simp only [dpProtectLoop.dpScanAUp]
    have hceq : a = b := by omega
    exact ⟨le_refl _, hab, fun k h1 h2 => absurd h2 (by omega), Or.inl hceq⟩
  | succ fuel ih =>
    intro l a b pivot hab hfuel
    rw [dpProtectLoop.dpScanAUp]
    by_cases hcond : a < b ∧ ltCL (l.get! a) (l.get! pivot) = true
    · rw [if_pos hcond]
      obtain ⟨h1, h2⟩ := hcond
      have hv : valT l a < valT l pivot := by
        simp only [ltCL, decide_eq_true_eq] at h2
        exact h2
      obtain ⟨g1, g2, g3, g4⟩ := ih l (a+1) b pivot (by omega) (by omega)
      refine ⟨by omega, g2, ?_, g4⟩
      intro k hk1 hk2
      by_cases hka : k = a
      · subst hka
        exact hv
      · exact g3 k (by omega) hk2
    · rw [if_neg hcond]
      refine ⟨le_refl _, hab, fun k h1 h2 => absurd h2 (by omega), ?_⟩
      by_cases hlt : a < b
      · right
        have hn : ¬ ltCL (l.get! a) (l.get! pivot) = true := fun hh => hcond ⟨hlt, hh⟩
        simp only [ltCL, decide_eq_true_eq] at hn
        unfold valT
        omega
      · left
        omega

/-- The main partition loop of `doPivot_func`: scans meet exactly (`b = c`),
the region left of `b` is at most the pivot value, the region right of `c`
strictly above it, and all swaps stay inside the window. -/
theorem dpMainLoop_spec : ∀ (fuel : Nat) (l : List ClusterLatency) (b c pivot : Nat),
    pivot < b → b ≤ c → c ≤ l.length → c - b ≤ fuel →
    ∃ l' b' c', dpMainLoop fuel l b c pivot = (l', b', c') ∧
      b' = c' ∧ b ≤ b' ∧ c' ≤ c ∧
      SwapsIn (fun p => b ≤ p ∧ p < c) l l' ∧ l'.length = l.length ∧
      (∀ k, b ≤ k → k < b' → valT l' k ≤ valT l pivot) ∧
      (∀ k, c' ≤ k → k < c → valT l pivot < valT l' k) := by
  intro fuel
  induction fuel with
  | zero =>
    intro l b c pivot hpb hbc hcl hfuel
    refine ⟨l, b, c, rfl, by omega, le_refl _, le_refl _, SwapsIn.refl l, rfl,
      fun k h1 h2 => absurd h2 (by omega), fun k h1 h2 => absurd h1 (by omega)⟩
  | succ fuel ih =>
    intro l b c pivot hpb hbc hcl hfuel
    obtain ⟨b1, hb1⟩ : ∃ x, dpScanB (fuel+1) l b c pivot = x := ⟨_, rfl⟩
    obtain ⟨s1, s2, s3, s4⟩ := dpScanB_spec (fuel+1) l b c pivot hbc (by omega)
    rw [hb1] at s1 s2 s3 s4
    obtain ⟨c1, hc1⟩ : ∃ x, dpScanC (fuel+1) l b1 c pivot = x := ⟨_, rfl⟩
    obtain ⟨t1, t2, t3, t4⟩ := dpScanC_spec (fuel+1) l b1 c pivot s2 (by omega)
    rw [hc1] at t1 t2 t3 t4
    have hunf : dpMainLoop (fuel+1) l b c pivot =
        if c1 ≤ b1 then (l, b1, c1)
        else dpMainLoop fuel (swapL l b1 (c1-1)) (b1+1) (c1-1) pivot := by
      rw [← hc1, ← hb1]
      rfl
    by_cases hstop : c1 ≤ b1
    · rw [hunf, if_pos hstop]
      exact ⟨l, b1, c1, rfl, by omega, s1, t2, SwapsIn.refl l, rfl,
        fun k h1 h2 => s3 k h1 h2, fun k h1 h2 => t3 k h1 h2⟩
    · have hb1c : b1 < c1 := by omega
      have hvb : valT l pivot < valT l b1 := by
        rcases s4 with h | h
        · omega
        · exact h
      have hvc : valT l (c1-1) ≤ valT l pivot := by
        rcases t4 with h | h
        · omega
        · exact h
      have hb1c1 : b1 + 2 ≤ c1 := by
        by_contra hh
        have heq : b1 = c1 - 1 := by omega
        rw [heq] at hvb
        omega
      have hepv : valT (swapL l b1 (c1-1)) pivot = valT l pivot := by
        unfold valT
        rw [getBang_swapL_other _ _ _ _ (by omega) (by omega)]
      obtain ⟨l3, b', c', heq3, hbc', hble, hcle, hsw3, hlen3, hreg1, hreg2⟩ :=
        ih (swapL l b1 (c1-1)) (b1+1) (c1-1) pivot (by omega) (by omega)
          (by rw [length_swapL]; omega) (by omega)
      rw [hunf, if_neg hstop, heq3]
      refine ⟨l3, b', c', rfl, hbc', by omega, by omega, ?_, ?_, ?_, ?_⟩
      · refine SwapsIn.trans (SwapsIn.swap l b1 (c1-1) ⟨s1, by omega⟩
          ⟨by omega, by omega⟩ (by omega) (by omega)) ?_
        exact hsw3.mono (fun k hk => ⟨by omega, by omega⟩)
      · exact hlen3.trans (length_swapL _ _ _)
      · intro k hk1 hk2
        by_cases hkb1 : k < b1
        · have e1 : valT l3 k = valT l k := by
            unfold valT
            rw [hsw3.frame k (by omega), getBang_swapL_other _ _ _ _ (by omega) (by omega)]
          rw [e1]
          exact s3 k hk1 hkb1
        · by_cases hkb1e : k = b1
          · have e1 : valT l3 k = valT l (c1-1) := by
              unfold valT
              rw [hsw3.frame k (by omega), hkb1e, getBang_swapL_fst _ _ _ (by omega)]
            rw [e1]
            exact hvc
          · have hk3 := hreg1 k (by omega) hk2
            rw [hepv] at hk3
            exact hk3
      · intro k hk1 hk2
        by_cases hkc1 : c1 ≤ k
        · have e1 : valT l3 k = valT l k := by
            unfold valT
            rw [hsw3.frame k (by omega), getBang_swapL_other _ _ _ _ (by omega) (by omega)]
          rw [e1]
          exact t3 k hkc1 hk2
        · by_cases hkc1e : k = c1 - 1
          · have e1 : valT l3 k = valT l b1 := by
              unfold valT
              rw [hsw3.frame k (by omega), hkc1e, getBang_swapL_snd _ _ _ (by omega)]
            rw [e1]
            exact hvb
          · have hk3 := hreg2 k hk1 (by omega)
            rw [hepv] at hk3
            exact hk3

/-- The `protect` loop of `doPivot_func`: starting from a window whose values
are all at most the pivot value, it ends with the scans meeting, everything
left of the meeting point strictly below the pivot value and everything from
the old `b` boundary on equal to it. -/
theorem dpProtectLoop_spec : ∀ (fuel : Nat) (l : List ClusterLatency) (a b pivot : Nat),
    pivot < a → a ≤ b → b ≤ l.length → b - a ≤ fuel →
    (∀ k, a ≤ k → k < b → valT l k ≤ valT l pivot) →
    ∃ l' a' b', dpProtectLoop fuel l a b pivot = (l', a', b') ∧
      a' = b' ∧ a ≤ a' ∧ b' ≤ b ∧
      SwapsIn (fun p => a ≤ p ∧ p < b) l l' ∧ l'.length = l.length ∧
      (∀ k, a ≤ k → k < a' → valT l' k < valT l pivot) ∧
      (∀ k, b' ≤ k → k < b → valT l' k = valT l pivot) := by
  intro fuel
  induction fuel with
  | zero =>
    intro l a b pivot hpa hab hbl hfuel hle
    refine ⟨l, a, b, rfl, by omega, le_refl _, le_refl _, SwapsIn.refl l, rfl,
      fun k h1 h2 => absurd h2 (by omega), fun k h1 h2 => absurd h1 (by omega)⟩
  | succ fuel ih =>
    intro l a b pivot hpa hab hbl hfuel hle
    obtain ⟨b1, hb1⟩ : ∃ x, dpProtectLoop.dpScanBDown (fuel+1) l a b pivot = x := ⟨_, rfl⟩
    obtain ⟨s1, s2, s3, s4⟩ := dpScanBDown_spec (fuel+1) l a b pivot hab (by omega)
    rw [hb1] at s1 s2 s3 s4
    obtain ⟨a1, ha1⟩ : ∃ x, dpProtectLoop.dpScanAUp (fuel+1) l a b1 pivot = x := ⟨_, rfl⟩
    obtain ⟨t1, t2, t3, t4⟩ := dpScanAUp_spec (fuel+1) l a b1 pivot s1 (by omega)
    rw [ha1] at t1 t2 t3 t4
    have hmid : ∀ k, b1 ≤ k → k < b → valT l k = valT l pivot :=
      fun k h1 h2 => le_antisymm (hle k (by omega) h2) (s3 k h1 h2)
    have hunf : dpProtectLoop (fuel+1) l a b pivot =
        if b1 ≤ a1 then (l, a1, b1)
        else dpProtectLoop fuel (swapL l a1 (b1-1)) (a1+1) (b1-1) pivot := by
      rw [← ha1, ← hb1]
      rfl
    by_cases hstop : b1 ≤ a1
    · rw [hunf, if_pos hstop]
      exact ⟨l, a1, b1, rfl, by omega, t1, s2, SwapsIn.refl l, rfl,
        fun k h1 h2 => t3 k h1 h2, fun k h1 h2 => hmid k h1 h2⟩
    · have ha1b : a1 < b1 := by omega
      have hva : valT l a1 = valT l pivot := by
        rcases t4 with h | h
        · omega
        · exact le_antisymm (hle a1 (by omega) (by omega)) h
      have hvb : valT l (b1-1) < valT l pivot := by
        rcases s4 with h | h
        · omega
        · exact h
      have ha1b1 : a1 + 2 ≤ b1 := by
        by_contra hh
        have heq : a1 = b1 - 1 := by omega
        rw [heq] at hva
        omega
      have hepv : valT (swapL l a1 (b1-1)) pivot = valT l pivot := by
        unfold valT
        rw [getBang_swapL_other _ _ _ _ (by omega) (by omega)]
      obtain ⟨l3, a', b', heq3, hab', hle1, hle2, hsw3, hlen3, hregA, hregB⟩ :=
        ih (swapL l a1 (b1-1)) (a1+1) (b1-1) pivot (by omega) (by omega)
          (by rw [length_swapL]; omega) (by omega)
          (by
            intro k hk1 hk2
            have e1 : valT (swapL l a1 (b1-1)) k = valT l k := by
              unfold valT
              rw [getBang_swapL_other _ _ _ _ (by omega) (by omega)]
            rw [e1, hepv]
            exact hle k (by omega) (by omega))
      rw [hunf, if_neg hstop, heq3]
      refine ⟨l3, a', b', rfl, hab', by omega, by omega, ?_, ?_, ?_, ?_⟩
      · refine SwapsIn.trans (SwapsIn.swap l a1 (b1-1) ⟨t1, by omega⟩
          ⟨by omega, by omega⟩ (by omega) (by omega)) ?_
        exact hsw3.mono (fun k hk => ⟨by omega, by omega⟩)
      · exact hlen3.trans (length_swapL _ _ _)
      · intro k hk1 hk2
        by_cases hka1 : k < a1
        · have e1 : valT l3 k = valT l k := by
            unfold valT
            rw [hsw3.frame k (by omega), getBang_swapL_other _ _ _ _ (by omega) (by omega)]
          rw [e1]
          exact t3 k hk1 hka1
        · by_cases hka1e : k = a1
          · have e1 : valT l3 k = valT l (b1-1) := by
              unfold valT
              rw [hsw3.frame k (by omega), hka1e, getBang_swapL_fst _ _ _ (by omega)]
            rw [e1]
            exact hvb
          · have hk3 := hregA k (by omega) hk2
            rw [hepv] at hk3
            exact hk3
      · intro k hk1 hk2
        by_cases hkb1 : b1 ≤ k
        · have e1 : valT l3 k = valT l k := by
            unfold valT
            rw [hsw3.frame k (by omega), getBang_swapL_other _ _ _ _ (by omega) (by omega)]
          rw [e1]
          exact hmid k hkb1 hk2
        · by_cases hkb1e : k = b1 - 1
          · have e1 : valT l3 k = valT l a1 := by
              unfold valT
              rw [hsw3.frame k (by omega), hkb1e, getBang_swapL_snd _ _ _ (by omega)]
            rw [e1]
            exact hva
          · have hk3 := hregB k hk1 (by omega)
            rw [hepv] at hk3
            exact hk3

/-- The conditional swap `if data.Less(m1, m0) { data.Swap(m1, m0) }` orders
the pair `(m0, m1)` and leaves everything else alone. -/
theorem condSwap01_spec (x : List ClusterLatency) (m1 m0 : Nat)
    (hb0 : m0 < x.length) (hb1 : m1 < x.length) :
    SwapsIn (fun p => p = m0 ∨ p = m1) x
        (if ltCL (x.get! m1) (x.get! m0) then swapL x m1 m0 else x) ∧
      (if ltCL (x.get! m1) (x.get! m0) then swapL x m1 m0 else x).length = x.length ∧
      valT (if ltCL (x.get! m1) (x.get! m0) then swapL x m1 m0 else x) m0 ≤
        valT (if ltCL (x.get! m1) (x.get! m0) then swapL x m1 m0 else x) m1 ∧
      (∀ p, p ≠ m0 → p ≠ m1 →
        valT (if ltCL (x.get! m1) (x.get! m0) then swapL x m1 m0 else x) p = valT x p) := by
  by_cases hc : ltCL (x.get! m1) (x.get! m0) = true
  · rw [if_pos hc]
    have hv : valT x m1 < valT x m0 := by
      simp only [ltCL, decide_eq_true_eq] at hc
      exact hc
    have e0 : valT (swapL x m1 m0) m0 = valT x m1 := by
      unfold valT
      rw [getBang_swapL_snd _ _ _ hb0]
    have e1 : valT (swapL x m1 m0) m1 = valT x m0 := by
      unfold valT
      rw [getBang_swapL_fst _ _ _ hb1]
    refine ⟨SwapsIn.swap x m1 m0 (Or.inr rfl) (Or.inl rfl) hb1 hb0,
      length_swapL _ _ _, ?_, ?_⟩
    · rw [e0, e1]
      exact le_of_lt hv
    · intro p hp0 hp1
      unfold valT
      rw [getBang_swapL_other _ _ _ _ hp1 hp0]
  · rw [if_neg hc]
    have hv : valT x m0 ≤ valT x m1 := by
      simp only [ltCL, decide_eq_true_eq] at hc
      unfold valT
      omega
    exact ⟨SwapsIn.refl x, rfl, hv, fun p _ _ => rfl⟩

/-- `medianOfThree_func(data, m1, m0, m2)` establishes
`data[m0] <= data[m1] <= data[m2]` by swaps among the three positions. -/
theorem medianOfThreeGo_spec (l : List ClusterLatency) (m1 m0 m2 : Nat)
    (h01 : m0 ≠ m1) (h02 : m0 ≠ m2) (h12 : m1 ≠ m2)
    (hb0 : m0 < l.length) (hb1 : m1 < l.length) (hb2 : m2 < l.length) :
    SwapsIn (fun p => p = m0 ∨ p = m1 ∨ p = m2) l (medianOfThreeGo l m1 m0 m2) ∧
      (medianOfThreeGo l m1 m0 m2).length = l.length ∧
      valT (medianOfThreeGo l m1 m0 m2) m0 ≤ valT (medianOfThreeGo l m1 m0 m2) m1 ∧
      valT (medianOfThreeGo l m1 m0 m2) m1 ≤ valT (medianOfThreeGo l m1 m0 m2) m2 := by
  obtain ⟨w1, L1, o1, f1⟩ := condSwap01_spec l m1 m0 hb0 hb1
  obtain ⟨l1, hl1⟩ : ∃ x, (if ltCL (l.get! m1) (l.get! m0) then swapL l m1 m0 else l) = x :=
    ⟨_, rfl⟩
  rw [hl1] at w1 L1 o1 f1
  have hunf : medianOfThreeGo l m1 m0 m2 =
      if ltCL (l1.get! m2) (l1.get! m1) then
        if ltCL ((swapL l1 m2 m1).get! m1) ((swapL l1 m2 m1).get! m0) then
          swapL (swapL l1 m2 m1) m1 m0
        else swapL l1 m2 m1
      else l1 := by
    rw [← hl1]
    rfl
  have hw1' : SwapsIn (fun p => p = m0 ∨ p = m1 ∨ p = m2) l l1 :=
    w1.mono (fun k hk => by rcases hk with h | h
                            · exact Or.inl h
                            · exact Or.inr (Or.inl h))
  have hb0' : m0 < l1.length := by rw [L1]; exact hb0
  have hb1' : m1 < l1.length := by rw [L1]; exact hb1
  have hb2' : m2 < l1.length := by rw [L1]; exact hb2
  by_cases h2 : ltCL (l1.get! m2) (l1.get! m1) = true
  · rw [hunf, if_pos h2]
    have hv21 : valT l1 m2 < valT l1 m1 := by
      simp only [ltCL, decide_eq_true_eq] at h2
      exact h2
    have e2m2 : valT (swapL l1 m2 m1) m2 = valT l1 m1 := by
      unfold valT
      rw [getBang_swapL_fst _ _ _ hb2']
    have e2m1 : valT (swapL l1 m2 m1) m1 = valT l1 m2 := by
      unfold valT
      rw [getBang_swapL_snd _ _ _ hb1']
    have e2m0 : valT (swapL l1 m2 m1) m0 = valT l1 m0 := by
      unfold valT
      rw [getBang_swapL_other _ _ _ _ h02 h01]
    have hw2 : SwapsIn (fun p => p = m0 ∨ p = m1 ∨ p = m2) l (swapL l1 m2 m1) :=
      SwapsIn.trans hw1' (SwapsIn.swap l1 m2 m1 (Or.inr (Or.inr rfl))
        (Or.inr (Or.inl rfl)) hb2' hb1')
    by_cases h3 : ltCL ((swapL l1 m2 m1).get! m1) ((swapL l1 m2 m1).get! m0) = true
    · rw [if_pos h3]
      have hv10 : valT (swapL l1 m2 m1) m1 < valT (swapL l1 m2 m1) m0 := by
        simp only [ltCL, decide_eq_true_eq] at h3
        exact h3
      have hb0'' : m0 < (swapL l1 m2 m1).length := by rw [length_swapL]; exact hb0'
      have hb1'' : m1 < (swapL l1 m2 m1).length := by rw [length_swapL]; exact hb1'
      have e3m1 : valT (swapL (swapL l1 m2 m1) m1 m0) m1 = valT (swapL l1 m2 m1) m0 := by
        unfold valT
        rw [getBang_swapL_fst _ _ _ hb1'']
      have e3m0 : valT (swapL (swapL l1 m2 m1) m1 m0) m0 = valT (swapL l1 m2 m1) m1 := by
        unfold valT
        rw [getBang_swapL_snd _ _ _ hb0'']
      have e3m2 : valT (swapL (swapL l1 m2 m1) m1 m0) m2 = valT (swapL l1 m2 m1) m2 := by
        unfold valT
        rw [getBang_swapL_other _ _ _ _ (fun hh => h12 hh.symm) (fun hh => h02 hh.symm)]
      refine ⟨SwapsIn.trans hw2 (SwapsIn.swap _ m1 m0 (Or.inr (Or.inl rfl))
          (Or.inl rfl) hb1'' hb0''), ?_, ?_, ?_⟩
      · rw [length_swapL, length_swapL]
        exact L1
      · rw [e3m0, e3m1]
        exact le_of_lt hv10
      · rw [e3m1, e3m2, e2m0, e2m2]
        exact o1
    · rw [if_neg h3]
      have hv01 : valT (swapL l1 m2 m1) m0 ≤ valT (swapL l1 m2 m1) m1 := by
        simp only [ltCL, decide_eq_true_eq] at h3
        unfold valT
        omega
      refine ⟨hw2, by rw [length_swapL]; exact L1, hv01, ?_⟩
      rw [e2m1, e2m2]
      exact le_of_lt hv21
  · rw [hunf, if_neg h2]
    have hv12 : valT l1 m1 ≤ valT l1 m2 := by
      simp only [ltCL, decide_eq_true_eq] at h2
      unfold valT
      omega
    exact ⟨hw1', L1, o1, hv12⟩

/-- The `dpDups` block: it preserves the partition shape around the window —
values before `b` at most the pivot value, a (possibly grown) middle equal to
it, values after `c` above it — while probing up to two positions into the
middle. -/
theorem dpDups_spec (l4 : List ClusterLatency) (lo hi b0 c0 : Nat)
    (hlen4 : hi ≤ l4.length) (hgap : 12 < hi - lo)
    (hb0 : lo + 1 ≤ b0) (hbc : b0 = c0) (hc0 : c0 ≤ hi - 1)
    (F1 : ∀ k, lo + 1 ≤ k → k < b0 → valT l4 k ≤ valT l4 lo)
    (F3 : ∀ k, c0 ≤ k → k < hi - 1 → valT l4 lo < valT l4 k)
    (F4 : valT l4 lo ≤ valT l4 (hi-1)) :
    ∃ l7 b3 c2 prot, dpDups l4 lo hi b0 c0 = (l7, b3, c2, prot) ∧
      SwapsIn (fun p => lo + 1 ≤ p ∧ p < hi) l4 l7 ∧ l7.length = l4.length ∧
      lo + 1 ≤ b3 ∧ b3 ≤ c2 ∧ c2 ≤ hi - 1 ∧
      (∀ k, lo + 1 ≤ k → k < b3 → valT l7 k ≤ valT l4 lo) ∧
      (∀ k, b3 ≤ k → k < c2 → valT l7 k = valT l4 lo) ∧
      (∀ k, c2 ≤ k → k < hi - 1 → valT l4 lo < valT l7 k) ∧
      valT l4 lo ≤ valT l7 (hi-1) := by
  by_cases hcond : (!(decide (hi - c0 < 5)) && decide (hi - c0 < (hi - lo) / 4)) = true
  case neg =>
    have hunf : dpDups l4 lo hi b0 c0 = (l4, b0, c0, decide (hi - c0 < 5)) := by
      unfold dpDups
      rw [if_neg hcond]
    exact ⟨l4, b0, c0, _, hunf, SwapsIn.refl l4, rfl, hb0, by omega, hc0, F1,
      fun k hk1 hk2 => absurd hk2 (by omega), F3, F4⟩
  case pos =>
    have hcp : 5 ≤ hi - c0 ∧ hi - c0 < (hi - lo) / 4 := by
      rw [Bool.and_eq_true, Bool.not_eq_true', decide_eq_false_iff_not,
        decide_eq_true_eq] at hcond
      omega
    obtain ⟨hA, hB⟩ := hcp
    have harith : lo + 11 ≤ b0 ∧ c0 + 4 ≤ hi - 1 ∧ lo + 1 ≤ (lo+hi)/2 ∧
        (lo+hi)/2 + 2 ≤ b0 := by omega
    obtain ⟨hA1, hA2, hm1, hm2⟩ := harith
    unfold dpDups
    rw [if_pos hcond]
    dsimp only []
    split
    · -- data[hi-1] = pivot: Swap(c, hi-1), c++
      rename_i h1
      have hc0len : c0 < l4.length := by omega
      have hhi1len : hi - 1 < l4.length := by omega
      have hP1 : valT l4 (hi-1) = valT l4 lo := by
        simp only [ltCL, decide_eq_true_eq] at h1
        unfold valT at F4 ⊢
        omega
      have E1 : valT (swapL l4 c0 (hi-1)) c0 = valT l4 lo := by
        have e : valT (swapL l4 c0 (hi-1)) c0 = valT l4 (hi-1) := by
          unfold valT
          rw [getBang_swapL_fst _ _ _ hc0len]
        exact e.trans hP1
      have E2 : valT l4 lo < valT (swapL l4 c0 (hi-1)) (hi-1) := by
        have e : valT (swapL l4 c0 (hi-1)) (hi-1) = valT l4 c0 := by
          unfold valT
          rw [getBang_swapL_snd _ _ _ hhi1len]
        rw [e]
        exact F3 c0 (le_refl _) (by omega)
      have E3 : ∀ k, k ≠ c0 → k ≠ hi-1 → valT (swapL l4 c0 (hi-1)) k = valT l4 k := by
        intro k hk1 hk2
        unfold valT
        rw [getBang_swapL_other _ _ _ _ hk1 hk2]
      have hsw5 : SwapsIn (fun p => lo + 1 ≤ p ∧ p < hi) l4 (swapL l4 c0 (hi-1)) :=
        SwapsIn.swap l4 c0 (hi-1) ⟨by omega, by omega⟩ ⟨by omega, by omega⟩ hc0len hhi1len
      have hlen5 : (swapL l4 c0 (hi-1)).length = l4.length := length_swapL _ _ _
      have E5lo : valT (swapL l4 c0 (hi-1)) lo = valT l4 lo := E3 lo (by omega) (by omega)
      dsimp only []
      split
      · -- data[m] = pivot: Swap(m, b-1), b--
        rename_i h3
        have EPm : valT (swapL l4 c0 (hi-1)) ((lo+hi)/2) = valT l4 lo := by
          have hle : valT (swapL l4 c0 (hi-1)) ((lo+hi)/2) ≤ valT l4 lo := by
            rw [E3 _ (by omega) (by omega)]
            exact F1 _ (by omega) (by omega)
          simp only [ltCL, decide_eq_true_eq] at h3
          unfold valT at hle E5lo ⊢
          omega
        dsimp only []
        split
        · -- data[b-1] = pivot: b--
          rename_i h2
          have EPb : valT (swapL l4 c0 (hi-1)) (b0-1) = valT l4 lo := by
            have hle : valT (swapL l4 c0 (hi-1)) (b0-1) ≤ valT l4 lo := by
              rw [E3 _ (by omega) (by omega)]
              exact F1 _ (by omega) (by omega)
            simp only [ltCL, decide_eq_true_eq] at h2
            unfold valT at hle E5lo ⊢
            omega
          refine ⟨swapL (swapL l4 c0 (hi-1)) ((lo+hi)/2) (b0-1-1), b0-1-1, c0+1, _, rfl,
            ?_, ?_, by omega, by omega, by omega, ?_, ?_, ?_, ?_⟩
          · exact SwapsIn.trans hsw5 (SwapsIn.swap _ ((lo+hi)/2) (b0-1-1)
              ⟨by omega, by omega⟩ ⟨by omega, by omega⟩ (by rw [hlen5]; omega)
              (by rw [hlen5]; omega))
          · exact (length_swapL _ _ _).trans hlen5
          · intro k hk1 hk2
            by_cases hkm : k = (lo+hi)/2
            · have e : valT (swapL (swapL l4 c0 (hi-1)) ((lo+hi)/2) (b0-1-1)) k =
                  valT (swapL l4 c0 (hi-1)) (b0-1-1) := by
                unfold valT
                rw [hkm, getBang_swapL_fst _ _ _ (by rw [hlen5]; omega)]
              rw [e, E3 _ (by omega) (by omega)]
              exact F1 _ (by omega) (by omega)
            · have e : valT (swapL (swapL l4 c0 (hi-1)) ((lo+hi)/2) (b0-1-1)) k =
                  valT (swapL l4 c0 (hi-1)) k := by
                unfold valT
                rw [getBang_swapL_other _ _ _ _ hkm (by omega)]
              rw [e, E3 _ (by omega) (by omega)]
              exact F1 _ hk1 (by omega)
          · intro k hk1 hk2
            have hk3 : k = b0-1-1 ∨ k = b0-1 ∨ k = c0 := by omega
            rcases hk3 with hk | hk | hk
            · have e : valT (swapL (swapL l4 c0 (hi-1)) ((lo+hi)/2) (b0-1-1)) k =
                  valT (swapL l4 c0 (hi-1)) ((lo+hi)/2) := by
                unfold valT
                rw [hk, getBang_swapL_snd _ _ _ (by rw [hlen5]; omega)]
              exact e.trans EPm
            · have e : valT (swapL (swapL l4 c0 (hi-1)) ((lo+hi)/2) (b0-1-1)) k =
                  valT (swapL l4 c0 (hi-1)) (b0-1) := by
                unfold valT
                rw [hk, getBang_swapL_other _ _ _ _ (by omega) (by omega)]
              exact e.trans EPb
            · have e : valT (swapL (swapL l4 c0 (hi-1)) ((lo+hi)/2) (b0-1-1)) k =
                  valT (swapL l4 c0 (hi-1)) c0 := by
                unfold valT
                rw [hk, getBang_swapL_other _ _ _ _ (by omega) (by omega)]
              exact e.trans E1
          · intro k hk1 hk2
            have e : valT (swapL (swapL l4 c0 (hi-1)) ((lo+hi)/2) (b0-1-1)) k =
                valT (swapL l4 c0 (hi-1)) k := by
              unfold valT
              rw [getBang_swapL_other _ _ _ _ (by omega) (by omega)]
            rw [e, E3 _ (by omega) (by omega)]
            exact F3 k (by omega) hk2
          · have e : valT (swapL (swapL l4 c0 (hi-1)) ((lo+hi)/2) (b0-1-1)) (hi-1) =
                valT (swapL l4 c0 (hi-1)) (hi-1) := by
              unfold valT
              rw [getBang_swapL_other _ _ _ _ (by omega) (by omega)]
            rw [e]
            exact le_of_lt E2
        · -- data[b-1] < pivot: b stays
          rename_i h2
          refine ⟨swapL (swapL l4 c0 (hi-1)) ((lo+hi)/2) (b0-1), b0-1, c0+1, _, rfl,
            ?_, ?_, by omega, by omega, by omega, ?_, ?_, ?_, ?_⟩
          · exact SwapsIn.trans hsw5 (SwapsIn.swap _ ((lo+hi)/2) (b0-1)
              ⟨by omega, by omega⟩ ⟨by omega, by omega⟩ (by rw [hlen5]; omega)
              (by rw [hlen5]; omega))
          · exact (length_swapL _ _ _).trans hlen5
          · intro k hk1 hk2
            by_cases hkm : k = (lo+hi)/2
            · have e : valT (swapL (swapL l4 c0 (hi-1)) ((lo+hi)/2) (b0-1)) k =
                  valT (swapL l4 c0 (hi-1)) (b0-1) := by
                unfold valT
                rw [hkm, getBang_swapL_fst _ _ _ (by rw [hlen5]; omega)]
              rw [e, E3 _ (by omega) (by omega)]
              exact F1 _ (by omega) (by omega)
            · have e : valT (swapL (swapL l4 c0 (hi-1)) ((lo+hi)/2) (b0-1)) k =
                  valT (swapL l4 c0 (hi-1)) k := by
                unfold valT
                rw [getBang_swapL_other _ _ _ _ hkm (by omega)]
              rw [e, E3 _ (by omega) (by omega)]
              exact F1 _ hk1 (by omega)
          · intro k hk1 hk2
            have hk3 : k = b0-1 ∨ k = c0 := by omega
            rcases hk3 with hk | hk
            · have e : valT (swapL (swapL l4 c0 (hi-1)) ((lo+hi)/2) (b0-1)) k =
                  valT (swapL l4 c0 (hi-1)) ((lo+hi)/2) := by
                unfold valT
                rw [hk, getBang_swapL_snd _ _ _ (by rw [hlen5]; omega)]
              exact e.trans EPm
            · have e : valT (swapL (swapL l4 c0 (hi-1)) ((lo+hi)/2) (b0-1)) k =
                  valT (swapL l4 c0 (hi-1)) c0 := by
                unfold valT
                rw [hk, getBang_swapL_other _ _ _ _ (by omega) (by omega)]
              exact e.trans E1
          · intro k hk1 hk2
            have e : valT (swapL (swapL l4 c0 (hi-1)) ((lo+hi)/2) (b0-1)) k =
                valT (swapL l4 c0 (hi-1)) k := by
              unfold valT
              rw [getBang_swapL_other _ _ _ _ (by omega) (by omega)]
            rw [e, E3 _ (by omega) (by omega)]
            exact F3 k (by omega) hk2
          · have e : valT (swapL (swapL l4 c0 (hi-1)) ((lo+hi)/2) (b0-1)) (hi-1) =
                valT (swapL l4 c0 (hi-1)) (hi-1) := by
              unfold valT
              rw [getBang_swapL_other _ _ _ _ (by omega) (by omega)]
            rw [e]
            exact le_of_lt E2
      · -- data[m] < pivot
        rename_i h3
        dsimp only []
        split
        · rename_i h2
          have EPb : valT (swapL l4 c0 (hi-1)) (b0-1) = valT l4 lo := by
            have hle : valT (swapL l4 c0 (hi-1)) (b0-1) ≤ valT l4 lo := by
              rw [E3 _ (by omega) (by omega)]
              exact F1 _ (by omega) (by omega)
            simp only [ltCL, decide_eq_true_eq] at h2
            unfold valT at hle E5lo ⊢
            omega
          refine ⟨swapL l4 c0 (hi-1), b0-1, c0+1, _, rfl,
            hsw5, hlen5, by omega, by omega, by omega, ?_, ?_, ?_, le_of_lt E2⟩
          · intro k hk1 hk2
            rw [E3 _ (by omega) (by omega)]
            exact F1 _ hk1 (by omega)
          · intro k hk1 hk2
            have hk3 : k = b0-1 ∨ k = c0 := by omega
            rcases hk3 with hk | hk
            · rw [hk]
              exact EPb
            · rw [hk]
              exact E1
          · intro k hk1 hk2
            rw [E3 _ (by omega) (by omega)]
            exact F3 k (by omega) hk2
        · rename_i h2
          refine ⟨swapL l4 c0 (hi-1), b0, c0+1, _, rfl,
            hsw5, hlen5, by omega, by omega, by omega, ?_, ?_, ?_, le_of_lt E2⟩
          · intro k hk1 hk2
            rw [E3 _ (by omega) (by omega)]
            exact F1 _ hk1 hk2
          · intro k hk1 hk2
            have hk3 : k = c0 := by omega
            rw [hk3]
            exact E1
          · intro k hk1 hk2
            rw [E3 _ (by omega) (by omega)]
            exact F3 k (by omega) hk2
    · -- data[hi-1] > pivot: no swap
      rename_i h1
      have hlt1 : ltCL (l4.get! lo) (l4.get! (hi-1)) = true := not_not.mp h1
      have E2 : valT l4 lo < valT l4 (hi-1) := by
        simp only [ltCL, decide_eq_true_eq] at hlt1
        exact hlt1
      dsimp only []
      split
      · rename_i h3
        have EPm : valT l4 ((lo+hi)/2) = valT l4 lo := by
          have hle : valT l4 ((lo+hi)/2) ≤ valT l4 lo := F1 _ (by omega) (by omega)
          simp only [ltCL, decide_eq_true_eq] at h3
          unfold valT at hle ⊢
          omega
        dsimp only []
        split
        · rename_i h2
          have EPb : valT l4 (b0-1) = valT l4 lo := by
            have hle : valT l4 (b0-1) ≤ valT l4 lo := F1 _ (by omega) (by omega)
            simp only [ltCL, decide_eq_true_eq] at h2
            unfold valT at hle ⊢
            omega
          refine ⟨swapL l4 ((lo+hi)/2) (b0-1-1), b0-1-1, c0, _, rfl,
            ?_, length_swapL _ _ _, by omega, by omega, by omega, ?_, ?_, ?_, ?_⟩
          · exact SwapsIn.swap l4 ((lo+hi)/2) (b0-1-1) ⟨by omega, by omega⟩
              ⟨by omega, by omega⟩ (by omega) (by omega)
          · intro k hk1 hk2
            by_cases hkm : k = (lo+hi)/2
            · have e : valT (swapL l4 ((lo+hi)/2) (b0-1-1)) k = valT l4 (b0-1-1) := by
                unfold valT
                rw [hkm, getBang_swapL_fst _ _ _ (by omega)]
              rw [e]
              exact F1 _ (by omega) (by omega)
            · have e : valT (swapL l4 ((lo+hi)/2) (b0-1-1)) k = valT l4 k := by
                unfold valT
                rw [getBang_swapL_other _ _ _ _ hkm (by omega)]
              rw [e]
              exact F1 _ hk1 (by omega)
          · intro k hk1 hk2
            have hk3 : k = b0-1-1 ∨ k = b0-1 := by omega
            rcases hk3 with hk | hk
            · have e : valT (swapL l4 ((lo+hi)/2) (b0-1-1)) k = valT l4 ((lo+hi)/2) := by
                unfold valT
                rw [hk, getBang_swapL_snd _ _ _ (by omega)]
              exact e.trans EPm
            · have e : valT (swapL l4 ((lo+hi)/2) (b0-1-1)) k = valT l4 (b0-1) := by
                unfold valT
                rw [hk, getBang_swapL_other _ _ _ _ (by omega) (by omega)]
              exact e.trans EPb
          · intro k hk1 hk2
            have e : valT (swapL l4 ((lo+hi)/2) (b0-1-1)) k = valT l4 k := by
              unfold valT
              rw [getBang_swapL_other _ _ _ _ (by omega) (by omega)]
            rw [e]
            exact F3 k hk1 hk2
          · have e : valT (swapL l4 ((lo+hi)/2) (b0-1-1)) (hi-1) = valT l4 (hi-1) := by
              unfold valT
              rw [getBang_swapL_other _ _ _ _ (by omega) (by omega)]
            rw [e]
            exact le_of_lt E2
        · rename_i h2
          refine ⟨swapL l4 ((lo+hi)/2) (b0-1), b0-1, c0, _, rfl,
            ?_, length_swapL _ _ _, by omega, by omega, by omega, ?_, ?_, ?_, ?_⟩
          · exact SwapsIn.swap l4 ((lo+hi)/2) (b0-1) ⟨by omega, by omega⟩
              ⟨by omega, by omega⟩ (by omega) (by omega)
          · intro k hk1 hk2
            by_cases hkm : k = (lo+hi)/2
            · have e : valT (swapL l4 ((lo+hi)/2) (b0-1)) k = valT l4 (b0-1) := by
                unfold valT
                rw [hkm, getBang_swapL_fst _ _ _ (by omega)]
              rw [e]
              exact F1 _ (by omega) (by omega)
            · have e : valT (swapL l4 ((lo+hi)/2) (b0-1)) k = valT l4 k := by
                unfold valT
                rw [getBang_swapL_other _ _ _ _ hkm (by omega)]
              rw [e]
              exact F1 _ hk1 (by omega)
          · intro k hk1 hk2
            have hk3 : k = b0-1 := by omega
            have e : valT (swapL l4 ((lo+hi)/2) (b0-1)) k = valT l4 ((lo+hi)/2) := by
              unfold valT
              rw [hk3, getBang_swapL_snd _ _ _ (by omega)]
            exact e.trans EPm
          · intro k hk1 hk2
            have e : valT (swapL l4 ((lo+hi)/2) (b0-1)) k = valT l4 k := by
              unfold valT
              rw [getBang_swapL_other _ _ _ _ (by omega) (by omega)]
            rw [e]
            exact F3 k hk1 hk2
          · have e : valT (swapL l4 ((lo+hi)/2) (b0-1)) (hi-1) = valT l4 (hi-1) := by
              unfold valT
              rw [getBang_swapL_other _ _ _ _ (by omega) (by omega)]
            rw [e]
            exact le_of_lt E2
      · rename_i h3
        dsimp only []
        split
        · rename_i h2
          have EPb : valT l4 (b0-1) = valT l4 lo := by
            have hle : valT l4 (b0-1) ≤ valT l4 lo := F1 _ (by omega) (by omega)
            simp only [ltCL, decide_eq_true_eq] at h2
            unfold valT at hle ⊢
            omega
          refine ⟨l4, b0-1, c0, _, rfl, SwapsIn.refl l4, rfl,
            by omega, by omega, by omega, ?_, ?_, F3, le_of_lt E2⟩
          · intro k hk1 hk2
            exact F1 _ hk1 (by omega)
          · intro k hk1 hk2
            have hk3 : k = b0-1 := by omega
            rw [hk3]
            exact EPb
        · rename_i h2
          exact ⟨l4, b0, c0, _, rfl, SwapsIn.refl l4, rfl, hb0, by omega, by omega,
            F1, fun k hk1 hk2 => absurd hk2 (by omega), F3, le_of_lt E2⟩

/-- `dpNinther` only swaps inside `[lo, hi)` and preserves the length. -/
theorem dpNinther_spec (l : List ClusterLatency) (lo hi : Nat)
    (hlen : hi ≤ l.length) (hgap : 12 < hi - lo) :
    SwapsIn (fun p => lo ≤ p ∧ p < hi) l (dpNinther l lo hi) ∧
      (dpNinther l lo hi).length = l.length := by
  unfold dpNinther
  by_cases h40 : 40 < hi - lo
  · rw [if_pos h40]
    dsimp only []
    obtain ⟨w1, L1, _, _⟩ := medianOfThreeGo_spec l lo (lo+(hi-lo)/8) (lo+2*((hi-lo)/8))
      (by omega) (by omega) (by omega) (by omega) (by omega) (by omega)
    obtain ⟨x1, hx1⟩ : ∃ x, medianOfThreeGo l lo (lo+(hi-lo)/8) (lo+2*((hi-lo)/8)) = x :=
      ⟨_, rfl⟩
    rw [hx1] at w1 L1
    obtain ⟨w2, L2, _, _⟩ := medianOfThreeGo_spec x1 ((lo+hi)/2) ((lo+hi)/2-(hi-lo)/8)
      ((lo+hi)/2+(hi-lo)/8) (by omega) (by omega) (by omega)
      (by rw [L1]; omega) (by rw [L1]; omega) (by rw [L1]; omega)
    obtain ⟨x2, hx2⟩ : ∃ x, medianOfThreeGo x1 ((lo+hi)/2) ((lo+hi)/2-(hi-lo)/8)
        ((lo+hi)/2+(hi-lo)/8) = x := ⟨_, rfl⟩
    rw [hx2] at w2 L2
    obtain ⟨w3, L3, _, _⟩ := medianOfThreeGo_spec x2 (hi-1) (hi-1-(hi-lo)/8)
      (hi-1-2*((hi-lo)/8)) (by omega) (by omega) (by omega)
      (by rw [L2, L1]; omega) (by rw [L2, L1]; omega) (by rw [L2, L1]; omega)
    rw [hx1, hx2]
    refine ⟨?_, by rw [L3, L2, L1]⟩
    refine SwapsIn.trans (w1.mono ?_) (SwapsIn.trans (w2.mono ?_) (w3.mono ?_))
    · rintro k (rfl | rfl | rfl) <;> omega
    · rintro k (rfl | rfl | rfl) <;> omega
    · rintro k (rfl | rfl | rfl) <;> omega
  · rw [if_neg h40]
    exact ⟨SwapsIn.refl l, rfl⟩

/-- The closing `data.Swap(pivot, b-1)` of `doPivot_func`: it moves the pivot
between the two regions, producing the final three-way split. -/
theorem dpAssemble (l xv : List ClusterLatency) (lo hi bv cv : Nat) (P : Int)
    (hsw : SwapsIn (fun p => lo ≤ p ∧ p < hi) l xv) (hlen : xv.length = l.length)
    (hlenl : hi ≤ l.length) (hlo : lo + 1 < hi)
    (hbx : lo + 1 ≤ bv) (hbc : bv ≤ cv) (hcx : cv ≤ hi - 1)
    (hPx : valT xv lo = P)
    (hL : ∀ k, lo + 1 ≤ k → k < bv → valT xv k ≤ P)
    (hM : ∀ k, bv ≤ k → k < cv → valT xv k = P)
    (hR : ∀ k, cv ≤ k → k < hi - 1 → P < valT xv k)
    (hE : P ≤ valT xv (hi-1)) :
    SwapsIn (fun p => lo ≤ p ∧ p < hi) l (swapL xv lo (bv-1)) ∧
      (swapL xv lo (bv-1)).length = l.length ∧
      lo ≤ bv-1 ∧ bv-1 < cv ∧ cv ≤ hi ∧
      (∀ k, lo ≤ k → k < bv-1 → valT (swapL xv lo (bv-1)) k ≤ P) ∧
      (∀ k, bv-1 ≤ k → k < cv → valT (swapL xv lo (bv-1)) k = P) ∧
      (∀ k, cv ≤ k → k < hi → P ≤ valT (swapL xv lo (bv-1)) k) := by
  have hlox : lo < xv.length := by omega
  have hbvx : bv - 1 < xv.length := by omega
  have hswF : SwapsIn (fun p => lo ≤ p ∧ p < hi) l (swapL xv lo (bv-1)) :=
    SwapsIn.trans hsw (SwapsIn.swap xv lo (bv-1) ⟨le_refl _, by omega⟩
      ⟨by omega, by omega⟩ hlox hbvx)
  have hlenF : (swapL xv lo (bv-1)).length = l.length := (length_swapL _ _ _).trans hlen
  have e1 : valT (swapL xv lo (bv-1)) lo = valT xv (bv-1) := by
    unfold valT
    rw [getBang_swapL_fst _ _ _ hlox]
  have e2 : valT (swapL xv lo (bv-1)) (bv-1) = valT xv lo := by
    unfold valT
    rw [getBang_swapL_snd _ _ _ hbvx]
  have e3 : ∀ k, k ≠ lo → k ≠ bv-1 → valT (swapL xv lo (bv-1)) k = valT xv k := by
    intro k hk1 hk2
    unfold valT
    rw [getBang_swapL_other _ _ _ _ hk1 hk2]
  refine ⟨hswF, hlenF, by omega, by omega, by omega, ?_, ?_, ?_⟩
  · intro k hk1 hk2
    by_cases hklo : k = lo
    · rw [hklo, e1]
      exact hL (bv-1) (by omega) (by omega)
    · rw [e3 k hklo (by omega)]
      exact hL k (by omega) (by omega)
  · intro k hk1 hk2
    by_cases hkbv : k = bv-1
    · rw [hkbv, e2]
      exact hPx
    · rw [e3 k (by omega) hkbv]
      exact hM k (by omega) hk2
  · intro k hk1 hk2
    rw [e3 k (by omega) (by omega)]
    by_cases hkhi : k = hi-1
    · rw [hkhi]
      exact hE
    · exact le_of_lt (hR k hk1 (by omega))

/-- `doPivot_func(data, lo, hi)` on a segment of more than 12 elements:
the result is a swap-permutation of the segment partitioned as
`[lo, midlo) ≤ P`, `[midlo, midhi) = P`, `[midhi, hi) ≥ P` for the pivot
value `P`. -/
theorem doPivotGo_spec (l : List ClusterLatency) (lo hi : Nat)
    (hlen : hi ≤ l.length) (hgap : 12 < hi - lo) :
    ∃ l' mlo mhi, doPivotGo l lo hi = (l', mlo, mhi) ∧
      SwapsIn (fun p => lo ≤ p ∧ p < hi) l l' ∧ l'.length = l.length ∧
      lo ≤ mlo ∧ mlo < mhi ∧ mhi ≤ hi ∧
      ∃ P, (∀ k, lo ≤ k → k < mlo → valT l' k ≤ P) ∧
        (∀ k, mlo ≤ k → k < mhi → valT l' k = P) ∧
        (∀ k, mhi ≤ k → k < hi → P ≤ valT l' k) := by
  obtain ⟨wN, LN⟩ := dpNinther_spec l lo hi hlen hgap
  obtain ⟨w3, L3, o3a, o3b⟩ := medianOfThreeGo_spec (dpNinther l lo hi) lo ((lo+hi)/2)
    (hi-1) (by omega) (by omega) (by omega) (by rw [LN]; omega) (by rw [LN]; omega)
    (by rw [LN]; omega)
  obtain ⟨l3, hl3⟩ : ∃ x, medianOfThreeGo (dpNinther l lo hi) lo ((lo+hi)/2) (hi-1) = x :=
    ⟨_, rfl⟩
  rw [hl3] at w3 L3 o3a o3b
  have hlen3 : hi ≤ l3.length := by rw [L3, LN]; exact hlen
  obtain ⟨a0, ha0⟩ : ∃ x, dpScanA (hi+1) l3 (lo+1) (hi-1) lo = x := ⟨_, rfl⟩
  obtain ⟨sa1, sa2, sa3, sa4⟩ := dpScanA_spec (hi+1) l3 (lo+1) (hi-1) lo (by omega) (by omega)
  rw [ha0] at sa1 sa2 sa3 sa4
  obtain ⟨l4, b0, c0, heqM, hb0c0, ha0b0, hc0hi, hswM, hlenM, hregL, hregR⟩ :=
    dpMainLoop_spec (hi+1) l3 a0 (hi-1) lo (by omega) sa2 (by omega) (by omega)
  have hf4lo : valT l4 lo = valT l3 lo := by
    unfold valT
    rw [hswM.frame lo (by rintro ⟨h1, h2⟩; omega)]
  have hf4hi : valT l4 (hi-1) = valT l3 (hi-1) := by
    unfold valT
    rw [hswM.frame (hi-1) (by rintro ⟨h1, h2⟩; omega)]
  have F1 : ∀ k, lo + 1 ≤ k → k < b0 → valT l4 k ≤ valT l4 lo := by
    intro k hk1 hk2
    rw [hf4lo]
    by_cases hka : k < a0
    · have e : valT l4 k = valT l3 k := by
        unfold valT
        rw [hswM.frame k (by rintro ⟨h1, h2⟩; omega)]
      rw [e]
      exact le_of_lt (sa3 k hk1 hka)
    · exact hregL k (by omega) hk2
  have F3 : ∀ k, c0 ≤ k → k < hi - 1 → valT l4 lo < valT l4 k := by
    intro k hk1 hk2
    rw [hf4lo]
    exact hregR k hk1 hk2
  have F4 : valT l4 lo ≤ valT l4 (hi-1) := by
    rw [hf4lo, hf4hi]
    exact o3b
  obtain ⟨l7, b3, c2, prot, heqU, hswU, hlenU, hb3, hb3c2, hc2, G1, G2, G3, G4⟩ :=
    dpDups_spec l4 lo hi b0 c0 (by rw [hlenM]; exact hlen3) hgap (by omega) hb0c0
      (by omega) F1 F3 F4
  have hf7lo : valT l7 lo = valT l4 lo := by
    unfold valT
    rw [hswU.frame lo (by rintro ⟨h1, _⟩; omega)]
  have hlen7 : l7.length = l.length := by rw [hlenU, hlenM, L3, LN]
  have hswAll : SwapsIn (fun p => lo ≤ p ∧ p < hi) l l7 := by
    refine SwapsIn.trans (SwapsIn.trans wN (w3.mono ?_)) (SwapsIn.trans (hswM.mono ?_)
      (hswU.mono ?_))
    · rintro k (rfl | rfl | rfl) <;> omega
    · rintro k ⟨h1, h2⟩
      exact ⟨by omega, by omega⟩
    · rintro k ⟨h1, h2⟩
      exact ⟨by omega, by omega⟩
  unfold doPivotGo
  dsimp only []
  rw [hl3, ha0, heqM]
  dsimp only []
  rw [heqU]
  dsimp only []
  by_cases hprot : prot = true
  · rw [if_pos hprot]
    by_cases hab : a0 ≤ b3
    · obtain ⟨lp, a', b', heqP, hab', ha', hb', hswP, hlenP, hPA, hPB⟩ :=
        dpProtectLoop_spec (hi+1) l7 a0 b3 lo (by omega) hab (by omega) (by omega)
          (by
            intro k hk1 hk2
            rw [hf7lo]
            exact G1 k (by omega) (by omega))
      rw [heqP]
      dsimp only []
      have hfPlo : valT lp lo = valT l7 lo := by
        unfold valT
        rw [hswP.frame lo (by rintro ⟨h1, _⟩; omega)]
      obtain ⟨A1, A2, A3, A4, A5, A6, A7, A8⟩ :=
        dpAssemble l lp lo hi b' c2 (valT l4 lo)
          (SwapsIn.trans hswAll (hswP.mono (fun k hk => ⟨by omega, by omega⟩)))
          (by rw [hlenP]; exact hlen7) hlen (by omega)
          (by omega) (by omega) hc2
          (by rw [hfPlo, hf7lo])
          (by
            intro k hk1 hk2
            by_cases hka : k < a0
            · have e : valT lp k = valT l7 k := by
                unfold valT
                rw [hswP.frame k (by rintro ⟨h1, h2⟩; omega)]
              rw [e]
              exact G1 k hk1 (by omega)
            · have hk3 := hPA k (by omega) (by omega)
              rw [hf7lo] at hk3
              exact le_of_lt hk3)
          (by
            intro k hk1 hk2
            by_cases hkb : k < b3
            · have hk3 := hPB k hk1 hkb
              rw [hf7lo] at hk3
              exact hk3
            · have e : valT lp k = valT l7 k := by
                unfold valT
                rw [hswP.frame k (by rintro ⟨h1, h2⟩; omega)]
              rw [e]
              exact G2 k (by omega) hk2)
          (by
            intro k hk1 hk2
            have e : valT lp k = valT l7 k := by
              unfold valT
              rw [hswP.frame k (by rintro ⟨h1, h2⟩; omega)]
            rw [e]
            exact G3 k (by omega) hk2)
          (by
            have e : valT lp (hi-1) = valT l7 (hi-1) := by
              unfold valT
              rw [hswP.frame (hi-1) (by rintro ⟨h1, h2⟩; omega)]
            rw [e]
            exact G4)
      exact ⟨_, _, _, rfl, A1, A2, A3, A4, A5, valT l4 lo, A6, A7, A8⟩
    · have heqP : dpProtectLoop (hi+1) l7 a0 b3 lo = (l7, a0, b3) := by
        rw [dpProtectLoop]
        have hs1 : dpProtectLoop.dpScanBDown (hi+1) l7 a0 b3 lo = b3 := by
          rw [dpProtectLoop.dpScanBDown]
          rw [if_neg (fun hh => absurd hh.1 (by omega))]
        have hs2 : dpProtectLoop.dpScanAUp (hi+1) l7 a0 b3 lo = a0 := by
          rw [dpProtectLoop.dpScanAUp]
          rw [if_neg (fun hh => absurd hh.1 (by omega))]
        rw [hs1, hs2]
        rw [if_pos (by omega)]
      rw [heqP]
      dsimp only []
      obtain ⟨A1, A2, A3, A4, A5, A6, A7, A8⟩ :=
        dpAssemble l l7 lo hi b3 c2 (valT l4 lo) hswAll hlen7 hlen (by omega)
          hb3 hb3c2 hc2 hf7lo G1 G2 G3 G4
      exact ⟨_, _, _, rfl, A1, A2, A3, A4, A5, valT l4 lo, A6, A7, A8⟩
  · rw [if_neg hprot]
    dsimp only []
    obtain ⟨A1, A2, A3, A4, A5, A6, A7, A8⟩ :=
      dpAssemble l l7 lo hi b3 c2 (valT l4 lo) hswAll hlen7 hlen (by omega)
        hb3 hb3c2 hc2 hf7lo G1 G2 G3 G4
    exact ⟨_, _, _, rfl, A1, A2, A3, A4, A5, valT l4 lo, A6, A7, A8⟩

/-- `quickSort_func(data, a, b, maxDepth)` sorts the segment `[a, b)` by
swaps inside it, whichever of its three paths (small-segment ShellSort +
insertion sort, heapsort at depth exhaustion, or partition and recurse) it
takes. -/
theorem quickSortGo_correct : ∀ (fuel : Nat) (l : List ClusterLatency) (a b md : Nat),
    b ≤ l.length → b - a ≤ fuel →
    SwapsIn (fun k => a ≤ k ∧ k < b) l (quickSortGo fuel l a b md) ∧
      (quickSortGo fuel l a b md).length = l.length ∧
      SortedSeg (quickSortGo fuel l a b md) a b := by
  intro fuel
  induction fuel with
  | zero =>
    intro l a b md hb hf
    exact ⟨SwapsIn.refl l, rfl, sortedSeg_vacuous l a b (by omega)⟩
  | succ fuel ih =>
    intro l a b md hb hf
    rw [quickSortGo]
    by_cases h12 : 12 < b - a
    · rw [if_pos h12]
      by_cases hmd : md = 0
      · rw [if_pos hmd]
        obtain ⟨w, s, L⟩ := heapSortGo_correct l a b hb (by omega)
        exact ⟨w, L, s⟩
      · rw [if_neg hmd]
        dsimp only []
        obtain ⟨l1, mlo, mhi, heqP, hswP, hlenP, hamlo, hmm2, hmhib, P, HL, HM, HR⟩ :=
          doPivotGo_spec l a b hb h12
        rw [heqP]
        dsimp only []
        by_cases hside : mlo - a < b - mhi
        · rw [if_pos hside]
          obtain ⟨w1, L1, s1⟩ := ih l1 a mlo (md-1) (by omega) (by omega)
          obtain ⟨w2, L2, s2⟩ := ih (quickSortGo fuel l1 a mlo (md-1)) mhi b (md-1)
            (by rw [L1, hlenP]; exact hb) (by omega)
          have hfr2 : ∀ k, k < mhi →
              valT (quickSortGo fuel (quickSortGo fuel l1 a mlo (md-1)) mhi b (md-1)) k =
                valT (quickSortGo fuel l1 a mlo (md-1)) k := by
            intro k hk
            unfold valT
            rw [w2.frame k (by rintro ⟨h1, _⟩; omega)]
          have hfr1 : ∀ k, mlo ≤ k →
              valT (quickSortGo fuel l1 a mlo (md-1)) k = valT l1 k := by
            intro k hk
            unfold valT
            rw [w1.frame k (by rintro ⟨_, h2⟩; omega)]
          refine ⟨?_, ?_, ?_⟩
          · exact SwapsIn.trans hswP (SwapsIn.trans
              (w1.mono (fun k hk => ⟨hk.1, by omega⟩))
              (w2.mono (fun k hk => ⟨by omega, hk.2⟩)))
          · rw [L2, L1, hlenP]
          · have hA : ∀ k, a ≤ k → k < mlo →
                valT (quickSortGo fuel (quickSortGo fuel l1 a mlo (md-1)) mhi b (md-1)) k
                  ≤ P := by
              intro k hk1 hk2
              rw [hfr2 k (by omega)]
              exact w1.val_pred (fun z => z ≤ P) (fun p hp => HL p hp.1 hp.2) k ⟨hk1, hk2⟩
            have hM2 : ∀ k, mlo ≤ k → k < mhi →
                valT (quickSortGo fuel (quickSortGo fuel l1 a mlo (md-1)) mhi b (md-1)) k
                  = P := by
              intro k hk1 hk2
              rw [hfr2 k hk2, hfr1 k hk1]
              exact HM k hk1 hk2
            have hB : ∀ k, mhi ≤ k → k < b →
                P ≤ valT (quickSortGo fuel (quickSortGo fuel l1 a mlo (md-1)) mhi b
                  (md-1)) k := by
              intro k hk1 hk2
              refine w2.val_pred (fun z => P ≤ z) ?_ k ⟨hk1, hk2⟩
              intro p hp
              rw [hfr1 p (by omega)]
              exact HR p hp.1 hp.2
            refine sortedSeg_glue ?_ s2 hA hM2 hB
            exact sortedSeg_of_frame (fun k hk1 hk2 => hfr2 k (by omega)) s1
        · rw [if_neg hside]
          obtain ⟨w1, L1, s1⟩ := ih l1 mhi b (md-1) (by rw [hlenP]; exact hb) (by omega)
          obtain ⟨w2, L2, s2⟩ := ih (quickSortGo fuel l1 mhi b (md-1)) a mlo (md-1)
            (by rw [L1, hlenP]; omega) (by omega)
          have hfr2 : ∀ k, mlo ≤ k →
              valT (quickSortGo fuel (quickSortGo fuel l1 mhi b (md-1)) a mlo (md-1)) k =
                valT (quickSortGo fuel l1 mhi b (md-1)) k := by
            intro k hk
            unfold valT
            rw [w2.frame k (by rintro ⟨_, h2⟩; omega)]
          have hfr1 : ∀ k, k < mhi →
              valT (quickSortGo fuel l1 mhi b (md-1)) k = valT l1 k := by
            intro k hk
            unfold valT
            rw [w1.frame k (by rintro ⟨h1, _⟩; omega)]
          refine ⟨?_, ?_, ?_⟩
          · exact SwapsIn.trans hswP (SwapsIn.trans
              (w1.mono (fun k hk => ⟨by omega, hk.2⟩))
              (w2.mono (fun k hk => ⟨hk.1, by omega⟩)))
          · rw [L2, L1, hlenP]
          · have hA : ∀ k, a ≤ k → k < mlo →
                valT (quickSortGo fuel (quickSortGo fuel l1 mhi b (md-1)) a mlo (md-1)) k
                  ≤ P := by
              intro k hk1 hk2
              refine w2.val_pred (fun z => z ≤ P) ?_ k ⟨hk1, hk2⟩
              intro p hp
              rw [hfr1 p (by omega)]
              exact HL p hp.1 hp.2
            have hM2 : ∀ k, mlo ≤ k → k < mhi →
                valT (quickSortGo fuel (quickSortGo fuel l1 mhi b (md-1)) a mlo (md-1)) k
                  = P := by
              intro k hk1 hk2
              rw [hfr2 k hk1, hfr1 k hk2]
              exact HM k hk1 hk2
            have hB : ∀ k, mhi ≤ k → k < b →
                P ≤ valT (quickSortGo fuel (quickSortGo fuel l1 mhi b (md-1)) a mlo
                  (md-1)) k := by
              intro k hk1 hk2
              rw [hfr2 k (by omega)]
              exact w1.val_pred (fun z => P ≤ z) (fun p hp => HR p hp.1 hp.2) k ⟨hk1, hk2⟩
            refine sortedSeg_glue s2 ?_ hA hM2 hB
            exact sortedSeg_of_frame (fun k hk1 hk2 => hfr2 k (by omega)) s1
    · rw [if_neg h12]
      by_cases h1 : 1 < b - a
      · rw [if_pos h1]
        obtain ⟨w, s, L⟩ := smallSortGo_correct l a b hb h1
        exact ⟨w, L, s⟩
      · rw [if_neg h1]
        exact ⟨SwapsIn.refl l, rfl, sortedSeg_vacuous l a b (by omega)⟩


/-- Claim C5 (counterexample): the printed ranking is **not** stable. On
seven entries with a 30 ms tie (`p3` appended before `p6`), the ShellSort
gap-6 pass of `sort.Slice` swaps positions 0 and 6 (50 ms > 30 ms), carrying
`p6` past the tied `p3`; the subsequent insertion sort keeps that order, so
the output lists `p6` before `p3` — the opposite of their append order — and
`printResult` prints them that way. -/
theorem c5_counterexample :
    (sortSlice ex7).map (fun e => e.clusterNode.pubkey) =
        ["p1", "p2", "p6", "p3", "p4", "p5", "p0"] ∧
      keyFilter 30000000 ex7 = [mkLat 30 "h3" "p3", mkLat 30 "h6" "p6"] ∧
      keyFilter 30000000 (sortSlice ex7) = [mkLat 30 "h6" "p6", mkLat 30 "h3" "p3"] ∧
      (printResult ex7 10).1 =
        ["[0] time:10ms, ip:h1, pubkey:p1",
         "[1] time:20ms, ip:h2, pubkey:p2",
         "[2] time:30ms, ip:h6, pubkey:p6",
         "[3] time:30ms, ip:h3, pubkey:p3",
         "[4] time:40ms, ip:h4, pubkey:p4",
         "[5] time:45ms, ip:h5, pubkey:p5",
         "[6] time:50ms, ip:h0, pubkey:p0"] := by
  refine ⟨rfl, rfl, rfl, rfl⟩

/-- Claim C5 (amended): for every fixed result set the printed ranking is
ascending by latency and a permutation of the measurements — the embedded
pre-Go-1.19 `sort.Slice` sorts every input, through whichever of its paths
(gap-6 ShellSort + insertion sort up to 12 entries, median-of-three /
Bentley-McIlroy quicksort partitioning, heapsort at depth exhaustion) the
slice takes — and the output is deterministic for a fixed result set
(`sortSlice` is a function). Stability, the refuted half of the original
claim, is not restored: as the counterexample shows, ties can be reordered
from 7 entries on. -/
theorem c5_amended (l : List ClusterLatency) :
    List.Sorted leT (sortSlice l) ∧ (sortSlice l).Perm l := by
  obtain ⟨w, L, s⟩ := quickSortGo_correct (l.length + 1) l 0 l.length
    (maxDepthGo l.length) (le_refl _) (by omega)
  constructor
  · apply sorted_of_sortedSeg
    have hs : SortedSeg (sortSlice l) 0 (sortSlice l).length := by
      unfold sortSlice
      rw [L]
      exact s
    exact hs
  · exact w.perm

/-- Claim C9 (counterexample): `buildURL` does not return scheme-and-host
inputs verbatim — `url.Parse` lower-cases the scheme, so `HTTP://example.com`
comes back as `http://example.com`; and a value that `url.Parse` rejects
(here: one containing the control byte 0x01) yields an error instead of the
claimed `http://api.<value>.solana.com` expansion. -/
theorem c9_not_verbatim :
    buildURL "HTTP://example.com" = .ok "http://example.com" ∧
      ("http://example.com" : String) ≠ "HTTP://example.com" ∧
      buildURL (String.mk ['a', 'b', Char.ofNat 1]) =
        .error "net/url: invalid control character in URL" := by
  refine ⟨rfl, by decide, rfl⟩

/-- Claim C9 (amended): values rejected by `url.Parse` make `buildURL` fail
with that error; values parsed with nonempty scheme and host are returned as
the parse's re-serialization (`URL.String()`, equal to the input only up to
normalization such as scheme lower-casing); all other accepted values are
expanded to the serialization of `url.Parse("http://api." + value +
".solana.com")` — in particular the default `mainnet-beta` yields
`http://api.mainnet-beta.solana.com`, and a canonical full URL is returned
verbatim. -/
theorem c9_amended (s : String) :
    (∀ e, urlParse s = .error e → buildURL s = .error e) ∧
      (∀ u, urlParse s = .ok u → u.scheme ≠ [] → u.host ≠ [] →
        buildURL s = .ok (urlString u)) ∧
      (∀ u, urlParse s = .ok u → (u.scheme = [] ∨ u.host = []) →
        buildURL s = Except.map urlString (urlParse ("http://api." ++ s ++ ".solana.com"))) ∧
      buildURL "mainnet-beta" = .ok "http://api.mainnet-beta.solana.com" ∧
      buildURL "http://example.com:8899" = .ok "http://example.com:8899" := by
  refine ⟨?_, ?_, ?_, rfl, rfl⟩
  · intro e h
    simp [buildURL, h]
  · intro u h hs hh
    simp [buildURL, h, hs, hh]
  · intro u h hd
    simp only [buildURL, h]
    rw [if_pos (by rcases hd with h1 | h1 <;> simp [h1])]
    cases hp : urlParse ("http://api." ++ s ++ ".solana.com") <;> rfl

/-- Claim C9 (witness for the amended theorem): the default network name. -/
theorem c9_amended_witness :
    buildURL "mainnet-beta" =
      Except.map urlString (urlParse "http://api.mainnet-beta.solana.com") :=
  (c9_amended "mainnet-beta").2.2.1
    ⟨[], [], none, [], "mainnet-beta".data, [], false, [], [], []⟩ (by rfl) (Or.inl rfl)

end SolanaLatencyChecker
